import Mathlib

/-! # mqLinq: a shallow embedding of `linq.h`

The development models the cursor classes of `linq.h` (the adapter iterators, the
type-erased `any_iterator` and the `linq_collection` facade) and proves properties
of the query operations built from them.

* A value of the C++ program is a `Val`: an element, a key, a `std::pair`, a
  `std::tuple` of three components, or a `linq<T>` handle.
* `any_iterator` holds a `std::shared_ptr` to a cursor object.  Copies of an
  `any_iterator` share that object, so the model keeps the objects in a heap
  (`List Iter`) and an `any_iterator` is an address into it.
* Loops that the C++ code runs until a cursor meets its sentinel take a fuel
  argument; running out of fuel is the error `Err.out_of_fuel`.
-/

namespace mqLinq

/-- The ways an operation can fail. -/
inductive Err where
  /-- undefined behaviour: reading or moving past the end of a container, or a
  dangling `shared_ptr` -/
  | undefined_behaviour
  /-- the exception `collection_empty` -/
  | collection_empty
  /-- the exception `element_not_unique` -/
  | element_not_unique
  /-- the exception `std::out_of_range` -/
  | out_of_range
  /-- the loop did not finish within the fuel given -/
  | out_of_fuel
  deriving DecidableEq, Repr

/-- The values that flow through a pipeline. `linq b e` is a `linq<T>` handle: the
addresses of the heap objects of its `_begin` and `_end` `any_iterator`s; `bool b` is a
value of type `bool`, which `select` with a predicate yields. -/
inductive Val (α K : Type) where
  | elem (a : α)
  | key (k : K)
  | pair (a b : Val α K)
  | tuple (a b c : Val α K)
  | linq (b e : Nat)
  | bool (b : Bool)
  deriving DecidableEq, Repr

/-- The cursor classes of `linq.h`. `container xs pos` is a position in a container
(a raw container iterator or a `boxed_container_iterator`); each adapter stores its
upstream cursor(s) by value, as the C++ classes do; `any_iterator p` is the
`shared_ptr` to the heap object at address `p`. -/
inductive Iter (α K : Type) where
  | container (xs : List (Val α K)) (pos : Nat)
  | empty_iterator
  | select_iterator (_iter : Iter α K) (_func : Val α K → Val α K)
  | where_iterator (_iter _end : Iter α K) (_func : Val α K → Bool)
  | skip_iterator (_iter _end : Iter α K)
  | skip_while_iterator (_iter _end : Iter α K) (_func : Val α K → Bool)
  | take_iterator (_iter _end : Iter α K) (_current _count : Nat)
  | take_while_iterator (_iter _end : Iter α K) (_func : Val α K → Bool)
  | concat_iterator (_iter1 _end1 _iter2 _end2 : Iter α K)
  | zip_iterator (_iter1 _end1 _iter2 _end2 : Iter α K)
  | any_iterator (p : Nat)

/-- The heap of `any_content` objects. -/
abbrev Heap (α K : Type) := List (Iter α K)

variable {α K : Type}

/-- Whether two cursors are of the same cursor class, adapter for adapter. It stands
for the test `dynamic_cast<const any_content<TIterator>*>` of
`any_content::operator==` on the cursors that the pipelines of this file compare, the
begin cursor and the sentinel of one pipeline, which are of one C++ type. The C++
type of a cursor also holds the types of its functors and of its container, which
the model does not record: what this function answers for cursors of two different
pipelines is an upper bound of the test only. -/
def Iter.same_type : Iter α K → Iter α K → Bool
  | .container _ _, .container _ _ => true
  | .empty_iterator, .empty_iterator => true
  | .select_iterator a _, .select_iterator b _ => same_type a b
  | .where_iterator a _ _, .where_iterator b _ _ => same_type a b
  | .skip_iterator a _, .skip_iterator b _ => same_type a b
  | .skip_while_iterator a _ _, .skip_while_iterator b _ _ => same_type a b
  | .take_iterator a _ _ _, .take_iterator b _ _ _ => same_type a b
  | .take_while_iterator a _ _, .take_while_iterator b _ _ => same_type a b
  | .concat_iterator a1 _ a2 _, .concat_iterator b1 _ b2 _ => same_type a1 b1 && same_type a2 b2
  | .zip_iterator a1 _ a2 _, .zip_iterator b1 _ b2 _ => same_type a1 b1 && same_type a2 b2
  | .any_iterator _, .any_iterator _ => true
  | _, _ => false

/-- `operator==`. The one-upstream adapters inherit it from `iterator_common_impl`
(`_iter == other._iter`), the two-upstream ones compare both upstream cursors,
`empty_iterator` always answers true, and `any_iterator` compares the two heap
objects after the `dynamic_cast`. Two cursors of a container compare by position:
the pipelines of this file compare cursors of one container only. -/
def Iter.eq : Nat → Heap α K → Iter α K → Iter α K → Except Err Bool
  | 0, _, _, _ => .error .out_of_fuel
  | n + 1, h, a, b =>
    match a, b with
    | .container _ p, .container _ q => .ok (decide (p = q))
    | .empty_iterator, .empty_iterator => .ok true
    | .select_iterator a _, .select_iterator b _ => Iter.eq n h a b
    | .where_iterator a _ _, .where_iterator b _ _ => Iter.eq n h a b
    | .skip_iterator a _, .skip_iterator b _ => Iter.eq n h a b
    | .skip_while_iterator a _ _, .skip_while_iterator b _ _ => Iter.eq n h a b
    | .take_iterator a _ _ _, .take_iterator b _ _ _ => Iter.eq n h a b
    | .take_while_iterator a _ _, .take_while_iterator b _ _ => Iter.eq n h a b
    | .concat_iterator a1 _ a2 _, .concat_iterator b1 _ b2 _ =>
      match Iter.eq n h a1 b1 with
      | .ok true => Iter.eq n h a2 b2
      | r => r
    | .zip_iterator a1 _ a2 _, .zip_iterator b1 _ b2 _ =>
      match Iter.eq n h a1 b1 with
      | .ok true => Iter.eq n h a2 b2
      | r => r
    | .any_iterator p, .any_iterator q =>
      match h[p]?, h[q]? with
      | some a', some b' => if a'.same_type b' then Iter.eq n h a' b' else .ok false
      | _, _ => .error .undefined_behaviour
    | _, _ => .error .undefined_behaviour

/-- `operator!=`: the negation of `operator==` for every cursor class. -/
def Iter.ne (n : Nat) (h : Heap α K) (a b : Iter α K) : Except Err Bool :=
  match Iter.eq n h a b with
  | .ok r => .ok (!r)
  | .error e => .error e

/-- `operator*`. -/
def Iter.deref : Nat → Heap α K → Iter α K → Except Err (Val α K)
  | 0, _, _ => .error .out_of_fuel
  | n + 1, h, it =>
    match it with
    | .container xs p =>
      match xs[p]? with
      | some v => .ok v
      | none => .error .undefined_behaviour
    | .empty_iterator => .error .collection_empty
    | .select_iterator a f =>
      match Iter.deref n h a with
      | .ok v => .ok (f v)
      | .error e => .error e
    | .where_iterator a _ _ => Iter.deref n h a
    | .skip_iterator a _ => Iter.deref n h a
    | .skip_while_iterator a _ _ => Iter.deref n h a
    | .take_iterator a _ _ _ => Iter.deref n h a
    | .take_while_iterator a _ _ => Iter.deref n h a
    | .concat_iterator i1 e1 i2 _ =>
      match Iter.ne n h i1 e1 with
      | .ok true => Iter.deref n h i1
      | .ok false => Iter.deref n h i2
      | .error e => .error e
    | .zip_iterator i1 _ i2 _ =>
      match Iter.deref n h i1 with
      | .ok a =>
        match Iter.deref n h i2 with
        | .ok b => .ok (.pair a b)
        | .error e => .error e
      | .error e => .error e
    | .any_iterator p =>
      match h[p]? with
      | some c => Iter.deref n h c
      | none => .error .undefined_behaviour

mutual
/-- `operator++`. -/
def Iter.advance : Nat → Heap α K → Iter α K → Except Err (Iter α K × Heap α K)
  | 0, _, _ => .error .out_of_fuel
  | n + 1, h, it =>
    match it with
    | .container xs p =>
      if p < xs.length then .ok (.container xs (p + 1), h) else .error .undefined_behaviour
    | .empty_iterator => .ok (.empty_iterator, h)
    | .select_iterator a f =>
      match Iter.advance n h a with
      | .ok (a', h') => .ok (.select_iterator a' f, h')
      | .error e => .error e
    | .where_iterator a e f =>
      match Iter.advance n h a with
      | .ok (a', h') =>
        match check_move_iterator n h' a' e f with
        | .ok (a'', h'') => .ok (.where_iterator a'' e f, h'')
        | .error err => .error err
      | .error err => .error err
    | .skip_iterator a e =>
      match Iter.advance n h a with
      | .ok (a', h') => .ok (.skip_iterator a' e, h')
      | .error err => .error err
    | .skip_while_iterator a e f =>
      match Iter.advance n h a with
      | .ok (a', h') => .ok (.skip_while_iterator a' e f, h')
      | .error err => .error err
    | .take_iterator a e cur cnt =>
      if cur + 1 = cnt then .ok (.take_iterator e e (cur + 1) cnt, h)
      else
        match Iter.advance n h a with
        | .ok (a', h') => .ok (.take_iterator a' e (cur + 1) cnt, h')
        | .error err => .error err
    | .take_while_iterator a e f =>
      match Iter.advance n h a with
      | .ok (a', h') =>
        match Iter.deref n h' a' with
        | .ok v => if !f v then .ok (.take_while_iterator e e f, h') else .ok (.take_while_iterator a' e f, h')
        | .error err => .error err
      | .error err => .error err
    | .concat_iterator i1 e1 i2 e2 =>
      match Iter.ne n h i1 e1 with
      | .ok true =>
        match Iter.advance n h i1 with
        | .ok (i1', h') => .ok (.concat_iterator i1' e1 i2 e2, h')
        | .error err => .error err
      | .ok false =>
        match Iter.advance n h i2 with
        | .ok (i2', h') => .ok (.concat_iterator i1 e1 i2' e2, h')
        | .error err => .error err
      | .error err => .error err
    | .zip_iterator i1 e1 i2 e2 =>
      match Iter.ne n h i1 e1 with
      | .ok true =>
        match Iter.ne n h i2 e2 with
        | .ok true =>
          match Iter.advance n h i1 with
          | .ok (i1', h') =>
            match Iter.advance n h' i2 with
            | .ok (i2', h'') => .ok (.zip_iterator i1' e1 i2' e2, h'')
            | .error err => .error err
          | .error err => .error err
        | .ok false => .ok (.zip_iterator i1 e1 i2 e2, h)
        | .error err => .error err
      | .ok false => .ok (.zip_iterator i1 e1 i2 e2, h)
      | .error err => .error err
    | .any_iterator p =>
      match h[p]? with
      | some c =>
        match Iter.advance n h c with
        | .ok (c', h') => .ok (.any_iterator p, h'.set p c')
        | .error err => .error err
      | none => .error .undefined_behaviour
/-- `where_iterator::check_move_iterator`: skip forward while the cursor is not at
`_end` and the element is rejected. -/
def check_move_iterator : Nat → Heap α K → Iter α K → Iter α K → (Val α K → Bool) →
    Except Err (Iter α K × Heap α K)
  | 0, _, _, _, _ => .error .out_of_fuel
  | n + 1, h, it, e, f =>
    match Iter.ne n h it e with
    | .ok true =>
      match Iter.deref n h it with
      | .ok v =>
        if !f v then
          match Iter.advance n h it with
          | .ok (it', h') => check_move_iterator n h' it' e f
          | .error err => .error err
        else .ok (it, h)
      | .error err => .error err
    | .ok false => .ok (it, h)
    | .error err => .error err
end

/-- The loop of the constructor of `skip_iterator`:
`for (i = 0; i != count && _iter != _end; i++, ++_iter)`. -/
def skip_loop : Nat → Heap α K → Iter α K → Iter α K → Nat → Nat →
    Except Err (Iter α K × Heap α K)
  | 0, _, _, _, _, _ => .error .out_of_fuel
  | n + 1, h, it, e, i, count =>
    if i ≠ count then
      match Iter.ne n h it e with
      | .ok true =>
        match Iter.advance n h it with
        | .ok (it', h') => skip_loop n h' it' e (i + 1) count
        | .error err => .error err
      | .ok false => .ok (it, h)
      | .error err => .error err
    else .ok (it, h)

/-- The loop of the constructor of `skip_while_iterator`:
`while (_iter != end && func(*_iter)) ++_iter`. -/
def skip_while_loop : Nat → Heap α K → Iter α K → Iter α K → (Val α K → Bool) →
    Except Err (Iter α K × Heap α K)
  | 0, _, _, _, _ => .error .out_of_fuel
  | n + 1, h, it, e, f =>
    match Iter.ne n h it e with
    | .ok true =>
      match Iter.deref n h it with
      | .ok v =>
        if f v then
          match Iter.advance n h it with
          | .ok (it', h') => skip_while_loop n h' it' e f
          | .error err => .error err
        else .ok (it, h)
      | .error err => .error err
    | .ok false => .ok (it, h)
    | .error err => .error err

/-- The constructor `where_iterator(begin, end, func)`. -/
def mk_where_iterator (n : Nat) (h : Heap α K) (b e : Iter α K) (f : Val α K → Bool) :
    Except Err (Iter α K × Heap α K) :=
  match check_move_iterator n h b e f with
  | .ok (it, h') => .ok (.where_iterator it e f, h')
  | .error err => .error err

/-- The constructor `skip_iterator(iter, end, count)`. -/
def mk_skip_iterator (n : Nat) (h : Heap α K) (b e : Iter α K) (count : Nat) :
    Except Err (Iter α K × Heap α K) :=
  match skip_loop n h b e 0 count with
  | .ok (it, h') => .ok (.skip_iterator it e, h')
  | .error err => .error err

/-- The constructor `skip_while_iterator(iter, end, func)`. -/
def mk_skip_while_iterator (n : Nat) (h : Heap α K) (b e : Iter α K) (f : Val α K → Bool) :
    Except Err (Iter α K × Heap α K) :=
  match skip_while_loop n h b e f with
  | .ok (it, h') => .ok (.skip_while_iterator it e f, h')
  | .error err => .error err

/-- The constructor `take_iterator(iter, end, count)`. -/
def mk_take_iterator (b e : Iter α K) (count : Nat) : Iter α K :=
  if count = 0 then .take_iterator e e 0 count else .take_iterator b e 0 count

/-- The constructor `take_while_iterator(begin, end, func)`. -/
def mk_take_while_iterator (n : Nat) (h : Heap α K) (b e : Iter α K) (f : Val α K → Bool) :
    Except Err (Iter α K) :=
  match Iter.ne n h b e with
  | .ok true =>
    match Iter.deref n h b with
    | .ok v => if !f v then .ok (.take_while_iterator e e f) else .ok (.take_while_iterator b e f)
    | .error err => .error err
  | .ok false => .ok (.take_while_iterator b e f)
  | .error err => .error err

/-- The class `linq_collection<TIterator>`: a begin cursor and a sentinel. -/
structure linq_collection (α K : Type) where
  _begin : Iter α K
  _end : Iter α K

/-- The call `from(container)`. -/
def «from» (xs : List (Val α K)) : linq_collection α K :=
  ⟨.container xs 0, .container xs xs.length⟩

/-- A single pass over the half-open range `[first, last)`, collecting the elements:
`for (; first != last; ++first) out.push_back(*first)`, which is what the range
constructor of `std::list` in `to_list` and a range-based `for` do. -/
def to_list_loop : Nat → Heap α K → Iter α K → Iter α K →
    Except Err (List (Val α K) × Heap α K)
  | 0, _, _, _ => .error .out_of_fuel
  | n + 1, h, first, last =>
    match Iter.ne n h first last with
    | .ok true =>
      match Iter.deref n h first with
      | .ok v =>
        match Iter.advance n h first with
        | .ok (first', h') =>
          match to_list_loop n h' first' last with
          | .ok (vs, h'') => .ok (v :: vs, h'')
          | .error err => .error err
        | .error err => .error err
      | .error err => .error err
    | .ok false => .ok ([], h)
    | .error err => .error err

/-- The algorithm `std::for_each(first, last, fn)` with the state of `fn` made explicit. -/
def for_each {σ : Type} : Nat → Heap α K → Iter α K → Iter α K → (σ → Val α K → σ) → σ →
    Except Err (σ × Heap α K)
  | 0, _, _, _, _, _ => .error .out_of_fuel
  | n + 1, h, first, last, fn, s =>
    match Iter.ne n h first last with
    | .ok true =>
      match Iter.deref n h first with
      | .ok v =>
        match Iter.advance n h first with
        | .ok (first', h') => for_each n h' first' last fn (fn s v)
        | .error err => .error err
      | .error err => .error err
    | .ok false => .ok (s, h)
    | .error err => .error err

namespace linq_collection

/-- The method `to_list()`. -/
def to_list (n : Nat) (h : Heap α K) (c : linq_collection α K) :
    Except Err (List (Val α K) × Heap α K) :=
  to_list_loop n h c._begin c._end

/-- The method `count()`: `for (auto i = _begin; i != _end; ++i) c++`. -/
def count (n : Nat) (h : Heap α K) (c : linq_collection α K) : Except Err (Nat × Heap α K) :=
  for_each n h c._begin c._end (fun cnt _ => cnt + 1) 0

/-- The method `select(func)`. -/
def select (c : linq_collection α K) (func : Val α K → Val α K) : linq_collection α K :=
  ⟨.select_iterator c._begin func, .select_iterator c._end func⟩

/-- The method `skip(count)`. -/
def skip (n : Nat) (h : Heap α K) (c : linq_collection α K) (count : Nat) :
    Except Err (linq_collection α K × Heap α K) :=
  match mk_skip_iterator n h c._begin c._end count with
  | .ok (b, h1) =>
    match mk_skip_iterator n h1 c._end c._end count with
    | .ok (e, h2) => .ok (⟨b, e⟩, h2)
    | .error err => .error err
  | .error err => .error err

/-- The method `skip_while(func)`. -/
def skip_while (n : Nat) (h : Heap α K) (c : linq_collection α K) (func : Val α K → Bool) :
    Except Err (linq_collection α K × Heap α K) :=
  match mk_skip_while_iterator n h c._begin c._end func with
  | .ok (b, h1) =>
    match mk_skip_while_iterator n h1 c._end c._end func with
    | .ok (e, h2) => .ok (⟨b, e⟩, h2)
    | .error err => .error err
  | .error err => .error err

/-- The method `take(count)`. -/
def take (c : linq_collection α K) (count : Nat) : linq_collection α K :=
  ⟨mk_take_iterator c._begin c._end count, mk_take_iterator c._end c._end count⟩

/-- The method `take_while(func)`. -/
def take_while (n : Nat) (h : Heap α K) (c : linq_collection α K) (func : Val α K → Bool) :
    Except Err (linq_collection α K) :=
  match mk_take_while_iterator n h c._begin c._end func with
  | .ok b =>
    match mk_take_while_iterator n h c._end c._end func with
    | .ok e => .ok ⟨b, e⟩
    | .error err => .error err
  | .error err => .error err

/-- The method `concat_impl(other)`. -/
def concat_impl (c other : linq_collection α K) : linq_collection α K :=
  ⟨.concat_iterator c._begin c._end other._begin other._end,
   .concat_iterator c._end c._end other._end other._end⟩

/-- The method `zip_with_impl(e)`. -/
def zip_with_impl (c e : linq_collection α K) : linq_collection α K :=
  ⟨.zip_iterator c._begin c._end e._begin e._end,
   .zip_iterator c._end c._end e._end e._end⟩

end linq_collection

/-- The converting constructor `linq<T>::linq(const linq_collection<TIterator>& e)`:
each of `e.begin()` and `e.end()` is wrapped in an `any_iterator`, that is, copied
into a fresh heap object. -/
def mk_linq (h : Heap α K) (c : linq_collection α K) : linq_collection α K × Heap α K :=
  (⟨.any_iterator h.length, .any_iterator (h.length + 1)⟩, h ++ [c._begin, c._end])

/-- The function `from_values(container)`: a `linq<T>` over a shared copy of the
container. -/
def from_values (h : Heap α K) (xs : List (Val α K)) : linq_collection α K × Heap α K :=
  mk_linq h («from» xs)

/-- The function `from_empty<T>()`. -/
def from_empty (h : Heap α K) : linq_collection α K × Heap α K :=
  mk_linq h ⟨.empty_iterator, .empty_iterator⟩

/-- A `linq<T>` handle as a value stored in a container or a tuple. -/
def linq_collection.to_val : linq_collection α K → Val α K
  | ⟨.any_iterator b, .any_iterator e⟩ => .linq b e
  | _ => .linq 0 0

/-- The handle that a value of type `linq<T>` stands for; a copy of the value shares
the heap objects. -/
def Val.to_linq : Val α K → Except Err (linq_collection α K)
  | .linq b e => .ok ⟨.any_iterator b, .any_iterator e⟩
  | _ => .error .undefined_behaviour

/-- The member `second` of a `std::pair`. -/
def Val.second : Val α K → Val α K
  | .pair _ b => b
  | v => v

/-- Ordered insertion into a `std::map` or `std::multimap` kept as a list sorted by
key: the entry goes in front of the first entry with a greater key (for a multimap,
the upper bound of its key). -/
def map_insert {β : Type} [LT K] [DecidableRel (fun a b : K => a < b)] :
    List (K × β) → K → β → List (K × β)
  | [], k, v => [(k, v)]
  | (k1, v1) :: m, k, v =>
    if k < k1 then (k, v) :: (k1, v1) :: m else (k1, v1) :: map_insert m k v

/-- The lookup `std::map::find`. -/
def map_find {β : Type} [LT K] [DecidableRel (fun a b : K => a < b)] :
    List (K × β) → K → Option β
  | [], _ => none
  | (k1, v1) :: m, k => if k1 < k then map_find m k else if k < k1 then none else some v1

/-- The update `iter->second.push_back(elm)` of the entry found for `k`. -/
def map_push_back {β : Type} [LT K] [DecidableRel (fun a b : K => a < b)] :
    List (K × List β) → K → β → List (K × List β)
  | [], _, _ => []
  | (k1, v1) :: m, k, v =>
    if k1 < k then (k1, v1) :: map_push_back m k v
    else if k < k1 then (k1, v1) :: m else (k1, v1 ++ [v]) :: m

/-- The position `std::multimap::upper_bound(k)`: the index of the first entry whose
key is greater than `k`. -/
def upper_bound {β : Type} [LT K] [DecidableRel (fun a b : K => a < b)] :
    List (K × β) → K → Nat
  | [], _ => 0
  | (k1, _) :: m, k => if k < k1 then 0 else upper_bound m k + 1

/-- The body of the first loop of `group_by`: file `elm` under its key. -/
def group_by_step [LT K] [DecidableRel (fun a b : K => a < b)] (keySelector : Val α K → K)
    (m : List (K × List (Val α K))) (elm : Val α K) : List (K × List (Val α K)) :=
  match map_find m (keySelector elm) with
  | none => map_insert m (keySelector elm) [elm]
  | some _ => map_push_back m (keySelector elm) elm

/-- The second loop of `group_by`: `res.push_back({p.first, from_values(p.second)})`. -/
def group_by_res : Heap α K → List (K × List (Val α K)) → List (Val α K) →
    List (Val α K) × Heap α K
  | h, [], res => (res, h)
  | h, (k, vs) :: m, res =>
    group_by_res (from_values h vs).2 m (res ++ [.pair (.key k) (from_values h vs).1.to_val])

/-- The method `aggregate(init, f)`:
`for (auto it = _begin; it != _end; ++it) res = f(res, *it)`. The function may
allocate, so it takes and returns the heap. -/
def aggregate {σ : Type} : Nat → Heap α K → Iter α K → Iter α K →
    (σ → Val α K → Heap α K → Except Err (σ × Heap α K)) → σ → Except Err (σ × Heap α K)
  | 0, _, _, _, _, _ => .error .out_of_fuel
  | n + 1, h, it, e, f, res =>
    match Iter.ne n h it e with
    | .ok true =>
      match Iter.deref n h it with
      | .ok v =>
        match f res v h with
        | .ok (res1, h1) =>
          match Iter.advance n h1 it with
          | .ok (it1, h2) => aggregate n h2 it1 e f res1
          | .error err => .error err
        | .error err => .error err
      | .error err => .error err
    | .ok false => .ok (res, h)
    | .error err => .error err

namespace linq_collection

/-- The method `select_many(f)`, that is
`select(f).aggregate(from_empty<T>(), [](a, b) { return a.concat(b); })`.
The `select_iterator` of `select(f)` is a local object: the loop of `aggregate`
dereferences it (`f(*it)`) and advances it, and each `a.concat(b)` is converted to
the result type `linq<T>`. -/
def select_many (n : Nat) (h : Heap α K) (c : linq_collection α K)
    (f : Val α K → Heap α K → Except Err (linq_collection α K × Heap α K)) :
    Except Err (linq_collection α K × Heap α K) :=
  aggregate n (from_empty h).2 c._begin c._end
    (fun a v h1 =>
      match f v h1 with
      | .ok (b, h2) => .ok (mk_linq h2 (a.concat_impl b))
      | .error err => .error err)
    (from_empty h).1

/-- The method `group_by(keySelector)`. -/
def group_by [LT K] [DecidableRel (fun a b : K => a < b)] (n : Nat) (h : Heap α K)
    (c : linq_collection α K) (keySelector : Val α K → K) :
    Except Err (linq_collection α K × Heap α K) :=
  match for_each n h c._begin c._end (group_by_step keySelector) [] with
  | .ok (m, h1) => .ok (from_values (group_by_res h1 m []).2 (group_by_res h1 m []).1)
  | .error err => .error err

/-- The method `first_order_by(keySelector)`: the groups of `group_by`, without
their keys, converted to `linq<linq<T>>`. -/
def first_order_by [LT K] [DecidableRel (fun a b : K => a < b)] (n : Nat) (h : Heap α K)
    (c : linq_collection α K) (keySelector : Val α K → K) :
    Except Err (linq_collection α K × Heap α K) :=
  match group_by n h c keySelector with
  | .ok (g, h1) => .ok (mk_linq h1 (g.select Val.second))
  | .error err => .error err

/-- The lambda `[&keySelector](const value_type& values)
{ return values.first_order_by(keySelector); }` of `then_order_by`. -/
def then_order_by_selector [LT K] [DecidableRel (fun a b : K => a < b)] (n : Nat)
    (keySelector : Val α K → K) (values : Val α K) (h : Heap α K) :
    Except Err (linq_collection α K × Heap α K) :=
  match values.to_linq with
  | .ok s => first_order_by n h s keySelector
  | .error err => .error err

/-- The method `then_order_by(keySelector)`. -/
def then_order_by [LT K] [DecidableRel (fun a b : K => a < b)] (n : Nat) (h : Heap α K)
    (c : linq_collection α K) (keySelector : Val α K → K) :
    Except Err (linq_collection α K × Heap α K) :=
  select_many n h c (then_order_by_selector n keySelector)

/-- The lambda `[](const linq<value_type>& values) { return values; }` of `order_by`
and of `flatten`: the copy of the handle shares the heap objects. -/
def identity_selector (values : Val α K) (h : Heap α K) :
    Except Err (linq_collection α K × Heap α K) :=
  match values.to_linq with
  | .ok s => .ok (s, h)
  | .error err => .error err

/-- The method `order_by(keySelector)`. -/
def order_by [LT K] [DecidableRel (fun a b : K => a < b)] (n : Nat) (h : Heap α K)
    (c : linq_collection α K) (keySelector : Val α K → K) :
    Except Err (linq_collection α K × Heap α K) :=
  match first_order_by n h c keySelector with
  | .ok (g, h1) => select_many n h1 g identity_selector
  | .error err => .error err

/-- The values `it.second` for the entries in `[lower, upper)` of a multimap, which is
what `std::for_each(lower, upper, ...)` pushes into `outers` or `inners`. -/
def equal_range_values (m : List (K × Val α K)) (lower upper : Nat) : List (Val α K) :=
  ((m.drop lower).take (upper - lower)).map Prod.snd

/-- The merge loop of `full_join_impl`:
`while (lower1 != map1.end() && lower2 != map2.end())`, with the three cases on
`key1 < key2`, `key1 > key2` and equality. The arguments of `emplace_back`
are evaluated from left to right. -/
def full_join_loop [LT K] [DecidableRel (fun a b : K => a < b)] :
    Nat → Heap α K → List (K × Val α K) → List (K × Val α K) → Nat → Nat → List (Val α K) →
    Except Err (List (Val α K) × Heap α K)
  | 0, _, _, _, _, _, _ => .error .out_of_fuel
  | n + 1, h, map1, map2, lower1, lower2, result =>
    if lower1 ≠ map1.length ∧ lower2 ≠ map2.length then
      match map1[lower1]?, map2[lower2]? with
      | some (key1, _), some (key2, _) =>
        if key1 < key2 then
          full_join_loop n (from_empty (from_values h
              (equal_range_values map1 lower1 (upper_bound map1 key1))).2).2
            map1 map2 (upper_bound map1 key1) lower2
            (result ++ [.tuple (.key key1)
              (from_values h (equal_range_values map1 lower1 (upper_bound map1 key1))).1.to_val
              (from_empty (from_values h
                (equal_range_values map1 lower1 (upper_bound map1 key1))).2).1.to_val])
        else if key2 < key1 then
          full_join_loop n (from_values (from_empty h).2
              (equal_range_values map2 lower2 (upper_bound map2 key2))).2
            map1 map2 lower1 (upper_bound map2 key2)
            (result ++ [.tuple (.key key2) (from_empty h).1.to_val
              (from_values (from_empty h).2
                (equal_range_values map2 lower2 (upper_bound map2 key2))).1.to_val])
        else
          full_join_loop n (from_values (from_values h
              (equal_range_values map1 lower1 (upper_bound map1 key1))).2
              (equal_range_values map2 lower2 (upper_bound map2 key2))).2
            map1 map2 (upper_bound map1 key1) (upper_bound map2 key2)
            (result ++ [.tuple (.key key1)
              (from_values h (equal_range_values map1 lower1 (upper_bound map1 key1))).1.to_val
              (from_values (from_values h
                (equal_range_values map1 lower1 (upper_bound map1 key1))).2
                (equal_range_values map2 lower2 (upper_bound map2 key2))).1.to_val])
      | _, _ => .error .undefined_behaviour
    else .ok (result, h)

/-- The method `full_join_impl(e, keySelector1, keySelector2)`. -/
def full_join_impl [LT K] [DecidableRel (fun a b : K => a < b)] (n : Nat) (h : Heap α K)
    (c e : linq_collection α K) (keySelector1 keySelector2 : Val α K → K) :
    Except Err (linq_collection α K × Heap α K) :=
  match for_each n h c._begin c._end (fun m v => map_insert m (keySelector1 v) v) [] with
  | .ok (map1, h1) =>
    match for_each n h1 e._begin e._end (fun m v => map_insert m (keySelector2 v) v) [] with
    | .ok (map2, h2) =>
      match full_join_loop n h2 map1 map2 0 0 [] with
      | .ok (result, h3) => .ok (from_values h3 result)
      | .error err => .error err
    | .error err => .error err
  | .error err => .error err

/-- The lambda of `group_join_impl`: a record `item` of the full join gives
`outers.select([item](outer) { return {get<0>(item), outer, get<2>(item)}; })`
with `outers = get<1>(item)`, converted to `linq<group_join_pair_t>`. -/
def group_join_selector (item : Val α K) (h : Heap α K) :
    Except Err (linq_collection α K × Heap α K) :=
  match item with
  | .tuple k (.linq lb le) r =>
    .ok (mk_linq h (linq_collection.select ⟨.any_iterator lb, .any_iterator le⟩
      (fun outer => .tuple k outer r)))
  | _ => .error .undefined_behaviour

/-- The method `group_join_impl(e, keySelector1, keySelector2)`: `select_many` over the
result of `full_join`. -/
def group_join_impl [LT K] [DecidableRel (fun a b : K => a < b)] (n : Nat) (h : Heap α K)
    (c e : linq_collection α K) (keySelector1 keySelector2 : Val α K → K) :
    Except Err (linq_collection α K × Heap α K) :=
  match full_join_impl n h c e keySelector1 keySelector2 with
  | .ok (f, h1) => select_many n h1 f group_join_selector
  | .error err => .error err

/-- The lambda of `join_impl`: a record `item` of the group join gives
`inners.select([item](inner) { return {get<0>(item), get<1>(item), inner}; })`
with `inners = get<2>(item)`, converted to `linq<join_pair_t>`. -/
def join_selector (item : Val α K) (h : Heap α K) :
    Except Err (linq_collection α K × Heap α K) :=
  match item with
  | .tuple k l (.linq rb re) =>
    .ok (mk_linq h (linq_collection.select ⟨.any_iterator rb, .any_iterator re⟩
      (fun inner => .tuple k l inner)))
  | _ => .error .undefined_behaviour

/-- The method `join_impl(e, keySelector1, keySelector2)`: `select_many` over the result
of `group_join`. -/
def join_impl [LT K] [DecidableRel (fun a b : K => a < b)] (n : Nat) (h : Heap α K)
    (c e : linq_collection α K) (keySelector1 keySelector2 : Val α K → K) :
    Except Err (linq_collection α K × Heap α K) :=
  match group_join_impl n h c e keySelector1 keySelector2 with
  | .ok (g, h1) => select_many n h1 g join_selector
  | .error err => .error err

end linq_collection

/-- The function `flatten(xs)`. -/
def flatten (n : Nat) (h : Heap α K) (xs : linq_collection α K) :
    Except Err (linq_collection α K × Heap α K) :=
  xs.select_many n h linq_collection.identity_selector

/-! ## Ownership of heap objects

`Owns h it e R xs d` describes a cursor `it` with sentinel `e` in the heap `h` whose
pass will yield `xs`: `R` is the set of the heap objects that the cursor and its
sentinel reach (no object is reached along two paths, so no other cursor moves
them), and `d` bounds the fuel that one operation on the cursor needs. -/

/-- Heap shapes for which a pass over `[it, e)` yields `xs`. -/
inductive Owns (h : Heap α K) :
    Iter α K → Iter α K → Set Nat → List (Val α K) → Nat → Prop
  | container (xs : List (Val α K)) (i d : Nat) (hi : i ≤ xs.length) :
      Owns h (.container xs i) (.container xs xs.length) ∅ (xs.drop i) (d + 1)
  | empty_iterator (d : Nat) : Owns h .empty_iterator .empty_iterator ∅ [] (d + 1)
  | select_iterator {it e : Iter α K} {R : Set Nat} {xs : List (Val α K)} {d : Nat}
      (f : Val α K → Val α K) (ho : Owns h it e R xs d) :
      Owns h (.select_iterator it f) (.select_iterator e f) R (xs.map f) (d + 1)
  | concat_iterator {i1 e1 i2 e2 : Iter α K} {R1 R2 : Set Nat} {xs ys : List (Val α K)}
      {d : Nat} (h1 : Owns h i1 e1 R1 xs d) (h2 : Owns h i2 e2 R2 ys d)
      (hd : Disjoint R1 R2) :
      Owns h (.concat_iterator i1 e1 i2 e2) (.concat_iterator e1 e1 e2 e2) (R1 ∪ R2)
        (xs ++ ys) (d + 1)
  | any_iterator {b e : Nat} {it et : Iter α K} {R : Set Nat} {xs : List (Val α K)}
      {d : Nat} (hb : h[b]? = some it) (he : h[e]? = some et) (hbe : b ≠ e)
      (hbR : b ∉ R) (heR : e ∉ R) (ho : Owns h it et R xs d) :
      Owns h (.any_iterator b) (.any_iterator e) (insert b (insert e R)) xs (d + 1)

/-- The invariant of the first loop of `group_by` after the elements `pre`: the keys
of the map are strictly ascending, every entry holds the elements of `pre` with its
key, in their order, and is not empty, every key of `pre` has an entry, and the
entries together are a rearrangement of `pre`. -/
def group_inv [LinearOrder K] (k : Val α K → K) (m : List (K × List (Val α K)))
    (pre : List (Val α K)) : Prop :=
  (m.map Prod.fst).Pairwise (· < ·) ∧
  (∀ p ∈ m, p.2 = pre.filter (fun x => decide (k x = p.1)) ∧ p.2 ≠ []) ∧
  (∀ x ∈ pre, k x ∈ m.map Prod.fst) ∧
  (m.flatMap Prod.snd).Perm pre

/-! ## Pipelines of a client, traversed once -/

/-- The pipeline `from(xs).take_while(func)` traversed once. -/
def take_while_list (n : Nat) (h : Heap α K) (xs : List (Val α K)) (func : Val α K → Bool) :
    Except Err (List (Val α K) × Heap α K) :=
  match linq_collection.take_while n h («from» xs) func with
  | .ok c => c.to_list n h
  | .error err => .error err

/-- The pipeline `from(xs).zip_with(from(ys))` traversed once. -/
def zip_with_list (n : Nat) (h : Heap α K) (xs ys : List (Val α K)) :
    Except Err (List (Val α K) × Heap α K) :=
  ((«from» xs).zip_with_impl («from» ys)).to_list n h

/-- The elements of a result handle, traversed once, without the heap. -/
def elements (n : Nat) (r : Except Err (linq_collection α K × Heap α K)) :
    Except Err (List (Val α K)) :=
  match r with
  | .ok (c, h) =>
    match c.to_list n h with
    | .ok (vs, _) => .ok vs
    | .error err => .error err
  | .error err => .error err

/-- The input `{1, 2, 3}` of the examples. -/
def example_123 : List (Val Nat Nat) := [.elem 1, .elem 2, .elem 3]

/-- The input `{1, 2}` of the examples. -/
def example_12 : List (Val Nat Nat) := [.elem 1, .elem 2]

/-- A container of integers, such as `std::vector<int>{10, 30}`. -/
def ints (l : List Nat) : List (Val Nat Nat) := l.map Val.elem

/-- The predicate `[](int a) { return a != 4; }` of the test harness. -/
def not_four (v : Val Nat Nat) : Bool := decide (v ≠ .elem 4)

/-- The key selector `[](int x) { return x / 10; }`. -/
def tens : Val Nat Nat → Nat
  | .elem a => a / 10
  | _ => 0

/-! ## Handles, client pipelines, and the group join as the specification words it -/

/-- A list of `linq<T>` handles stored as values, each owning its heap objects, with
pairwise disjoint regions: `xss` lists what a pass over each handle yields. -/
inductive Handles (h : Heap α K) :
    List (Val α K) → Set Nat → List (List (Val α K)) → Nat → Prop
  | nil (d : Nat) : Handles h [] ∅ [] d
  | cons {b e : Nat} {R R1 : Set Nat} {xs : List (Val α K)} {vs : List (Val α K)}
      {xss : List (List (Val α K))} {d : Nat}
      (ho : Owns h (.any_iterator b) (.any_iterator e) R xs d) (ht : Handles h vs R1 xss d)
      (hd : Disjoint R R1) : Handles h (.linq b e :: vs) (R ∪ R1) (xs :: xss) d

/-- The pipeline `flatten(from(xs).first_order_by(k1).then_order_by(k2))`. -/
def first_then_order_by [LT K] [DecidableRel (fun a b : K => a < b)] (n : Nat) (h : Heap α K)
    (xs : List (Val α K)) (k1 k2 : Val α K → K) : Except Err (linq_collection α K × Heap α K) :=
  match linq_collection.first_order_by n h («from» xs) k1 with
  | .ok (c, h1) =>
    match linq_collection.then_order_by n h1 c k2 with
    | .ok (c2, h2) => flatten n h2 c2
    | .error err => .error err
  | .error err => .error err

/-- The method `where(func)`. -/
def linq_collection.«where» (n : Nat) (h : Heap α K) (c : linq_collection α K)
    (func : Val α K → Bool) : Except Err (linq_collection α K × Heap α K) :=
  match mk_where_iterator n h c._begin c._end func with
  | .ok (b, h1) =>
    match mk_where_iterator n h1 c._end c._end func with
    | .ok (e, h2) => .ok (⟨b, e⟩, h2)
    | .error err => .error err
  | .error err => .error err

/-- The call `std::set::insert(x)` on a set kept as a strictly ascending list: the set
after the call, and the member `second` of the result, which tells whether `x` was
inserted. -/
def set_insert {β : Type} [LT β] [DecidableRel (fun a b : β => a < b)] :
    List β → β → List β × Bool
  | [], x => ([x], true)
  | y :: s, x =>
    if x < y then (x :: y :: s, true)
    else if y < x then (y :: (set_insert s x).1, (set_insert s x).2)
    else (y :: s, false)

/-- The body `if (s.insert(x).second) v.push_back(x)` of the loops of `distinct` and
`except_with_impl`, on the pair of the set and the vector. -/
def insert_step {β : Type} [LT β] [DecidableRel (fun a b : β => a < b)]
    (sv : List β × List β) (x : β) : List β × List β :=
  ((set_insert sv.1 x).1, if (set_insert sv.1 x).2 then sv.2 ++ [x] else sv.2)

/-- The body `if (s1.insert(x).second && !s2.insert(x).second) res.push_back(x)` of the
loop of `intersect_with_impl`; `&&` evaluates `s2.insert(x)` only when the first
insertion took place. -/
def intersect_step {β : Type} [LT β] [DecidableRel (fun a b : β => a < b)]
    (st : List β × List β × List β) (x : β) : List β × List β × List β :=
  if (set_insert st.1 x).2 then
    ((set_insert st.1 x).1, (set_insert st.2.1 x).1,
      if !(set_insert st.2.1 x).2 then st.2.2 ++ [x] else st.2.2)
  else ((set_insert st.1 x).1, st.2.1, st.2.2)

/-- The range constructor `std::set<value_type> s(first, last)`. -/
def set_of_range [LT (Val α K)] [DecidableRel (fun a b : Val α K => a < b)]
    (n : Nat) (h : Heap α K) (first last : Iter α K) :
    Except Err (List (Val α K) × Heap α K) :=
  for_each n h first last (fun s v => (set_insert s v).1) []

namespace linq_collection

/-- The method `distinct()`. -/
def distinct [LT (Val α K)] [DecidableRel (fun a b : Val α K => a < b)]
    (n : Nat) (h : Heap α K) (c : linq_collection α K) :
    Except Err (linq_collection α K × Heap α K) :=
  match for_each n h c._begin c._end insert_step ([], []) with
  | .ok (sv, h1) => .ok (from_values h1 sv.2)
  | .error err => .error err

/-- The method `except_with_impl(e)`. -/
def except_with_impl [LT (Val α K)] [DecidableRel (fun a b : Val α K => a < b)]
    (n : Nat) (h : Heap α K) (c e : linq_collection α K) :
    Except Err (linq_collection α K × Heap α K) :=
  match set_of_range n h e._begin e._end with
  | .ok (s, h1) =>
    match for_each n h1 c._begin c._end insert_step (s, []) with
    | .ok (sv, h2) => .ok (from_values h2 sv.2)
    | .error err => .error err
  | .error err => .error err

/-- The method `intersect_with_impl(e)`. -/
def intersect_with_impl [LT (Val α K)] [DecidableRel (fun a b : Val α K => a < b)]
    (n : Nat) (h : Heap α K) (c e : linq_collection α K) :
    Except Err (linq_collection α K × Heap α K) :=
  match set_of_range n h e._begin e._end with
  | .ok (s2, h1) =>
    match for_each n h1 c._begin c._end intersect_step ([], s2, []) with
    | .ok (st, h2) => .ok (from_values h2 st.2.2)
    | .error err => .error err
  | .error err => .error err

/-- The method `union_with_impl(e)`: `return concat(e).distinct();`. -/
def union_with_impl [LT (Val α K)] [DecidableRel (fun a b : Val α K => a < b)]
    (n : Nat) (h : Heap α K) (c e : linq_collection α K) :
    Except Err (linq_collection α K × Heap α K) :=
  (c.concat_impl e).distinct n h

end linq_collection

/-- The pipeline `c.distinct().distinct()`. -/
def distinct_distinct [LT (Val α K)] [DecidableRel (fun a b : Val α K => a < b)]
    (n : Nat) (h : Heap α K) (c : linq_collection α K) :
    Except Err (linq_collection α K × Heap α K) :=
  match c.distinct n h with
  | .ok (d, h1) => d.distinct n h1
  | .error err => .error err

/-- Whether a cursor is one that the C++ types allow: in every adapter the cursor
`_iter` and the sentinel `_end` are of the same class `TIterator`. -/
def Iter.well_typed : Iter α K → Bool
  | .container _ _ => true
  | .empty_iterator => true
  | .select_iterator a _ => a.well_typed
  | .where_iterator a e _ => a.well_typed && e.well_typed && a.same_type e
  | .skip_iterator a e => a.well_typed && e.well_typed && a.same_type e
  | .skip_while_iterator a e _ => a.well_typed && e.well_typed && a.same_type e
  | .take_iterator a e _ _ => a.well_typed && e.well_typed && a.same_type e
  | .take_while_iterator a e _ => a.well_typed && e.well_typed && a.same_type e
  | .concat_iterator i1 e1 i2 e2 =>
    i1.well_typed && e1.well_typed && i2.well_typed && e2.well_typed &&
      i1.same_type e1 && i2.same_type e2
  | .zip_iterator i1 e1 i2 e2 =>
    i1.well_typed && e1.well_typed && i2.well_typed && e2.well_typed &&
      i1.same_type e1 && i2.same_type e2
  | .any_iterator _ => true

/-- Whether a `linq_collection<TIterator>` is one that the C++ types allow: `_begin`
and `_end` are of the same class `TIterator`. -/
def linq_collection.well_typed (c : linq_collection α K) : Bool :=
  c._begin.well_typed && c._end.well_typed && c._begin.same_type c._end

/-- The function `[](int x) { return x * 2; }` of the test harness. -/
def times_two : Val Nat Nat → Val Nat Nat
  | .elem a => .elem (a * 2)
  | v => v

/-- The heap after `linq<int> a = from_values({1, 2})` in the empty heap. -/
def shared_heap : Heap Nat Nat := (from_values [] (ints [1, 2])).2

/-- The handle `a` as a value; every copy of it shares the two heap objects. -/
def shared_handle : Val Nat Nat :=
  (from_values ([] : Heap Nat Nat) (ints [1, 2])).1.to_val

/-- The pipeline `flatten(xs)` for `std::vector<linq<int>> v{a, a}` and
`linq<linq<int>> xs = from(v)`. -/
def flatten_shared (n : Nat) : Except Err (linq_collection Nat Nat × Heap Nat Nat) :=
  flatten n (mk_linq shared_heap («from» [shared_handle, shared_handle])).2
    (mk_linq shared_heap («from» [shared_handle, shared_handle])).1

/-- The pipeline `from({7, 8}).select_many([&](int) { return a; })`. -/
def select_many_shared (n : Nat) : Except Err (linq_collection Nat Nat × Heap Nat Nat) :=
  linq_collection.select_many n shared_heap («from» (ints [7, 8]))
    (fun _ g => linq_collection.identity_selector shared_handle g)

/-- The lambda `[](T x) { return from_values(F(x)); }`: every call returns a handle of
its own. -/
def from_values_selector (F : Val α K → List (Val α K)) (x : Val α K) (h : Heap α K) :
    Except Err (linq_collection α K × Heap α K) :=
  .ok (from_values h (F x))

/-- An injective code of the values over `int` in the natural numbers, which puts the
elements in the order of `int`. -/
def Val.code : Val Nat Nat → Nat
  | .elem a => Nat.pair 0 a
  | .key k => Nat.pair 1 k
  | .pair a b => Nat.pair 2 (Nat.pair a.code b.code)
  | .tuple a b c => Nat.pair 3 (Nat.pair a.code (Nat.pair b.code c.code))
  | .linq b e => Nat.pair 4 (Nat.pair b e)
  | .bool b => Nat.pair 5 (if b then 1 else 0)

/-- The order `operator<` of the values over `int`: the elements compare as `int`s do. -/
instance : LinearOrder (Val Nat Nat) :=
  LinearOrder.lift' Val.code (by
    intro a
    induction a with
    | elem a => intro b h; cases b <;> simp_all [Val.code, Nat.pair_eq_pair]
    | key a => intro b h; cases b <;> simp_all [Val.code, Nat.pair_eq_pair]
    | pair a1 a2 ih1 ih2 =>
      intro b h
      cases b <;> simp only [Val.code, Nat.pair_eq_pair] at h <;> try omega
      rw [ih1 h.2.1, ih2 h.2.2]
    | tuple a1 a2 a3 ih1 ih2 ih3 =>
      intro b h
      cases b <;> simp only [Val.code, Nat.pair_eq_pair] at h <;> try omega
      rw [ih1 h.2.1, ih2 h.2.2.1, ih3 h.2.2.2]
    | linq p q => intro b h; cases b <;> simp_all [Val.code, Nat.pair_eq_pair]
    | bool p =>
      intro b h
      cases b <;> simp only [Val.code, Nat.pair_eq_pair] at h <;> try omega
      rename_i q
      cases p <;> cases q <;> simp_all)

/-! ## Element access, comparison and folds -/

/-- The method `to_container<TContainer>()`, that is `TContainer{_begin, _end}`, for a
container whose range constructor inserts the elements in one pass over
`[_begin, _end)`, as the one of `std::list` does. -/
def linq_collection.to_container (n : Nat) (h : Heap α K) (c : linq_collection α K) :
    Except Err (List (Val α K) × Heap α K) :=
  to_list_loop n h c._begin c._end

/-- The method `empty()`: `_begin == _end`. -/
def linq_collection.empty (n : Nat) (h : Heap α K) (c : linq_collection α K) :
    Except Err Bool :=
  Iter.eq n h c._begin c._end

/-- The loop `for (; iter != _end && i != 0; ++iter, i--)` of `element_at`. -/
def element_at_loop : Nat → Heap α K → Iter α K → Iter α K → Nat →
    Except Err (Iter α K × Heap α K)
  | 0, _, _, _, _ => .error .out_of_fuel
  | n + 1, h, iter, e, i =>
    match Iter.ne n h iter e with
    | .ok true =>
      if i ≠ 0 then
        match Iter.advance n h iter with
        | .ok (iter1, h1) => element_at_loop n h1 iter1 e (i - 1)
        | .error err => .error err
      else .ok (iter, h)
    | .ok false => .ok (iter, h)
    | .error err => .error err

/-- The method `element_at(i)`; the exception is `std::out_of_range`. -/
def linq_collection.element_at (n : Nat) (h : Heap α K) (c : linq_collection α K) (i : Nat) :
    Except Err (Val α K × Heap α K) :=
  match element_at_loop n h c._begin c._end i with
  | .ok (iter, h1) =>
    match Iter.ne n h1 iter c._end with
    | .ok true =>
      match Iter.deref n h1 iter with
      | .ok v => .ok (v, h1)
      | .error err => .error err
    | .ok false => .error .out_of_range
    | .error err => .error err
  | .error err => .error err

/-- The conversion of an `int` argument to the parameter type `std::size_t` (64 bits). -/
def size_t_of_int (z : Int) : Nat := (z % 2 ^ 64).toNat

/-- The method `first()`. -/
def linq_collection.first (n : Nat) (h : Heap α K) (c : linq_collection α K) :
    Except Err (Val α K) :=
  match c.empty n h with
  | .ok true => .error .collection_empty
  | .ok false => Iter.deref n h c._begin
  | .error err => .error err

/-- The method `first_or_default(v)`: `empty() ? v : *_begin`. -/
def linq_collection.first_or_default (n : Nat) (h : Heap α K) (c : linq_collection α K)
    (v : Val α K) : Except Err (Val α K) :=
  match c.empty n h with
  | .ok true => .ok v
  | .ok false => Iter.deref n h c._begin
  | .error err => .error err

/-- The loop `while (it != _end) { resit = it; ++it; }` of `last` and
`last_or_default`; it returns `resit`. -/
def last_loop : Nat → Heap α K → Iter α K → Iter α K → Iter α K →
    Except Err (Iter α K × Heap α K)
  | 0, _, _, _, _ => .error .out_of_fuel
  | n + 1, h, resit, it, e =>
    match Iter.ne n h it e with
    | .ok true =>
      match Iter.advance n h it with
      | .ok (it1, h1) => last_loop n h1 it it1 e
      | .error err => .error err
    | .ok false => .ok (resit, h)
    | .error err => .error err

/-- The method `last()`. -/
def linq_collection.last (n : Nat) (h : Heap α K) (c : linq_collection α K) :
    Except Err (Val α K × Heap α K) :=
  match c.empty n h with
  | .ok true => .error .collection_empty
  | .ok false =>
    match last_loop n h c._begin c._begin c._end with
    | .ok (resit, h1) =>
      match Iter.deref n h1 resit with
      | .ok v => .ok (v, h1)
      | .error err => .error err
    | .error err => .error err
  | .error err => .error err

/-- The method `last_or_default(v)`. -/
def linq_collection.last_or_default (n : Nat) (h : Heap α K) (c : linq_collection α K)
    (v : Val α K) : Except Err (Val α K × Heap α K) :=
  match last_loop n h c._begin c._begin c._end with
  | .ok (resit, h1) =>
    match Iter.eq n h1 resit c._end with
    | .ok true => .ok (v, h1)
    | .ok false =>
      match Iter.deref n h1 resit with
      | .ok w => .ok (w, h1)
      | .error err => .error err
    | .error err => .error err
  | .error err => .error err

/-- The method `single()`; it returns `*this`. -/
def linq_collection.single (n : Nat) (h : Heap α K) (c : linq_collection α K) :
    Except Err (linq_collection α K × Heap α K) :=
  match Iter.eq n h c._begin c._end with
  | .ok true => .error .collection_empty
  | .ok false =>
    match Iter.advance n h c._begin with
    | .ok (it, h1) =>
      match Iter.ne n h1 it c._end with
      | .ok true => .error .element_not_unique
      | .ok false => .ok (c, h1)
      | .error err => .error err
    | .error err => .error err
  | .error err => .error err

/-- The method `single_or_default(v)`; it returns `from_value(v)`, that is
`from_values({v})`, or `*this` converted to `linq<value_type>`. -/
def linq_collection.single_or_default (n : Nat) (h : Heap α K) (c : linq_collection α K)
    (v : Val α K) : Except Err (linq_collection α K × Heap α K) :=
  match Iter.eq n h c._begin c._end with
  | .ok true => .ok (from_values h [v])
  | .ok false =>
    match Iter.advance n h c._begin with
    | .ok (it, h1) =>
      match Iter.ne n h1 it c._end with
      | .ok true => .error .element_not_unique
      | .ok false => .ok (mk_linq h1 c)
      | .error err => .error err
    | .error err => .error err
  | .error err => .error err

/-- The value `it1 == it1e && it2 == it2e` that `sequence_equal_impl` returns after
its loop. -/
def sequence_equal_end (n : Nat) (h : Heap α K) (it1 it1e it2 it2e : Iter α K) :
    Except Err Bool :=
  match Iter.eq n h it1 it1e with
  | .ok true => Iter.eq n h it2 it2e
  | .ok false => .ok false
  | .error err => .error err

/-- The loop of `sequence_equal_impl`:
`while (it1 != it1e && it2 != it2e) { if (*it1 != *it2) return false; ++it1; ++it2; }`,
followed by the final comparison. -/
def sequence_equal_loop [DecidableEq (Val α K)] : Nat → Heap α K → Iter α K → Iter α K →
    Iter α K → Iter α K → Except Err Bool
  | 0, _, _, _, _, _ => .error .out_of_fuel
  | n + 1, h, it1, it1e, it2, it2e =>
    match Iter.ne n h it1 it1e with
    | .ok true =>
      match Iter.ne n h it2 it2e with
      | .ok true =>
        match Iter.deref n h it1 with
        | .ok a =>
          match Iter.deref n h it2 with
          | .ok b =>
            if a ≠ b then .ok false
            else
              match Iter.advance n h it1 with
              | .ok (it1n, h1) =>
                match Iter.advance n h1 it2 with
                | .ok (it2n, h2) => sequence_equal_loop n h2 it1n it1e it2n it2e
                | .error err => .error err
              | .error err => .error err
          | .error err => .error err
        | .error err => .error err
      | .ok false => sequence_equal_end n h it1 it1e it2 it2e
      | .error err => .error err
    | .ok false => sequence_equal_end n h it1 it1e it2 it2e
    | .error err => .error err

/-- The method `sequence_equal_impl(e)`. -/
def linq_collection.sequence_equal_impl [DecidableEq (Val α K)] (n : Nat) (h : Heap α K)
    (c e : linq_collection α K) : Except Err Bool :=
  sequence_equal_loop n h c._begin c._end e._begin e._end

/-- The method `aggregate(init, f)` for a function without effects. -/
def linq_collection.aggregate_seeded {σ : Type} (n : Nat) (h : Heap α K)
    (c : linq_collection α K) (init : σ) (f : σ → Val α K → σ) : Except Err (σ × Heap α K) :=
  aggregate n h c._begin c._end (fun res v g => .ok (f res v, g)) init

/-- The method `aggregate(f)` without a seed. -/
def linq_collection.aggregate_unseeded (n : Nat) (h : Heap α K) (c : linq_collection α K)
    (f : Val α K → Val α K → Val α K) : Except Err (Val α K × Heap α K) :=
  match c.empty n h with
  | .ok true => .error .collection_empty
  | .ok false =>
    match Iter.deref n h c._begin with
    | .ok res =>
      match Iter.advance n h c._begin with
      | .ok (it, h1) => for_each n h1 it c._end f res
      | .error err => .error err
    | .error err => .error err
  | .error err => .error err

/-- The lambda `[](const auto& x, const auto& y) { return x + y; }` of `sum` and of
`product`. -/
def Val.plus [Add α] : Val α K → Val α K → Val α K
  | .elem a, .elem b => .elem (a + b)
  | a, _ => a

/-- The lambda `[](int a, int b) { return a * b; }` of the test harness. -/
def Val.times [Mul α] : Val α K → Val α K → Val α K
  | .elem a, .elem b => .elem (a * b)
  | a, _ => a

/-- The method `sum()`. -/
def linq_collection.sum [Add α] (n : Nat) (h : Heap α K) (c : linq_collection α K) :
    Except Err (Val α K × Heap α K) :=
  c.aggregate_unseeded n h Val.plus

/-- The method `product()`; its lambda returns `x + y`. -/
def linq_collection.product [Add α] (n : Nat) (h : Heap α K) (c : linq_collection α K) :
    Except Err (Val α K × Heap α K) :=
  c.aggregate_unseeded n h Val.plus

/-- The handle `linq<int> x = from(b)` for `b = {1, 2, 3, 4, 5}`, created in the empty
heap, and the heap after it. -/
def handle_12345 : linq_collection Nat Nat × Heap Nat Nat :=
  mk_linq [] («from» (ints [1, 2, 3, 4, 5]))

/-- The handle `linq<int> s = from(g)` for `g = {0}`, created in the empty heap, and
the heap after it. -/
def handle_0 : linq_collection Nat Nat × Heap Nat Nat :=
  mk_linq [] («from» (ints [0]))

/-! ## Aggregating methods, quantifiers and the key-value containers -/

/-- The lambda `[](const auto& x, const auto& y) { return x > y ? x : y; }` of `max`;
`x > y` is `y < x`. -/
def Val.greater [LT (Val α K)] [DecidableRel (fun a b : Val α K => a < b)]
    (x y : Val α K) : Val α K :=
  if y < x then x else y

/-- The lambda `[](const auto& x, const auto& y) { return x < y ? x : y; }` of `min`. -/
def Val.less [LT (Val α K)] [DecidableRel (fun a b : Val α K => a < b)]
    (x y : Val α K) : Val α K :=
  if x < y then x else y

/-- The method `max()`. -/
def linq_collection.max [LT (Val α K)] [DecidableRel (fun a b : Val α K => a < b)]
    (n : Nat) (h : Heap α K) (c : linq_collection α K) : Except Err (Val α K × Heap α K) :=
  c.aggregate_unseeded n h Val.greater

/-- The method `min()`. -/
def linq_collection.min [LT (Val α K)] [DecidableRel (fun a b : Val α K => a < b)]
    (n : Nat) (h : Heap α K) (c : linq_collection α K) : Except Err (Val α K × Heap α K) :=
  c.aggregate_unseeded n h Val.less

/-- The body `sum += x; counter++;` of the loop of `average`; `conv` is the implicit
conversion of an element to `TResult`. -/
def average_step {ρ : Type} [Add ρ] (conv : Val α K → ρ) (s : ρ × Nat) (x : Val α K) :
    ρ × Nat :=
  (s.1 + conv x, s.2 + 1)

/-- The method `average<TResult>()`. The type `ρ` is `TResult` with its zero
`TResult{}`, its `+=` and its `/`; the counter (an `int` in the source, which no
sequence of fewer than `2 ^ 31` elements overflows) is converted to `TResult` for the
division. -/
def linq_collection.average {ρ : Type} [Zero ρ] [Add ρ] [Div ρ] [NatCast ρ] (n : Nat)
    (h : Heap α K) (c : linq_collection α K) (conv : Val α K → ρ) :
    Except Err (ρ × Heap α K) :=
  match c.empty n h with
  | .ok true => .error .collection_empty
  | .ok false =>
    match for_each n h c._begin c._end (average_step conv) ((0 : ρ), 0) with
    | .ok (s, h1) => .ok (s.1 / (s.2 : ρ), h1)
    | .error err => .error err
  | .error err => .error err

/-- The conversion of an `int` element to `double`; the `double`s are taken as the
rationals, which is exact as long as the sums and the quotient are representable. -/
def Val.to_double : Val Nat Nat → ℚ
  | .elem a => (a : ℚ)
  | _ => 0

/-- A predicate used as the functor of `select`: its results are values of type
`bool`. -/
def predicate_selector (f : Val α K → Bool) (v : Val α K) : Val α K :=
  .bool (f v)

/-- The `bool` that a value holds. -/
def Val.to_bool : Val α K → Bool
  | .bool b => b
  | _ => false

/-- The lambda `[](bool a, bool b) { return a && b; }` of `all`. -/
def and_step (a : Bool) (b : Val α K) : Bool :=
  a && b.to_bool

/-- The method `all(f)`: `select(f).aggregate(true, &&)`. -/
def linq_collection.all (n : Nat) (h : Heap α K) (c : linq_collection α K)
    (f : Val α K → Bool) : Except Err (Bool × Heap α K) :=
  (c.select (predicate_selector f)).aggregate_seeded n h true and_step

/-- The method `any(f)`: `!where(f).empty()`. -/
def linq_collection.any (n : Nat) (h : Heap α K) (c : linq_collection α K)
    (f : Val α K → Bool) : Except Err (Bool × Heap α K) :=
  match c.«where» n h f with
  | .ok (w, h1) =>
    match w.empty n h1 with
    | .ok r => .ok (!r, h1)
    | .error err => .error err
  | .error err => .error err

/-- A key selector used as the functor of `select`: its results are keys. -/
def key_selector (keySelector : Val α K → K) (v : Val α K) : Val α K :=
  .key (keySelector v)

/-- The insertion `std::map::insert(value)` of a pair `(key, element)`, which the range
constructor of `std::map` calls for each element of the range: the pair is inserted
only when no entry has its key. -/
def map_insert_unique [LT K] [DecidableRel (fun a b : K => a < b)]
    (m : List (K × Val α K)) (p : Val α K) : List (K × Val α K) :=
  match p with
  | .pair (.key k) v =>
    match map_find m k with
    | none => map_insert m k v
    | some _ => m
  | _ => m

/-- The insertion `std::multimap::insert(value)` of a pair `(key, element)`. -/
def multimap_insert [LT K] [DecidableRel (fun a b : K => a < b)]
    (m : List (K × Val α K)) (p : Val α K) : List (K × Val α K) :=
  match p with
  | .pair (.key k) v => map_insert m k v
  | _ => m

/-- The method `to_key_value_container<TContainer>(keySelector)`:
`auto g = select(keySelector).zip_with(*this); return {g.begin(), g.end()};`, where
`insert` is the insertion of the container `TContainer`. -/
def linq_collection.to_key_value_container (n : Nat) (h : Heap α K)
    (c : linq_collection α K) (keySelector : Val α K → K)
    (insert : List (K × Val α K) → Val α K → List (K × Val α K)) :
    Except Err (List (K × Val α K) × Heap α K) :=
  for_each n h ((c.select (key_selector keySelector)).zip_with_impl c)._begin
    ((c.select (key_selector keySelector)).zip_with_impl c)._end insert []

/-- The method `to_map(keySelector)`. -/
def linq_collection.to_map [LT K] [DecidableRel (fun a b : K => a < b)] (n : Nat)
    (h : Heap α K) (c : linq_collection α K) (keySelector : Val α K → K) :
    Except Err (List (K × Val α K) × Heap α K) :=
  c.to_key_value_container n h keySelector map_insert_unique

/-- The method `to_multimap(keySelector)`. -/
def linq_collection.to_multimap [LT K] [DecidableRel (fun a b : K => a < b)] (n : Nat)
    (h : Heap α K) (c : linq_collection α K) (keySelector : Val α K → K) :
    Except Err (List (K × Val α K) × Heap α K) :=
  c.to_key_value_container n h keySelector multimap_insert

/-- The key selector `[](int x) { return x; }` of the test harness. -/
def identity_key : Val Nat Nat → Nat
  | .elem a => a
  | _ => 0

/-- The handle `linq<int> y = from(c)` for `c = {1, 2, 3, 4}`, created in the empty
heap, and the heap after it. -/
def handle_1234 : linq_collection Nat Nat × Heap Nat Nat :=
  mk_linq [] («from» (ints [1, 2, 3, 4]))

/-- The call `count()` on a result handle, without the heap. -/
def count_of (n : Nat) (r : Except Err (linq_collection α K × Heap α K)) : Except Err Nat :=
  match r with
  | .ok (c, h) =>
    match c.count n h with
    | .ok (cnt, _) => .ok cnt
    | .error err => .error err
  | .error err => .error err

/-- The component `std::get<2>(item)` of a tuple. -/
def Val.get2 : Val α K → Val α K
  | .tuple _ _ c => c
  | v => v

/-- The predicate `[](int a) { return a > 1; }` of the test harness. -/
def greater_than_one (v : Val Nat Nat) : Bool :=
  match v with
  | .elem a => decide (a > 1)
  | _ => false

/-- The predicate `[](int a) { return a > 0; }` of the test harness. -/
def greater_than_zero (v : Val Nat Nat) : Bool :=
  match v with
  | .elem a => decide (a > 0)
  | _ => false

/-! ## Pipelines of a client over `linq<T>` handles, call after call -/

/-- The pipeline `from(xs).concat(from_empty<T>()).take_while(func)` traversed once;
the handle `from_empty<T>()` is created first. -/
def concat_empty_take_while_list (n : Nat) (h : Heap α K) (xs : List (Val α K))
    (func : Val α K → Bool) : Except Err (List (Val α K) × Heap α K) :=
  match linq_collection.take_while n (from_empty h).2
      ((«from» xs).concat_impl (from_empty h).1) func with
  | .ok c => c.to_list n (from_empty h).2
  | .error err => .error err

/-- The calls `c.take(k).count()`, `c.skip(k).count()` and `c.count()`, one after the
other: the three counts. -/
def take_skip_counts (n : Nat) (h : Heap α K) (c : linq_collection α K) (k : Nat) :
    Except Err (Nat × Nat × Nat) :=
  match (c.take k).count n h with
  | .ok (a, h1) =>
    match c.skip n h1 k with
    | .ok (s, h2) =>
      match s.count n h2 with
      | .ok (b, h3) =>
        match c.count n h3 with
        | .ok (t, _) => .ok (a, b, t)
        | .error err => .error err
      | .error err => .error err
    | .error err => .error err
  | .error err => .error err

/-- The calls `c.concat(e).count()`, `c.count()` and `e.count()`, one after the other:
the three counts. -/
def concat_counts (n : Nat) (h : Heap α K) (c e : linq_collection α K) :
    Except Err (Nat × Nat × Nat) :=
  match (c.concat_impl e).count n h with
  | .ok (a, h1) =>
    match c.count n h1 with
    | .ok (b, h2) =>
      match e.count n h2 with
      | .ok (t, _) => .ok (a, b, t)
      | .error err => .error err
    | .error err => .error err
  | .error err => .error err

/-- The call `c.distinct().distinct().sequence_equal(c.distinct())`: the receiver is
evaluated first, then the argument. -/
def distinct_idempotent_check [LT (Val α K)] [DecidableRel (fun a b : Val α K => a < b)]
    [DecidableEq (Val α K)] (n : Nat) (h : Heap α K) (c : linq_collection α K) :
    Except Err Bool :=
  match distinct_distinct n h c with
  | .ok (dd, h1) =>
    match c.distinct n h1 with
    | .ok (d, h2) => dd.sequence_equal_impl n h2 d
    | .error err => .error err
  | .error err => .error err

/-- The call `c.union_with(e).sequence_equal(c.concat(e).distinct())`: the receiver is
evaluated first, then the argument. -/
def union_concat_distinct_check [LT (Val α K)] [DecidableRel (fun a b : Val α K => a < b)]
    [DecidableEq (Val α K)] (n : Nat) (h : Heap α K) (c e : linq_collection α K) :
    Except Err Bool :=
  match c.union_with_impl n h e with
  | .ok (u, h1) =>
    match (c.concat_impl e).distinct n h1 with
    | .ok (d, h2) => u.sequence_equal_impl n h2 d
    | .error err => .error err
  | .error err => .error err

/-- The calls `c.count()` and `c.to_list()`, one after the other: the count and the
list. -/
def count_and_to_list (n : Nat) (h : Heap α K) (c : linq_collection α K) :
    Except Err (Nat × List (Val α K)) :=
  match c.count n h with
  | .ok (k, h1) =>
    match c.to_list n h1 with
    | .ok (vs, _) => .ok (k, vs)
    | .error err => .error err
  | .error err => .error err

/-- The calls `c.intersect_with(e).count()`, `c.except_with(e).count()` and
`c.distinct().count()`, one after the other: the three counts. -/
def partition_counts [LT (Val α K)] [DecidableRel (fun a b : Val α K => a < b)]
    (n : Nat) (h : Heap α K) (c e : linq_collection α K) : Except Err (Nat × Nat × Nat) :=
  match c.intersect_with_impl n h e with
  | .ok (i, h1) =>
    match i.count n h1 with
    | .ok (a, h2) =>
      match c.except_with_impl n h2 e with
      | .ok (x, h3) =>
        match x.count n h3 with
        | .ok (b, h4) =>
          match c.distinct n h4 with
          | .ok (d, h5) =>
            match d.count n h5 with
            | .ok (t, _) => .ok (a, b, t)
            | .error err => .error err
          | .error err => .error err
        | .error err => .error err
      | .error err => .error err
    | .error err => .error err
  | .error err => .error err

/-- The handle `linq<int> y = from(c)` for `c = {6, 7}`, created after the handle over
`{1, 2, 3, 4, 5}`, and the heap after it. -/
def handle_67 : linq_collection Nat Nat × Heap Nat Nat :=
  mk_linq handle_12345.2 («from» (ints [6, 7]))

/-- The handle `linq<int> s = from(a)` for `a = {1, 1, 2, 2, 3, 3}`, created in the
empty heap, and the heap after it. -/
def handle_112233 : linq_collection Nat Nat × Heap Nat Nat :=
  mk_linq [] («from» (ints [1, 1, 2, 2, 3, 3]))

/-- The handle `linq<int> t = from(b)` for `b = {2, 2, 3, 3, 4, 4}`, created after the
handle over `{1, 1, 2, 2, 3, 3}`, and the heap after it. -/
def handle_223344 : linq_collection Nat Nat × Heap Nat Nat :=
  mk_linq handle_112233.2 («from» (ints [2, 2, 3, 3, 4, 4]))

/-! ## Traversal lemmas -/

theorem to_list_loop_nil {n : Nat} {h : Heap α K} {first last : Iter α K}
    (hne : Iter.ne n h first last = .ok false) :
    to_list_loop (n + 1) h first last = .ok ([], h) := by
  rw [to_list_loop, hne]

theorem to_list_loop_cons {n : Nat} {h g h2 : Heap α K} {first b last : Iter α K}
    {v : Val α K} {vs : List (Val α K)}
    (hne : Iter.ne n h first last = .ok true) (hd : Iter.deref n h first = .ok v)
    (ha : Iter.advance n h first = .ok (b, g))
    (ht : to_list_loop n g b last = .ok (vs, h2)) :
    to_list_loop (n + 1) h first last = .ok (v :: vs, h2) := by
  rw [to_list_loop, hne, hd, ha]; simp only [ht]

/-- The loop `std::for_each` computes the left fold of its function over the elements
that a single pass collects. -/
theorem for_each_eq_foldl {σ : Type} (fn : σ → Val α K → σ) :
    ∀ (n : Nat) (h : Heap α K) (first last : Iter α K) (s : σ),
      for_each n h first last fn s =
        match to_list_loop n h first last with
        | .ok (vs, h1) => .ok (vs.foldl fn s, h1)
        | .error err => .error err := by
  intro n
  induction n with
  | zero => intro h first last s; rfl
  | succ n ih =>
    intro h first last s
    rw [for_each, to_list_loop]
    cases hne : Iter.ne n h first last with
    | error e => rfl
    | ok b =>
      cases b with
      | false => rfl
      | true =>
        cases hd : Iter.deref n h first with
        | error e => rfl
        | ok v =>
          cases ha : Iter.advance n h first with
          | error e => rfl
          | ok p =>
            obtain ⟨first1, h1⟩ := p
            simp only [ih]
            cases to_list_loop n h1 first1 last with
            | error e => rfl
            | ok q => rfl

theorem count_eq_length {n : Nat} {h h1 : Heap α K} {c : linq_collection α K}
    {vs : List (Val α K)} (ht : c.to_list n h = .ok (vs, h1)) :
    c.count n h = .ok (vs.length, h1) := by
  unfold linq_collection.to_list at ht
  unfold linq_collection.count
  rw [for_each_eq_foldl, ht]
  have : ∀ (l : List (Val α K)) (k : Nat), l.foldl (fun cnt _ => cnt + 1) k = k + l.length := by
    intro l
    induction l with
    | nil => intro k; rfl
    | cons a l ih => intro k; simp [List.foldl, ih]; omega
  simp [this]

/-! ## Pipelines over a container -/

theorem container_ne (n : Nat) (h : Heap α K) (xs ys : List (Val α K)) (p q : Nat) :
    Iter.ne (n + 1) h (.container xs p) (.container ys q) = .ok (!decide (p = q)) := rfl

theorem container_deref (n : Nat) (h : Heap α K) (xs : List (Val α K)) (p : Nat)
    (hp : p < xs.length) :
    Iter.deref (n + 1) h (.container xs p) = .ok (xs.get ⟨p, hp⟩) := by
  simp [Iter.deref, hp]

theorem container_advance (n : Nat) (h : Heap α K) (xs : List (Val α K)) (p : Nat)
    (hp : p < xs.length) :
    Iter.advance (n + 1) h (.container xs p) = .ok (.container xs (p + 1), h) := by
  simp [Iter.advance, hp]

/-- A pass over `take(count)` of a container from position `j`. -/
theorem take_to_list (xs : List (Val α K)) (cnt : Nat) (h : Heap α K) :
    ∀ (r j n : Nat), r = xs.length - j → j ≤ xs.length → j < cnt → r + 3 ≤ n →
      to_list_loop n h (.take_iterator (.container xs j) (.container xs xs.length) j cnt)
        (.take_iterator (.container xs xs.length) (.container xs xs.length) 0 cnt)
      = .ok ((xs.drop j).take (cnt - j), h) := by
  intro r
  induction r with
  | zero =>
    intro j n hr hj hc hn
    obtain ⟨m, rfl⟩ : ∃ m, n = m + 3 := ⟨n - 3, by omega⟩
    have : j = xs.length := by omega
    subst this
    simp [to_list_loop, Iter.ne, Iter.eq]
  | succ r ih =>
    intro j n hr hj hc hn
    obtain ⟨m, rfl⟩ : ∃ m, n = m + 4 := ⟨n - 4, by omega⟩
    have hlt : j < xs.length := by omega
    have hne : j ≠ xs.length := by omega
    have h2 : cnt - j = (cnt - (j + 1)) + 1 := by omega
    rw [List.drop_eq_getElem_cons hlt, h2, List.take_succ_cons]
    by_cases hjc : j + 1 = cnt
    · subst hjc
      refine to_list_loop_cons (b :=.take_iterator (.container xs xs.length)
        (.container xs xs.length) (j + 1) (j + 1)) (g := h) ?_ ?_ ?_ ?_
      · simp [Iter.ne, Iter.eq, hne]
      · simp [Iter.deref, hlt]
      · simp [Iter.advance]
      · simp [to_list_loop, Iter.ne, Iter.eq]
    · refine to_list_loop_cons (b :=.take_iterator (.container xs (j + 1))
        (.container xs xs.length) (j + 1) cnt) (g := h) ?_ ?_ ?_ ?_
      · simp [Iter.ne, Iter.eq, hne]
      · simp [Iter.deref, hlt]
      · simp [Iter.advance, hjc, hlt]
      · exact ih (j + 1) (m + 3) (by omega) (by omega) (by omega) (by omega)

/-- A pass over a `skip_iterator` of a container from position `j`. -/
theorem skip_to_list (xs : List (Val α K)) (h : Heap α K) :
    ∀ (r j n : Nat), r = xs.length - j → j ≤ xs.length → r + 3 ≤ n →
      to_list_loop n h (.skip_iterator (.container xs j) (.container xs xs.length))
        (.skip_iterator (.container xs xs.length) (.container xs xs.length))
      = .ok (xs.drop j, h) := by
  intro r
  induction r with
  | zero =>
    intro j n hr hj hn
    obtain ⟨m, rfl⟩ : ∃ m, n = m + 3 := ⟨n - 3, by omega⟩
    have : j = xs.length := by omega
    subst this
    simp [to_list_loop, Iter.ne, Iter.eq]
  | succ r ih =>
    intro j n hr hj hn
    obtain ⟨m, rfl⟩ : ∃ m, n = m + 4 := ⟨n - 4, by omega⟩
    have hlt : j < xs.length := by omega
    have hne : j ≠ xs.length := by omega
    rw [List.drop_eq_getElem_cons hlt]
    refine to_list_loop_cons (b :=.skip_iterator (.container xs (j + 1))
      (.container xs xs.length)) (g := h) ?_ ?_ ?_ ?_
    · simp [Iter.ne, Iter.eq, hne]
    · simp [Iter.deref, hlt]
    · simp [Iter.advance, hlt]
    · exact ih (j + 1) (m + 3) (by omega) (by omega) (by omega)

/-- The loop of the constructor of `skip_iterator` stops at position `min count |xs|`. -/
theorem skip_loop_container (xs : List (Val α K)) (cnt : Nat) (h : Heap α K) :
    ∀ (r i n : Nat), r = cnt - i → i ≤ xs.length → i ≤ cnt → r + 3 ≤ n →
      skip_loop n h (.container xs i) (.container xs xs.length) i cnt
      = .ok (.container xs (min cnt xs.length), h) := by
  intro r
  induction r with
  | zero =>
    intro i n hr hi hc hn
    obtain ⟨m, rfl⟩ : ∃ m, n = m + 3 := ⟨n - 3, by omega⟩
    have : i = cnt := by omega
    subst this
    simp [skip_loop, Nat.min_eq_left hi]
  | succ r ih =>
    intro i n hr hi hc hn
    obtain ⟨m, rfl⟩ : ∃ m, n = m + 4 := ⟨n - 4, by omega⟩
    have hic : i ≠ cnt := by omega
    by_cases hlen : i = xs.length
    · subst hlen
      simp [skip_loop, hic, Iter.ne, Iter.eq, Nat.min_eq_right hc]
    · have hlt : i < xs.length := by omega
      have := ih (i + 1) (m + 3) (by omega) (by omega) (by omega) (by omega)
      rw [skip_loop]
      simp [hic, Iter.ne, Iter.eq, hlen, Iter.advance, hlt, this]

theorem take_container (xs : List (Val α K)) (cnt : Nat) (h : Heap α K) (m : Nat) :
    linq_collection.to_list (m + xs.length + 4) h ((«from» xs).take cnt)
      = .ok (xs.take cnt, h) := by
  unfold linq_collection.to_list linq_collection.take mk_take_iterator «from»
  by_cases hc : cnt = 0
  · subst hc
    simp [to_list_loop, Iter.ne, Iter.eq]
  · simp only [hc, if_false]
    have := take_to_list xs cnt h (xs.length - 0) 0 (m + xs.length + 4) rfl (by omega)
      (by omega) (by omega)
    simpa using this

theorem skip_container (xs : List (Val α K)) (cnt : Nat) (h : Heap α K) (m : Nat) :
    ∃ s, linq_collection.skip (m + xs.length + cnt + 4) h («from» xs) cnt = .ok (s, h) ∧
      s.to_list (m + xs.length + cnt + 4) h = .ok (xs.drop cnt, h) := by
  have hb := skip_loop_container xs cnt h (cnt - 0) 0 (m + xs.length + cnt + 4) rfl
    (by omega) (by omega) (by omega)
  have he : skip_loop (m + xs.length + cnt + 4) h (.container xs xs.length)
      (.container xs xs.length) 0 cnt = .ok (.container xs xs.length, h) := by
    rw [skip_loop]
    by_cases hc : cnt = 0 <;> simp [hc, Iter.ne, Iter.eq]
  refine ⟨⟨.skip_iterator (.container xs (min cnt xs.length)) (.container xs xs.length),
    .skip_iterator (.container xs xs.length) (.container xs xs.length)⟩, ?_, ?_⟩
  · simp [linq_collection.skip, mk_skip_iterator, «from», hb, he]
  · unfold linq_collection.to_list
    simp only
    rw [skip_to_list xs h (xs.length - min cnt xs.length) (min cnt xs.length) _ rfl
      (Nat.min_le_right _ _) (by omega)]
    by_cases hc : cnt ≤ xs.length
    · rw [Nat.min_eq_left hc]
    · have hc1 : xs.length ≤ cnt := by omega
      rw [Nat.min_eq_right hc1, List.drop_of_length_le hc1, List.drop_of_length_le (le_refl _)]

/-- A pass over a container from position `j`. -/
theorem container_to_list (xs : List (Val α K)) (h : Heap α K) :
    ∀ (r j n : Nat), r = xs.length - j → j ≤ xs.length → r + 2 ≤ n →
      to_list_loop n h (.container xs j) (.container xs xs.length) = .ok (xs.drop j, h) := by
  intro r
  induction r with
  | zero =>
    intro j n hr hj hn
    obtain ⟨m, rfl⟩ : ∃ m, n = m + 2 := ⟨n - 2, by omega⟩
    have : j = xs.length := by omega
    subst this
    simp [to_list_loop, Iter.ne, Iter.eq]
  | succ r ih =>
    intro j n hr hj hn
    obtain ⟨m, rfl⟩ : ∃ m, n = m + 3 := ⟨n - 3, by omega⟩
    have hlt : j < xs.length := by omega
    have hne : j ≠ xs.length := by omega
    rw [List.drop_eq_getElem_cons hlt]
    refine to_list_loop_cons (b :=.container xs (j + 1)) (g := h) ?_ ?_ ?_ ?_
    · simp [Iter.ne, Iter.eq, hne]
    · simp [Iter.deref, hlt]
    · simp [Iter.advance, hlt]
    · exact ih (j + 1) (m + 2) (by omega) (by omega) (by omega)

theorem from_to_list (xs : List (Val α K)) (h : Heap α K) (m : Nat) :
    linq_collection.to_list (m + xs.length + 2) h («from» xs) = .ok (xs, h) := by
  have := container_to_list xs h (xs.length - 0) 0 (m + xs.length + 2) rfl (by omega) (by omega)
  simpa [linq_collection.to_list, «from»] using this

/-- The loop of the constructor of `skip_while_iterator` over a container stops at the
first position whose element is rejected. -/
theorem skip_while_loop_container (xs : List (Val α K)) (f : Val α K → Bool) (h : Heap α K) :
    ∀ (r j n : Nat), r = xs.length - j → j ≤ xs.length → r + 3 ≤ n →
      ∃ j1, skip_while_loop n h (.container xs j) (.container xs xs.length) f
          = .ok (.container xs j1, h) ∧ j1 ≤ xs.length ∧
        xs.drop j1 = (xs.drop j).dropWhile f := by
  intro r
  induction r with
  | zero =>
    intro j n hr hj hn
    obtain ⟨m, rfl⟩ : ∃ m, n = m + 3 := ⟨n - 3, by omega⟩
    have : j = xs.length := by omega
    subst this
    exact ⟨xs.length, by simp [skip_while_loop, Iter.ne, Iter.eq], le_refl _, by simp⟩
  | succ r ih =>
    intro j n hr hj hn
    obtain ⟨m, rfl⟩ : ∃ m, n = m + 4 := ⟨n - 4, by omega⟩
    have hlt : j < xs.length := by omega
    have hne : j ≠ xs.length := by omega
    by_cases hf : f xs[j] = true
    · obtain ⟨j1, h1, h2, h3⟩ := ih (j + 1) (m + 3) (by omega) (by omega) (by omega)
      refine ⟨j1, ?_, h2, ?_⟩
      · rw [skip_while_loop]
        simp [Iter.ne, Iter.eq, hne, Iter.deref, hlt, hf, Iter.advance, h1]
      · rw [h3, List.drop_eq_getElem_cons hlt, List.dropWhile_cons_of_pos hf]
    · refine ⟨j, ?_, hj, ?_⟩
      · rw [skip_while_loop]
        simp [Iter.ne, Iter.eq, hne, Iter.deref, hlt, hf]
      · conv_rhs => rw [List.drop_eq_getElem_cons hlt, List.dropWhile_cons_of_neg hf]
        rw [List.drop_eq_getElem_cons hlt]

/-- A pass over a `skip_while_iterator` of a container from position `j`. -/
theorem skip_while_to_list (xs : List (Val α K)) (f : Val α K → Bool) (h : Heap α K) :
    ∀ (r j n : Nat), r = xs.length - j → j ≤ xs.length → r + 3 ≤ n →
      to_list_loop n h (.skip_while_iterator (.container xs j) (.container xs xs.length) f)
        (.skip_while_iterator (.container xs xs.length) (.container xs xs.length) f)
      = .ok (xs.drop j, h) := by
  intro r
  induction r with
  | zero =>
    intro j n hr hj hn
    obtain ⟨m, rfl⟩ : ∃ m, n = m + 3 := ⟨n - 3, by omega⟩
    have : j = xs.length := by omega
    subst this
    simp [to_list_loop, Iter.ne, Iter.eq]
  | succ r ih =>
    intro j n hr hj hn
    obtain ⟨m, rfl⟩ : ∃ m, n = m + 4 := ⟨n - 4, by omega⟩
    have hlt : j < xs.length := by omega
    have hne : j ≠ xs.length := by omega
    rw [List.drop_eq_getElem_cons hlt]
    refine to_list_loop_cons (b :=.skip_while_iterator (.container xs (j + 1))
      (.container xs xs.length) f) (g := h) ?_ ?_ ?_ ?_
    · simp [Iter.ne, Iter.eq, hne]
    · simp [Iter.deref, hlt]
    · simp [Iter.advance, hlt]
    · exact ih (j + 1) (m + 3) (by omega) (by omega) (by omega)

/-! ## Claims on the transform adapters -/

/-- Over a container, `take(count)` yields its first `min count |xs|` elements,
`skip(count)` yields the remaining ones, and the counts of the two add up to the
count of the whole, for every fuel of at least `|xs| + count + 4`, leaving the heap
as it was. -/
theorem take_skip_split (xs : List (Val α K)) (cnt : Nat) (h : Heap α K) (m : Nat) :
    linq_collection.to_list (m + xs.length + cnt + 4) h ((«from» xs).take cnt)
        = .ok (xs.take cnt, h) ∧
      (xs.take cnt).length = min cnt xs.length ∧
      ∃ s, linq_collection.skip (m + xs.length + cnt + 4) h («from» xs) cnt = .ok (s, h) ∧
        s.to_list (m + xs.length + cnt + 4) h = .ok (xs.drop cnt, h) ∧
        ∃ a b, linq_collection.count (m + xs.length + cnt + 4) h ((«from» xs).take cnt)
              = .ok (a, h) ∧
          s.count (m + xs.length + cnt + 4) h = .ok (b, h) ∧
          linq_collection.count (m + xs.length + cnt + 4) h («from» xs) = .ok (a + b, h) := by
  have ht : linq_collection.to_list (m + xs.length + cnt + 4) h ((«from» xs).take cnt)
      = .ok (xs.take cnt, h) := by
    have := take_container xs cnt h (m + cnt)
    rwa [show m + cnt + xs.length + 4 = m + xs.length + cnt + 4 by omega] at this
  obtain ⟨s, hs, hsl⟩ := skip_container xs cnt h m
  have hx : linq_collection.to_list (m + xs.length + cnt + 4) h («from» xs) = .ok (xs, h) := by
    have := from_to_list xs h (m + cnt + 2)
    rwa [show m + cnt + 2 + xs.length + 2 = m + xs.length + cnt + 4 by omega] at this
  refine ⟨ht, by simp, s, hs, hsl, (xs.take cnt).length, (xs.drop cnt).length,
    count_eq_length ht, count_eq_length hsl, ?_⟩
  rw [count_eq_length hx]
  congr 2
  simp
  omega

/-- C9: `skip_while(func)` of a container yields the suffix that starts at the first
element rejected by `func` (`List.dropWhile`); later elements are not tested. This
holds for every fuel of at least `|xs| + 4` and leaves the heap as it was. -/
theorem skip_while_drops_prefix (xs : List (Val α K)) (func : Val α K → Bool) (h : Heap α K)
    (m : Nat) :
    ∃ s, linq_collection.skip_while (m + xs.length + 4) h («from» xs) func = .ok (s, h) ∧
      s.to_list (m + xs.length + 4) h = .ok (xs.dropWhile func, h) := by
  obtain ⟨j1, hb, hj1, hd⟩ := skip_while_loop_container xs func h (xs.length - 0) 0
    (m + xs.length + 4) rfl (by omega) (by omega)
  have he : skip_while_loop (m + xs.length + 4) h (.container xs xs.length)
      (.container xs xs.length) func = .ok (.container xs xs.length, h) := by
    rw [skip_while_loop]
    simp [Iter.ne, Iter.eq]
  refine ⟨⟨.skip_while_iterator (.container xs j1) (.container xs xs.length) func,
    .skip_while_iterator (.container xs xs.length) (.container xs xs.length) func⟩, ?_, ?_⟩
  · simp [linq_collection.skip_while, mk_skip_while_iterator, «from», hb, he]
  · unfold linq_collection.to_list
    simp only
    rw [skip_while_to_list xs func h (xs.length - j1) j1 _ rfl hj1 (by omega), hd]
    simp

/-- A pass over `take_while(f)` of a container all of whose elements satisfy `f` never
completes: `operator++` dereferences the position after the last element. -/
theorem take_while_all_error (xs : List (Val α K)) (f : Val α K → Bool) (h : Heap α K)
    (hall : ∀ x ∈ xs, f x = true) :
    ∀ (n j : Nat), j < xs.length →
      to_list_loop n h (.take_while_iterator (.container xs j) (.container xs xs.length) f)
          (.take_while_iterator (.container xs xs.length) (.container xs xs.length) f)
        = .error .out_of_fuel ∨
      to_list_loop n h (.take_while_iterator (.container xs j) (.container xs xs.length) f)
          (.take_while_iterator (.container xs xs.length) (.container xs xs.length) f)
        = .error .undefined_behaviour := by
  intro n
  induction n with
  | zero => intro j hj; left; rfl
  | succ n ih =>
    intro j hj
    have hne : j ≠ xs.length := by omega
    rw [to_list_loop]
    match n, ih with
    | 0, _ => left; rfl
    | 1, _ => left; rfl
    | k + 2, ih =>
      have hfj : f xs[j] = true := hall _ (List.getElem_mem _)
      by_cases hj1 : j + 1 < xs.length
      · have hfj1 : f xs[j + 1] = true := hall _ (List.getElem_mem _)
        have hadv : Iter.advance (k + 2) h
            (.take_while_iterator (.container xs j) (.container xs xs.length) f)
            = .ok (.take_while_iterator (.container xs (j + 1)) (.container xs xs.length) f, h) := by
          simp [Iter.advance, Iter.deref, hj, hj1, hfj1]
        simp only [Iter.ne, Iter.eq, hne, decide_False, Bool.not_false, hadv]
        simp only [Iter.deref, List.getElem?_eq_getElem hj]
        rcases ih (j + 1) hj1 with h1 | h1 <;> simp [h1]
      · right
        have hadv : Iter.advance (k + 2) h
            (.take_while_iterator (.container xs j) (.container xs xs.length) f)
            = .error .undefined_behaviour := by
          have hnone : xs[j + 1]? = none := List.getElem?_eq_none (by omega)
          simp [Iter.advance, Iter.deref, hj, hnone]
        simp only [Iter.ne, Iter.eq, hne, decide_False, Bool.not_false, hadv]
        simp only [Iter.deref, List.getElem?_eq_getElem hj]

theorem take_while_list_all_error (xs : List (Val α K)) (f : Val α K → Bool) (h : Heap α K)
    (hall : ∀ x ∈ xs, f x = true) (hx : 0 < xs.length) (n : Nat) :
    take_while_list n h xs f = .error .out_of_fuel ∨
      take_while_list n h xs f = .error .undefined_behaviour := by
  match n with
  | 0 => left; rfl
  | k + 1 =>
    have hf0 : f xs[0] = true := hall _ (List.getElem_mem _)
    have hne : (0 : Nat) ≠ xs.length := by omega
    have hmk : linq_collection.take_while (k + 1) h («from» xs) f
        = .ok ⟨.take_while_iterator (.container xs 0) (.container xs xs.length) f,
            .take_while_iterator (.container xs xs.length) (.container xs xs.length) f⟩ := by
      simp [linq_collection.take_while, mk_take_while_iterator, «from», Iter.ne, Iter.eq,
        Iter.deref, hne, hx, hf0]
    unfold take_while_list
    rw [hmk]
    exact take_while_all_error xs f h hall (k + 1) 0 hx

/-- A pass over the zip of two containers of different lengths never completes: when
the shorter one is exhausted the cursor is not equal to the sentinel, and the next
dereference reads past the end of the shorter container. -/
theorem zip_unequal_error (xs ys : List (Val α K)) (h : Heap α K)
    (hlen : xs.length ≠ ys.length) :
    ∀ (n i : Nat), i ≤ xs.length → i ≤ ys.length →
      to_list_loop n h
          (.zip_iterator (.container xs i) (.container xs xs.length)
            (.container ys i) (.container ys ys.length))
          (.zip_iterator (.container xs xs.length) (.container xs xs.length)
            (.container ys ys.length) (.container ys ys.length))
        = .error .out_of_fuel ∨
      to_list_loop n h
          (.zip_iterator (.container xs i) (.container xs xs.length)
            (.container ys i) (.container ys ys.length))
          (.zip_iterator (.container xs xs.length) (.container xs xs.length)
            (.container ys ys.length) (.container ys ys.length))
        = .error .undefined_behaviour := by
  intro n
  induction n with
  | zero => intro i h1 h2; left; rfl
  | succ n ih =>
    intro i h1 h2
    rw [to_list_loop]
    match n, ih with
    | 0, _ => left; rfl
    | 1, _ => left; rfl
    | k + 2, ih =>
      have hne : Iter.ne (k + 2) h
          (.zip_iterator (.container xs i) (.container xs xs.length)
            (.container ys i) (.container ys ys.length))
          (.zip_iterator (.container xs xs.length) (.container xs xs.length)
            (.container ys ys.length) (.container ys ys.length)) = .ok true := by
        by_cases hx : i = xs.length
        · have hy : i ≠ ys.length := by omega
          simp [Iter.ne, Iter.eq, hx.symm, hy]
        · simp [Iter.ne, Iter.eq, hx]
      rw [hne]
      by_cases hx : i < xs.length
      · by_cases hy : i < ys.length
        · have hadv : Iter.advance (k + 2) h
              (.zip_iterator (.container xs i) (.container xs xs.length)
                (.container ys i) (.container ys ys.length))
              = .ok (.zip_iterator (.container xs (i + 1)) (.container xs xs.length)
                (.container ys (i + 1)) (.container ys ys.length), h) := by
            have hx1 : i ≠ xs.length := by omega
            have hy1 : i ≠ ys.length := by omega
            simp [Iter.advance, Iter.ne, Iter.eq, hx, hy, hx1, hy1]
          simp only [Iter.deref, List.getElem?_eq_getElem hx, List.getElem?_eq_getElem hy, hadv]
          rcases ih (i + 1) (by omega) (by omega) with h3 | h3 <;> simp [h3]
        · right
          have hnone : ys[i]? = none := List.getElem?_eq_none (by omega)
          simp [Iter.deref, hx, hnone]
      · right
        have hnone : xs[i]? = none := List.getElem?_eq_none (by omega)
        simp [Iter.deref, hnone]

/-- C7 (the code at the failing input): the zip of `{1, 2, 3}` and `{1, 2}` never
reaches its sentinel, whatever the fuel. After two elements the cursor differs from
the sentinel, `operator++` leaves it where it is, and the next dereference reads
past the end of `{1, 2}` (the outcome with fuel 6). -/
theorem zip_with_unequal_never_ends :
    (∀ n : Nat, zip_with_list n [] example_123 example_12 = .error .out_of_fuel ∨
        zip_with_list n [] example_123 example_12 = .error .undefined_behaviour) ∧
      zip_with_list 6 [] example_123 example_12 = .error .undefined_behaviour ∧
      Iter.eq 2 []
          (.zip_iterator (.container example_123 2) (.container example_123 3)
            (.container example_12 2) (.container example_12 2))
          (.zip_iterator (.container example_123 3) (.container example_123 3)
            (.container example_12 2) (.container example_12 2)) = .ok false ∧
      Iter.advance 3 []
          (.zip_iterator (.container example_123 2) (.container example_123 3)
            (.container example_12 2) (.container example_12 2))
        = .ok (.zip_iterator (.container example_123 2) (.container example_123 3)
            (.container example_12 2) (.container example_12 2), []) := by
  refine ⟨fun n => ?_, by rfl, by rfl, by rfl⟩
  exact zip_unequal_error example_123 example_12 [] (by decide) n 0 (by decide) (by decide)

/-! ## Ownership lemmas -/

theorem Owns.frame {h g : Heap α K} {it e : Iter α K} {R : Set Nat} {xs : List (Val α K)}
    {d : Nat} (ho : Owns h it e R xs d) (hf : ∀ a ∈ R, g[a]? = h[a]?) : Owns g it e R xs d := by
  induction ho with
  | container xs i d hi => exact .container xs i d hi
  | empty_iterator d => exact .empty_iterator d
  | select_iterator f _ ih => exact .select_iterator f (ih hf)
  | concat_iterator _ _ hd ih1 ih2 =>
    exact .concat_iterator (ih1 fun a ha => hf a (Or.inl ha)) (ih2 fun a ha => hf a (Or.inr ha)) hd
  | any_iterator hb he hbe hbR heR _ ih =>
    refine .any_iterator ?_ ?_ hbe hbR heR (ih fun a ha => hf a ?_)
    · rw [hf _ (Set.mem_insert _ _)]; exact hb
    · rw [hf _ (Set.mem_insert_of_mem _ (Set.mem_insert _ _))]; exact he
    · exact Set.mem_insert_of_mem _ (Set.mem_insert_of_mem _ ha)

theorem Owns.mono {h : Heap α K} {it e : Iter α K} {R : Set Nat} {xs : List (Val α K)}
    {d : Nat} (ho : Owns h it e R xs d) : ∀ d1, d ≤ d1 → Owns h it e R xs d1 := by
  induction ho with
  | container xs i d hi =>
    intro d1 hd1
    obtain ⟨k, rfl⟩ : ∃ k, d1 = k + 1 := ⟨d1 - 1, by omega⟩
    exact .container xs i k hi
  | empty_iterator d =>
    intro d1 hd1
    obtain ⟨k, rfl⟩ : ∃ k, d1 = k + 1 := ⟨d1 - 1, by omega⟩
    exact .empty_iterator k
  | select_iterator f _ ih =>
    intro d1 hd1
    obtain ⟨k, rfl⟩ : ∃ k, d1 = k + 1 := ⟨d1 - 1, by omega⟩
    exact .select_iterator f (ih k (by omega))
  | concat_iterator _ _ hd ih1 ih2 =>
    intro d1 hd1
    obtain ⟨k, rfl⟩ : ∃ k, d1 = k + 1 := ⟨d1 - 1, by omega⟩
    exact .concat_iterator (ih1 k (by omega)) (ih2 k (by omega)) hd
  | any_iterator hb he hbe hbR heR _ ih =>
    intro d1 hd1
    obtain ⟨k, rfl⟩ : ∃ k, d1 = k + 1 := ⟨d1 - 1, by omega⟩
    exact .any_iterator hb he hbe hbR heR (ih k (by omega))

theorem Owns.same_type {h : Heap α K} {it e : Iter α K} {R : Set Nat} {xs : List (Val α K)}
    {d : Nat} (ho : Owns h it e R xs d) : it.same_type e = true := by
  induction ho with
  | container xs i d hi => rfl
  | empty_iterator d => rfl
  | select_iterator f _ ih => simpa [Iter.same_type] using ih
  | concat_iterator h1 h2 hd ih1 ih2 =>
    simp [Iter.same_type, ih1, ih2]
  | any_iterator hb he hbe hbR heR _ ih => rfl

theorem Owns.eq_nil {h : Heap α K} {it e : Iter α K} {R : Set Nat} {l : List (Val α K)}
    {d : Nat} (ho : Owns h it e R l d) :
    l = [] → ∀ n, d ≤ n → Iter.eq n h it e = .ok true := by
  induction ho with
  | container xs i d hi =>
    intro hl n hn
    obtain ⟨m, rfl⟩ : ∃ m, n = m + 1 := ⟨n - 1, by omega⟩
    have : i = xs.length := by
      have := List.drop_eq_nil_iff.mp hl
      omega
    simp [Iter.eq, this]
  | empty_iterator d =>
    intro _ n hn
    obtain ⟨m, rfl⟩ : ∃ m, n = m + 1 := ⟨n - 1, by omega⟩
    rfl
  | select_iterator f _ ih =>
    intro hl n hn
    obtain ⟨m, rfl⟩ : ∃ m, n = m + 1 := ⟨n - 1, by omega⟩
    have := ih (List.map_eq_nil_iff.mp hl) m (by omega)
    simpa [Iter.eq] using this
  | concat_iterator h1 h2 hd ih1 ih2 =>
    intro hl n hn
    obtain ⟨m, rfl⟩ : ∃ m, n = m + 1 := ⟨n - 1, by omega⟩
    obtain ⟨hx, hy⟩ := List.append_eq_nil.mp hl
    have e1 := ih1 hx m (by omega)
    have e2 := ih2 hy m (by omega)
    simp [Iter.eq, e1, e2]
  | any_iterator hb he hbe hbR heR ho ih =>
    intro hl n hn
    obtain ⟨m, rfl⟩ : ∃ m, n = m + 1 := ⟨n - 1, by omega⟩
    have e1 := ih hl m (by omega)
    simp [Iter.eq, hb, he, ho.same_type, e1]

theorem Owns.step {h : Heap α K} {it e : Iter α K} {R : Set Nat} {l : List (Val α K)}
    {d : Nat} (ho : Owns h it e R l d) :
    ∀ x xs, l = x :: xs → ∀ n, d ≤ n →
      Iter.eq n h it e = .ok false ∧ Iter.deref n h it = .ok x ∧
      ∃ it1 h1, Iter.advance n h it = .ok (it1, h1) ∧ Owns h1 it1 e R xs d ∧
        h1.length = h.length ∧ ∀ a, a ∉ R → h1[a]? = h[a]? := by
  induction ho with
  | container ys i d hi =>
    intro x xs hl n hn
    obtain ⟨m, rfl⟩ : ∃ m, n = m + 1 := ⟨n - 1, by omega⟩
    have hlt : i < ys.length := by
      by_contra hc
      rw [List.drop_of_length_le (by omega)] at hl
      cases hl
    rw [List.drop_eq_getElem_cons hlt] at hl
    obtain ⟨rfl, rfl⟩ := List.cons.inj hl
    have hne : i ≠ ys.length := by omega
    refine ⟨by simp [Iter.eq, hne], by simp [Iter.deref, hlt], .container ys (i + 1), h,
      by simp [Iter.advance, hlt], .container ys (i + 1) d (by omega), rfl, fun _ _ => rfl⟩
  | empty_iterator d => intro x xs hl; cases hl
  | select_iterator f _ ih =>
    intro x xs hl n hn
    obtain ⟨m, rfl⟩ : ∃ m, n = m + 1 := ⟨n - 1, by omega⟩
    obtain ⟨x0, xs0, rfl, rfl, rfl⟩ := List.map_eq_cons_iff.mp hl
    obtain ⟨heq, hder, it1, h1, hadv, ho1, hlen, hout⟩ := ih x0 xs0 rfl m (by omega)
    exact ⟨by simpa [Iter.eq] using heq, by simp [Iter.deref, hder], .select_iterator it1 f, h1,
      by simp [Iter.advance, hadv], .select_iterator f ho1, hlen, hout⟩
  | @concat_iterator i1 e1 i2 e2 R1 R2 xs1 ys1 d h1 h2 hd ih1 ih2 =>
    intro x xs hl n hn
    obtain ⟨m, rfl⟩ : ∃ m, n = m + 1 := ⟨n - 1, by omega⟩
    cases xs1 with
    | nil =>
      have hy : ys1 = x :: xs := by simpa using hl
      have hq := h1.eq_nil rfl m (by omega)
      obtain ⟨heq, hder, it1, g, hadv, ho1, hlen, hout⟩ := ih2 x xs hy m (by omega)
      refine ⟨by simp [Iter.eq, hq, heq], by simp [Iter.deref, Iter.ne, hq, hder],
        .concat_iterator i1 e1 it1 e2, g, by simp [Iter.advance, Iter.ne, hq, hadv], ?_, hlen, ?_⟩
      · have := Owns.concat_iterator (h1.frame (g := g) fun a ha =>
          hout a (Set.disjoint_left.mp hd ha)) ho1 hd
        simpa using this
      · intro a ha
        exact hout a fun hc => ha (Or.inr hc)
    | cons x0 xs0 =>
      obtain ⟨rfl, rfl⟩ : x0 = x ∧ xs0 ++ ys1 = xs := by simpa using hl
      obtain ⟨heq, hder, it1, g, hadv, ho1, hlen, hout⟩ := ih1 x0 xs0 rfl m (by omega)
      refine ⟨by simp [Iter.eq, heq], by simp [Iter.deref, Iter.ne, heq, hder],
        .concat_iterator it1 e1 i2 e2, g, by simp [Iter.advance, Iter.ne, heq, hadv], ?_, hlen, ?_⟩
      · exact Owns.concat_iterator ho1 (h2.frame (g := g) fun a ha =>
          hout a (Set.disjoint_right.mp hd ha)) hd
      · intro a ha
        exact hout a fun hc => ha (Or.inl hc)
  | @any_iterator b e it et R xs1 d hb he hbe hbR heR ho ih =>
    intro x xs hl n hn
    obtain ⟨m, rfl⟩ : ∃ m, n = m + 1 := ⟨n - 1, by omega⟩
    obtain ⟨heq, hder, it1, g, hadv, ho1, hlen, hout⟩ := ih x xs hl m (by omega)
    have hbl : b < g.length := by
      rw [hlen]
      exact (List.getElem?_eq_some_iff.mp hb).1
    refine ⟨by simp [Iter.eq, hb, he, ho.same_type, heq], by simp [Iter.deref, hb, hder],
      .any_iterator b, g.set b it1, by simp [Iter.advance, hb, hadv], ?_, by simp [hlen], ?_⟩
    · refine .any_iterator ?_ ?_ hbe hbR heR (ho1.frame fun a ha => ?_)
      · simp [List.getElem?_set, hbl]
      · rw [List.getElem?_set_ne hbe, hout e heR, he]
      · have : b ≠ a := fun hc => hbR (hc ▸ ha)
        rw [List.getElem?_set_ne this]
    · intro a ha
      have hab : b ≠ a := fun hc => ha (hc ▸ Set.mem_insert _ _)
      have haR : a ∉ R := fun hc => ha (Set.mem_insert_of_mem _ (Set.mem_insert_of_mem _ hc))
      rw [List.getElem?_set_ne hab, hout a haR]


/-- A pass over an owned cursor yields its elements and changes the heap only inside
the region of the cursor. -/
theorem Owns.to_list_loop {xs : List (Val α K)} :
    ∀ {h : Heap α K} {it e : Iter α K} {R : Set Nat} {d : Nat}, Owns h it e R xs d →
      ∀ n, d + xs.length + 1 ≤ n →
        ∃ h1, mqLinq.to_list_loop n h it e = .ok (xs, h1) ∧ h1.length = h.length ∧
          ∀ a, a ∉ R → h1[a]? = h[a]? := by
  induction xs with
  | nil =>
    intro h it e R d ho n hn
    obtain ⟨m, rfl⟩ : ∃ m, n = m + 1 := ⟨n - 1, by omega⟩
    have := ho.eq_nil rfl m (by simp at hn; omega)
    exact ⟨h, to_list_loop_nil (by simp [Iter.ne, this]), rfl, fun _ _ => rfl⟩
  | cons x xs ih =>
    intro h it e R d ho n hn
    obtain ⟨m, rfl⟩ : ∃ m, n = m + 1 := ⟨n - 1, by omega⟩
    simp only [List.length_cons] at hn
    obtain ⟨heq, hder, it1, h1, hadv, ho1, hlen, hout⟩ := ho.step x xs rfl m (by omega)
    obtain ⟨h2, ht, hlen2, hout2⟩ := ih ho1 m (by omega)
    refine ⟨h2, to_list_loop_cons (by simp [Iter.ne, heq]) hder hadv ht, by omega, ?_⟩
    intro a ha
    rw [hout2 a ha, hout a ha]

/-! ## The ordered map of `group_by` -/

section ordered_map
variable [LinearOrder K] {β : Type}

theorem mem_map_insert (m : List (K × β)) (key : K) (v : β) (p : K × β) :
    p ∈ map_insert m key v ↔ p = (key, v) ∨ p ∈ m := by
  induction m with
  | nil => simp [map_insert]
  | cons q m ih =>
    obtain ⟨k1, v1⟩ := q
    unfold map_insert
    split
    · simp
    · simp only [List.mem_cons, ih]
      tauto

theorem map_insert_perm (m : List (K × β)) (key : K) (v : β) :
    (map_insert m key v).Perm ((key, v) :: m) := by
  induction m with
  | nil => simp [map_insert]
  | cons q m ih =>
    obtain ⟨k1, v1⟩ := q
    unfold map_insert
    split
    · exact List.Perm.refl _
    · exact (List.Perm.cons _ ih).trans (List.Perm.swap _ _ _)

theorem map_insert_sorted {m : List (K × β)} {key : K} (v : β)
    (hs : (m.map Prod.fst).Pairwise (· < ·)) (hk : key ∉ m.map Prod.fst) :
    ((map_insert m key v).map Prod.fst).Pairwise (· < ·) := by
  induction m with
  | nil => simp [map_insert]
  | cons q m ih =>
    obtain ⟨k1, v1⟩ := q
    simp only [List.map_cons, List.pairwise_cons, List.mem_cons, not_or] at hs hk
    unfold map_insert
    split
    · rename_i hlt
      simp only [List.map_cons, List.pairwise_cons, List.mem_cons]
      refine ⟨?_, hs⟩
      rintro a (rfl | ha)
      · exact hlt
      · exact lt_trans hlt (hs.1 a ha)
    · rename_i hnlt
      have hlt : k1 < key := lt_of_le_of_ne (not_lt.mp hnlt) (Ne.symm hk.1)
      simp only [List.map_cons, List.pairwise_cons]
      refine ⟨?_, ih hs.2 hk.2⟩
      intro a ha
      obtain ⟨p, hp, rfl⟩ := List.mem_map.mp ha
      rcases (mem_map_insert m key v p).mp hp with rfl | hp
      · exact hlt
      · exact hs.1 _ (List.mem_map_of_mem _ hp)

theorem map_find_eq_none {m : List (K × β)} {key : K}
    (hs : (m.map Prod.fst).Pairwise (· < ·)) :
    map_find m key = none ↔ key ∉ m.map Prod.fst := by
  induction m with
  | nil => simp [map_find]
  | cons q m ih =>
    obtain ⟨k1, v1⟩ := q
    simp only [List.map_cons, List.pairwise_cons, List.mem_cons, not_or] at hs ⊢
    unfold map_find
    split
    · rename_i hlt
      rw [ih hs.2]
      exact ⟨fun h => ⟨ne_of_gt hlt, h⟩, fun h => h.2⟩
    · split
      · rename_i hlt
        simp only [true_iff]
        refine ⟨ne_of_lt hlt, fun hmem => ?_⟩
        exact absurd (lt_trans hlt (hs.1 _ hmem)) (lt_irrefl _)
      · rename_i h1 h2
        have : key = k1 := le_antisymm (not_lt.mp h1) (not_lt.mp h2)
        simp [this]

theorem map_find_eq_some {m : List (K × β)} {key : K} {v : β}
    (hs : (m.map Prod.fst).Pairwise (· < ·)) :
    map_find m key = some v ↔ (key, v) ∈ m := by
  induction m with
  | nil => simp [map_find]
  | cons q m ih =>
    obtain ⟨k1, v1⟩ := q
    simp only [List.map_cons, List.pairwise_cons] at hs
    unfold map_find
    split
    · rename_i hlt
      rw [ih hs.2]
      simp only [List.mem_cons, Prod.mk.injEq]
      exact ⟨Or.inr, fun h => h.resolve_left fun hc => absurd hlt (hc.1 ▸ lt_irrefl _)⟩
    · split
      · rename_i hlt
        constructor
        · intro hc
          cases hc
        · intro hmem
          exfalso
          rcases List.mem_cons.mp hmem with hc | hc
          · exact absurd hlt ((Prod.mk.inj hc).1 ▸ lt_irrefl _)
          · exact absurd (lt_trans hlt (hs.1 _ (List.mem_map_of_mem Prod.fst hc))) (lt_irrefl _)
      · rename_i h1 h2
        have hk : key = k1 := le_antisymm (not_lt.mp h1) (not_lt.mp h2)
        subst hk
        simp only [Option.some.injEq, List.mem_cons, Prod.mk.injEq, true_and]
        refine ⟨fun h => Or.inl h.symm, fun h => ?_⟩
        rcases h with h | h
        · exact h.symm
        · exact absurd (hs.1 _ (List.mem_map_of_mem Prod.fst h)) (lt_irrefl _)

theorem map_push_back_keys (m : List (K × List β)) (key : K) (v : β) :
    (map_push_back m key v).map Prod.fst = m.map Prod.fst := by
  induction m with
  | nil => rfl
  | cons q m ih =>
    obtain ⟨k1, v1⟩ := q
    unfold map_push_back
    split
    · simp [ih]
    · split <;> simp

theorem mem_map_push_back {m : List (K × List β)} {key : K} (v : β)
    (hs : (m.map Prod.fst).Pairwise (· < ·)) (p : K × List β) :
    p ∈ map_push_back m key v ↔
      (p.1 ≠ key ∧ p ∈ m) ∨ ∃ vs, (key, vs) ∈ m ∧ p = (key, vs ++ [v]) := by
  induction m with
  | nil => simp [map_push_back]
  | cons q m ih =>
    obtain ⟨k1, v1⟩ := q
    simp only [List.map_cons, List.pairwise_cons] at hs
    have hnot : ∀ vs, (k1, vs) ∉ m := fun vs hc =>
      absurd (hs.1 _ (List.mem_map_of_mem Prod.fst hc)) (lt_irrefl _)
    unfold map_push_back
    split
    · rename_i hlt
      have hne : k1 ≠ key := ne_of_lt hlt
      simp only [List.mem_cons, ih hs.2, Prod.mk.injEq]
      constructor
      · rintro (rfl | h | h)
        · exact Or.inl ⟨hne, Or.inl rfl⟩
        · exact Or.inl ⟨h.1, Or.inr h.2⟩
        · obtain ⟨vs, h1, h2⟩ := h
          exact Or.inr ⟨vs, Or.inr h1, h2⟩
      · rintro (⟨h1, rfl | h2⟩ | ⟨vs, h1 | h1, h2⟩)
        · exact Or.inl rfl
        · exact Or.inr (Or.inl ⟨h1, h2⟩)
        · exact absurd h1.1.symm hne
        · exact Or.inr (Or.inr ⟨vs, h1, h2⟩)
    · split
      · rename_i h1 hlt
        have hkey : ∀ vs, (key, vs) ∉ (k1, v1) :: m := by
          intro vs hc
          rcases List.mem_cons.mp hc with hc | hc
          · exact absurd hlt ((Prod.mk.inj hc).1 ▸ lt_irrefl _)
          · exact absurd (lt_trans hlt (hs.1 _ (List.mem_map_of_mem Prod.fst hc))) (lt_irrefl _)
        constructor
        · intro hp
          refine Or.inl ⟨fun hc => ?_, hp⟩
          exact hkey p.2 (by rw [← hc]; exact hp)
        · rintro (⟨_, hp⟩ | ⟨vs, hvs, _⟩)
          · exact hp
          · exact absurd hvs (hkey vs)
      · rename_i h1 h2
        have hk : key = k1 := le_antisymm (not_lt.mp h1) (not_lt.mp h2)
        subst hk
        simp only [List.mem_cons, Prod.mk.injEq, true_and]
        constructor
        · rintro (rfl | hp)
          · exact Or.inr ⟨v1, Or.inl rfl, rfl⟩
          · refine Or.inl ⟨fun hc => ?_, Or.inr hp⟩
            exact hnot p.2 (by rw [← hc]; exact hp)
        · rintro (⟨hne, rfl | hp⟩ | ⟨vs, h3 | h3, rfl⟩)
          · exact absurd rfl hne
          · exact Or.inr hp
          · exact Or.inl (by rw [h3])
          · exact absurd h3 (hnot vs)


theorem map_push_back_flatMap {m : List (K × List β)} {key : K} (v : β)
    (hs : (m.map Prod.fst).Pairwise (· < ·)) (hk : key ∈ m.map Prod.fst) :
    ((map_push_back m key v).flatMap Prod.snd).Perm (v :: m.flatMap Prod.snd) := by
  induction m with
  | nil => simp at hk
  | cons q m ih =>
    obtain ⟨k1, v1⟩ := q
    simp only [List.map_cons, List.pairwise_cons, List.mem_cons] at hs hk
    unfold map_push_back
    split
    · rename_i hlt
      have hk1 : key ∈ m.map Prod.fst := hk.resolve_left (ne_of_gt hlt)
      simp only [List.flatMap_cons]
      exact (List.Perm.append_left v1 (ih hs.2 hk1)).trans List.perm_middle
    · split
      · rename_i h1 hlt
        exfalso
        rcases hk with rfl | hk
        · exact lt_irrefl _ hlt
        · exact lt_irrefl _ (lt_trans hlt (hs.1 _ hk))
      · simp only [List.flatMap_cons, List.append_assoc, List.singleton_append]
        exact List.perm_middle

end ordered_map

theorem group_inv_step [LinearOrder K] {k : Val α K → K} {m : List (K × List (Val α K))}
    {pre : List (Val α K)} (hinv : group_inv k m pre) (x : Val α K) :
    group_inv k (group_by_step k m x) (pre ++ [x]) := by
  obtain ⟨hs, hent, hkeys, hperm⟩ := hinv
  unfold group_by_step
  cases hfind : map_find m (k x) with
  | none =>
    have hk : k x ∉ m.map Prod.fst := (map_find_eq_none hs).mp hfind
    have hpre : pre.filter (fun y => decide (k y = k x)) = [] := by
      rw [List.filter_eq_nil_iff]
      intro y hy hc
      exact hk (by rw [← of_decide_eq_true hc]; exact hkeys y hy)
    refine ⟨map_insert_sorted _ hs hk, ?_, ?_, ?_⟩
    · intro p hp
      rcases (mem_map_insert m (k x) [x] p).mp hp with rfl | hp
      · simp [List.filter_append, hpre]
      · have hne : k x ≠ p.1 := fun hc => hk (hc ▸ List.mem_map_of_mem Prod.fst hp)
        obtain ⟨h1, h2⟩ := hent p hp
        refine ⟨?_, h2⟩
        simp [List.filter_append, hne, ← h1]
    · intro y hy
      rcases List.mem_append.mp hy with hy | hy
      · obtain ⟨p, hp, hpk⟩ := List.mem_map.mp (hkeys y hy)
        exact List.mem_map.mpr ⟨p, (mem_map_insert m (k x) [x] p).mpr (Or.inr hp), hpk⟩
      · rw [List.mem_singleton.mp hy]
        exact List.mem_map.mpr ⟨(k x, [x]), (mem_map_insert m (k x) [x] _).mpr (Or.inl rfl), rfl⟩
    · have h1 := List.Perm.flatMap_right Prod.snd (map_insert_perm m (k x) [x])
      refine h1.trans ?_
      simp only [List.flatMap_cons, List.singleton_append]
      exact (List.Perm.cons x hperm).trans (List.perm_append_singleton x pre).symm
  | some vs =>
    have hmem : (k x, vs) ∈ m := (map_find_eq_some hs).mp hfind
    have hk : k x ∈ m.map Prod.fst := List.mem_map_of_mem Prod.fst hmem
    refine ⟨by rw [map_push_back_keys]; exact hs, ?_, ?_, ?_⟩
    · intro p hp
      rcases (mem_map_push_back x hs p).mp hp with ⟨hne, hp⟩ | ⟨ws, hws, rfl⟩
      · obtain ⟨h1, h2⟩ := hent p hp
        refine ⟨?_, h2⟩
        simp [List.filter_append, Ne.symm hne, ← h1]
      · obtain ⟨h1, _⟩ := hent _ hws
        simp only at h1
        simp [List.filter_append, ← h1]
    · intro y hy
      rw [map_push_back_keys]
      rcases List.mem_append.mp hy with hy | hy
      · exact hkeys y hy
      · rw [List.mem_singleton.mp hy]; exact hk
    · exact (map_push_back_flatMap x hs hk).trans
        ((List.Perm.cons x hperm).trans (List.perm_append_singleton x pre).symm)

theorem group_inv_foldl [LinearOrder K] (k : Val α K → K) (xs : List (Val α K)) :
    group_inv k (xs.foldl (group_by_step k) []) xs := by
  induction xs using List.reverseRecOn with
  | nil => exact ⟨by simp, by simp, by simp, by simp⟩
  | append_singleton pre x ih =>
    rw [List.foldl_append]
    exact group_inv_step ih x


/-! ## Claims on the joins: the code at the failing inputs -/

/-- C1 (the code at the failing inputs): with the key `x / 10`, the full join of
`{10, 30}` with `{20}` yields the records of the keys 1 and 2 only, and the full join
of `{10, 30}` with the empty sequence yields no record: the merge loop stops as soon
as one side is exhausted, so the left key 3, greater than every right key, has no
record. -/
theorem full_join_drops_trailing_keys :
    elements 20 (linq_collection.full_join_impl 20 [] («from» (ints [10, 30]))
        («from» (ints [20])) tens tens)
      = .ok [.tuple (.key 1) (.linq 0 1) (.linq 2 3), .tuple (.key 2) (.linq 4 5) (.linq 6 7)] ∧
    elements 20 (linq_collection.full_join_impl 20 [] («from» (ints [10, 30]))
        («from» (ints [])) tens tens) = .ok [] := by
  constructor <;> rfl

/-- C2 (the code at the failing input): with the key `x / 10`, the inner join of
`{10, 11}` with `{12}` yields the single record `(1, 10, 12)`; the record `(1, 11, 12)`
of the second left element is missing, because the two records of `group_join` hold
copies of the same `linq` handle of the right group, which share one cursor object,
and the pass for the first left element leaves that cursor at its end. -/
theorem join_loses_pairs :
    elements 30 (linq_collection.join_impl 30 [] («from» (ints [10, 11]))
        («from» (ints [12])) tens tens)
      = .ok [.tuple (.key 1) (.elem 10) (.elem 12)] ∧
    elements 30 (linq_collection.group_join_impl 30 [] («from» (ints [10, 11]))
        («from» (ints [12])) tens tens)
      = .ok [.tuple (.key 1) (.elem 10) (.linq 2 3), .tuple (.key 1) (.elem 11) (.linq 2 3)] := by
  constructor <;> rfl

theorem Owns.lt_length {h : Heap α K} {it e : Iter α K} {R : Set Nat} {xs : List (Val α K)}
    {d : Nat} (ho : Owns h it e R xs d) : ∀ a ∈ R, a < h.length := by
  induction ho with
  | container xs i d hi => intro a ha; cases ha
  | empty_iterator d => intro a ha; cases ha
  | select_iterator f _ ih => exact ih
  | concat_iterator _ _ _ ih1 ih2 =>
    intro a ha
    rcases ha with ha | ha
    · exact ih1 a ha
    · exact ih2 a ha
  | any_iterator hb he hbe hbR heR _ ih =>
    intro a ha
    rcases ha with rfl | rfl | ha
    · exact (List.getElem?_eq_some_iff.mp hb).1
    · exact (List.getElem?_eq_some_iff.mp he).1
    · exact ih a ha

theorem getElem?_append_of_lt {h l : Heap α K} {a : Nat} (ha : a < h.length) :
    (h ++ l)[a]? = h[a]? := List.getElem?_append_left ha

theorem Owns.append {h : Heap α K} {it e : Iter α K} {R : Set Nat} {xs : List (Val α K)}
    {d : Nat} (ho : Owns h it e R xs d) (l : Heap α K) : Owns (h ++ l) it e R xs d :=
  ho.frame fun a ha => getElem?_append_of_lt (ho.lt_length a ha)

/-- The handle made by `linq<T>(c)` owns the two new heap objects and what `c` owns. -/
theorem mk_linq_owns {h : Heap α K} {c : linq_collection α K} {R : Set Nat}
    {xs : List (Val α K)} {d : Nat} (ho : Owns h c._begin c._end R xs d) :
    Owns (mk_linq h c).2 (.any_iterator h.length) (.any_iterator (h.length + 1))
      (insert h.length (insert (h.length + 1) R)) xs (d + 1) := by
  have hlt := ho.lt_length
  refine .any_iterator ?_ ?_ (by omega) (fun hc => ?_) (fun hc => ?_) (ho.append _)
  · show (h ++ [c._begin, c._end])[h.length]? = some c._begin
    rw [List.getElem?_append_right (le_refl _)]
    simp
  · show (h ++ [c._begin, c._end])[h.length + 1]? = some c._end
    rw [List.getElem?_append_right (by omega)]
    simp
  · exact absurd (hlt _ hc) (lt_irrefl _)
  · exact absurd (hlt _ hc) (by omega)

theorem from_values_owns (h : Heap α K) (xs : List (Val α K)) (d : Nat) :
    Owns (from_values h xs).2 (.any_iterator h.length) (.any_iterator (h.length + 1))
      {h.length, h.length + 1} xs (d + 2) := by
  have := mk_linq_owns (h := h) (c := «from» xs) (Owns.container xs 0 d (Nat.zero_le _))
  simpa [from_values, Set.insert_def] using this

theorem from_empty_owns (h : Heap α K) (d : Nat) :
    Owns (from_empty h).2 (.any_iterator h.length) (.any_iterator (h.length + 1))
      {h.length, h.length + 1} [] (d + 2) := by
  have := mk_linq_owns (h := h) (c := ⟨.empty_iterator, .empty_iterator⟩) (Owns.empty_iterator d)
  simpa [from_empty] using this

theorem Handles.frame_each {h g : Heap α K} {vs : List (Val α K)} {R : Set Nat}
    {xss : List (List (Val α K))} {d : Nat} (hh : Handles h vs R xss d)
    (hf : ∀ a ∈ R, g[a]? = h[a]?) : Handles g vs R xss d := by
  induction hh with
  | nil d => exact .nil d
  | cons ho _ hd ih =>
    exact .cons (ho.frame fun a ha => hf a (Or.inl ha)) (ih fun a ha => hf a (Or.inr ha)) hd

theorem Handles.lt_length_each {h : Heap α K} {vs : List (Val α K)} {R : Set Nat}
    {xss : List (List (Val α K))} {d : Nat} (hh : Handles h vs R xss d) :
    ∀ a ∈ R, a < h.length := by
  induction hh with
  | nil d => intro a ha; cases ha
  | cons ho _ hd ih =>
    intro a ha
    rcases ha with ha | ha
    · exact ho.lt_length a ha
    · exact ih a ha

theorem Handles.append_each {h : Heap α K} {vs : List (Val α K)} {R : Set Nat}
    {xss : List (List (Val α K))} {d : Nat} (hh : Handles h vs R xss d) (l : Heap α K) :
    Handles (h ++ l) vs R xss d :=
  hh.frame_each fun a ha => getElem?_append_of_lt (hh.lt_length_each a ha)

theorem Handles.concat {h : Heap α K} {vs ws : List (Val α K)} {R S : Set Nat}
    {xss yss : List (List (Val α K))} {d : Nat} (h1 : Handles h vs R xss d)
    (h2 : Handles h ws S yss d) (hd : Disjoint R S) :
    Handles h (vs ++ ws) (R ∪ S) (xss ++ yss) d := by
  induction h1 with
  | nil d => simpa using h2
  | @cons b e R0 R1 xs vs0 xss0 d ho ht hd0 ih =>
    have hd1 : Disjoint R0 S := Set.disjoint_of_subset_left Set.subset_union_left hd
    have hd2 : Disjoint R1 S := Set.disjoint_of_subset_left Set.subset_union_right hd
    have := Handles.cons ho (ih h2 hd2) (Set.disjoint_union_right.mpr ⟨hd0, hd1⟩)
    simpa [Set.union_assoc] using this

theorem Handles.mono_each {h : Heap α K} {vs : List (Val α K)} {R : Set Nat}
    {xss : List (List (Val α K))} {d : Nat} (hh : Handles h vs R xss d) (d1 : Nat)
    (hd1 : d ≤ d1) : Handles h vs R xss d1 := by
  induction hh with
  | nil d => exact .nil d1
  | cons ho _ hd ih => exact .cons (ho.mono d1 hd1) (ih hd1) hd

/-- The second loop of `group_by` appends one record per entry of the map and two
heap objects per record; each record holds the key of its entry and a handle that
owns the two new objects of the entry. -/
theorem group_by_res_spec (m : List (K × List (Val α K))) :
    ∀ (h : Heap α K) (res : List (Val α K)),
      ∃ recs h2 R, group_by_res h m res = (res ++ recs, h2) ∧
        h2.length = h.length + 2 * m.length ∧ (∀ a, a < h.length → h2[a]? = h[a]?) ∧
        Handles h2 (recs.map Val.second) R (m.map Prod.snd) 2 ∧
        (∀ a ∈ R, h.length ≤ a) ∧
        List.Forall₂ (fun r p => ∃ b e, r = Val.pair (.key p.1) (.linq b e)) recs m := by
  induction m with
  | nil =>
    intro h res
    exact ⟨[], h, ∅, by simp [group_by_res], by simp, fun _ _ => rfl, .nil 2,
      fun a ha => (by cases ha), .nil⟩
  | cons p m ih =>
    intro h res
    obtain ⟨k, vs⟩ := p
    obtain ⟨recs, h2, R, hres, hlen, hlow, hh, hR, hf⟩ :=
      ih (from_values h vs).2 (res ++ [.pair (.key k) (from_values h vs).1.to_val])
    have hl1 : (from_values h vs).2.length = h.length + 2 := by simp [from_values, mk_linq]
    have hv : (from_values h vs).1.to_val = .linq h.length (h.length + 1) := rfl
    have ho : Owns h2 (.any_iterator h.length) (.any_iterator (h.length + 1))
        {h.length, h.length + 1} vs 2 :=
      (from_values_owns h vs 0).frame fun a ha => by
        apply hlow
        rcases ha with rfl | rfl <;> omega
    refine ⟨.pair (.key k) (.linq h.length (h.length + 1)) :: recs, h2,
      {h.length, h.length + 1} ∪ R, ?_, ?_, ?_, ?_, ?_, ?_⟩
    · rw [group_by_res, hres, hv]; simp
    · simp only [List.length_cons]; omega
    · intro a ha
      rw [hlow a (by omega)]
      exact getElem?_append_of_lt ha
    · refine .cons ho hh ?_
      rw [Set.disjoint_left]
      intro a ha hc
      have := hR a hc
      rcases ha with rfl | rfl <;> omega
    · intro a ha
      rcases ha with (rfl | rfl) | ha
      · exact le_refl _
      · omega
      · have := hR a ha; omega
    · exact .cons ⟨_, _, rfl⟩ hf

/-- The first loop of `group_by` over an owned cursor builds the map of the elements
that a pass yields. -/
theorem group_by_owned [LinearOrder K] {h : Heap α K} {c : linq_collection α K} {R : Set Nat}
    {xs : List (Val α K)} {d : Nat} (ho : Owns h c._begin c._end R xs d)
    (k : Val α K → K) (n : Nat) (hn : d + xs.length + 1 ≤ n) :
    ∃ h1, h1.length = h.length ∧ (∀ a, a ∉ R → h1[a]? = h[a]?) ∧
      linq_collection.group_by n h c k =
        .ok (from_values (group_by_res h1 (xs.foldl (group_by_step k) []) []).2
          (group_by_res h1 (xs.foldl (group_by_step k) []) []).1) := by
  obtain ⟨h1, ht, hlen, hout⟩ := ho.to_list_loop n hn
  refine ⟨h1, hlen, hout, ?_⟩
  unfold linq_collection.group_by
  rw [for_each_eq_foldl, ht]

theorem from_values_snd (h : Heap α K) (xs : List (Val α K)) :
    (from_values h xs).2 = h ++ [.container xs 0, .container xs xs.length] := rfl

theorem from_values_fst (h : Heap α K) (xs : List (Val α K)) :
    (from_values h xs).1 = ⟨.any_iterator h.length, .any_iterator (h.length + 1)⟩ := rfl

theorem from_container_owns (h : Heap α K) (xs : List (Val α K)) :
    Owns h («from» xs)._begin («from» xs)._end ∅ xs 1 := by
  have := Owns.container (h := h) xs 0 0 (Nat.zero_le _)
  simpa [«from»] using this

/-- Every record of `group_by` can be traversed on its own. -/
theorem handles_to_list {h : Heap α K} {n : Nat} (F : K → List (Val α K)) :
    ∀ {recs : List (Val α K)} {M : List (K × List (Val α K))} {R : Set Nat},
      Handles h (recs.map Val.second) R (M.map Prod.snd) 2 →
      List.Forall₂ (fun r p => ∃ b e, r = Val.pair (.key p.1) (.linq b e)) recs M →
      (∀ p ∈ M, p.2 = F p.1 ∧ p.2.length + 3 ≤ n) →
      List.Forall₂ (fun r key => ∃ b e, r = Val.pair (.key key) (.linq b e) ∧
        ∃ h3, to_list_loop n h (.any_iterator b) (.any_iterator e) = .ok (F key, h3))
        recs (M.map Prod.fst) := by
  intro recs M R hh hf
  induction hf generalizing R with
  | nil => intro _; exact .nil
  | @cons r p recs1 M1 hrp hf1 ih =>
    intro hM
    obtain ⟨b, e, rfl⟩ := hrp
    cases hh with
    | cons ho ht hd =>
      obtain ⟨hp1, hp2⟩ := hM p (List.mem_cons_self _ _)
      obtain ⟨h3, h3t, _, _⟩ := ho.to_list_loop n (by omega)
      rw [hp1] at h3t
      exact .cons ⟨b, e, rfl, h3, h3t⟩ (ih ht fun q hq => hM q (List.mem_cons_of_mem _ hq))

/-- C6: `group_by(keySelector)` of a container yields, for every large enough fuel,
one record `(key, group)` per key value of the input, the keys strictly ascending,
and a pass over the group of a key yields the elements of the input that have this
key, in their original order. -/
theorem group_by_groups [LinearOrder K] (xs : List (Val α K)) (keySelector : Val α K → K)
    (h : Heap α K) :
    ∃ N, ∀ m, ∃ g h1 recs h2 keys,
      linq_collection.group_by (m + N) h («from» xs) keySelector = .ok (g, h1) ∧
      g.to_list (m + N) h1 = .ok (recs, h2) ∧
      keys.Pairwise (· < ·) ∧
      (∀ key, key ∈ keys ↔ ∃ x ∈ xs, keySelector x = key) ∧
      List.Forall₂ (fun r key => ∃ b e, r = Val.pair (.key key) (.linq b e) ∧
        ∃ h3, to_list_loop (m + N) h2 (.any_iterator b) (.any_iterator e)
          = .ok (xs.filter (fun x => decide (keySelector x = key)), h3)) recs keys := by
  obtain ⟨hs, hent, hkeys, hperm⟩ := group_inv_foldl keySelector xs
  refine ⟨xs.length + (xs.foldl (group_by_step keySelector) []).length + 4, fun m => ?_⟩
  generalize hM : xs.foldl (group_by_step keySelector) [] = M at hs hent hkeys hperm
  generalize hn : m + (xs.length + M.length + 4) = n
  obtain ⟨h1, hlen1, hout1, hg⟩ := group_by_owned (from_container_owns h xs) keySelector n
    (by omega)
  rw [hM] at hg
  obtain ⟨recs, h2, R, hres, hlen2, hlow, hh, hR, hf⟩ := group_by_res_spec M h1 []
  rw [hres] at hg
  simp only [List.nil_append] at hg
  have hrl : recs.length = M.length := hf.length_eq
  have hown := from_values_owns h2 recs 0
  obtain ⟨h4, ht, hlen4, hout4⟩ := hown.to_list_loop n (by omega)
  have hh4 : Handles h4 (recs.map Val.second) R (M.map Prod.snd) 2 := by
    refine (hh.append_each [.container recs 0, .container recs recs.length]).frame_each fun a ha => ?_
    have h1a := hh.lt_length_each a ha
    rw [← from_values_snd]
    apply hout4
    intro hc
    rcases hc with rfl | rfl <;> omega
  refine ⟨(from_values h2 recs).1, (from_values h2 recs).2, recs, h4, M.map Prod.fst, hg, ht, hs,
    ?_, ?_⟩
  · intro key
    constructor
    · intro hk
      obtain ⟨p, hp, rfl⟩ := List.mem_map.mp hk
      obtain ⟨h1p, h2p⟩ := hent p hp
      obtain ⟨x, hx⟩ := List.exists_mem_of_ne_nil _ h2p
      rw [h1p] at hx
      obtain ⟨hx1, hx2⟩ := List.mem_filter.mp hx
      exact ⟨x, hx1, of_decide_eq_true hx2⟩
    · rintro ⟨x, hx, rfl⟩
      exact hkeys x hx
  · refine handles_to_list (fun key => xs.filter (fun x => decide (keySelector x = key)))
      hh4 hf fun p hp => ⟨(hent p hp).1, ?_⟩
    rw [(hent p hp).1]
    have := List.length_filter_le (fun x => decide (keySelector x = p.1)) xs
    omega

/-- The loop of `select_many`: the accumulator owns the chain built so far, the item
under the cursor is handed to `f`, whose result is chained behind the accumulator. -/
theorem select_many_loop {π : Type} (f : Val α K → Heap α K → Except Err (linq_collection α K × Heap α K))
    (P : Heap α K → List (Val α K) → Set Nat → List π → Prop)
    (hPframe : ∀ g g1 ys R p, P g ys R p → (∀ a ∈ R, g1[a]? = g[a]?) → P g1 ys R p)
    (hPapp : ∀ g ys1 ys2 R1 R2 p1 p2, P g ys1 R1 p1 → P g ys2 R2 p2 → Disjoint R1 R2 →
      P g (ys1 ++ ys2) (R1 ∪ R2) (p1 ++ p2))
    (hPlt : ∀ g ys R p, P g ys R p → ∀ a ∈ R, a < g.length)
    (D dX : Nat) (h0 : Heap α K) (eX : Iter α K) (RX : Set Nat) :
    ∀ (items : List (Val α K × Set Nat × List π)) (g : Heap α K) (it : Iter α K)
      (ab ae : Nat) (Ra Rpa : Set Nat) (ysd : List (Val α K)) (pd : List π) (Da n : Nat),
      Owns g it eX RX (items.map Prod.fst) dX →
      h0.length ≤ g.length →
      (∀ item ∈ items, ∀ a ∈ item.2.1, a < h0.length ∧ g[a]? = h0[a]?) →
      Owns g (.any_iterator ab) (.any_iterator ae) Ra ysd Da → P g ysd Rpa pd →
      Disjoint Ra Rpa →
      (∀ a, a ∈ Ra ∨ a ∈ Rpa → a ∉ RX ∧ ∀ item ∈ items, a ∉ item.2.1) →
      D ≤ Da →
      (∀ item ∈ items, ∀ g, h0.length ≤ g.length → (∀ a ∈ item.2.1, g[a]? = h0[a]?) →
        ∃ s g1 ys Rs Rp, f item.1 g = .ok (s, g1) ∧ g.length ≤ g1.length ∧
          (∀ a, a < g.length → a ∉ item.2.1 → g1[a]? = g[a]?) ∧
          Owns g1 s._begin s._end Rs ys D ∧ P g1 ys Rp item.2.2 ∧ Disjoint Rs Rp ∧
          ∀ a, a ∈ Rs ∨ a ∈ Rp → a ∈ item.2.1 ∨ g.length ≤ a) →
      items.Pairwise (fun i j => Disjoint i.2.1 j.2.1) →
      (∀ item ∈ items, Disjoint RX item.2.1) →
      dX + items.length + 1 ≤ n →
      ∃ yb ye g1 ys RY RP,
        aggregate n g it eX
          (fun a v h1 =>
            match f v h1 with
            | .ok (b, h2) => .ok (mk_linq h2 (a.concat_impl b))
            | .error err => .error err)
          ⟨.any_iterator ab, .any_iterator ae⟩
          = .ok (⟨.any_iterator yb, .any_iterator ye⟩, g1) ∧
        Owns g1 (.any_iterator yb) (.any_iterator ye) RY ys (Da + 2 * items.length) ∧
        P g1 ys RP (pd ++ items.flatMap fun i => i.2.2) ∧ Disjoint RY RP ∧
        g.length ≤ g1.length := by
  intro items
  induction items with
  | nil =>
    intro g it ab ae Ra Rpa ysd pd Da n hX hlen hag hA hPa hdis hinv hD hf hpw hRX hn
    obtain ⟨m, rfl⟩ : ∃ m, n = m + 1 := ⟨n - 1, by omega⟩
    have heq := hX.eq_nil rfl m (by simp at hn; omega)
    refine ⟨ab, ae, g, ysd, Ra, Rpa, ?_, by simpa using hA, by simpa using hPa, hdis, le_refl _⟩
    rw [aggregate]
    simp [Iter.ne, heq]
  | cons item rest ih =>
    intro g it ab ae Ra Rpa ysd pd Da n hX hlen hag hA hPa hdis hinv hD hf hpw hRX hn
    obtain ⟨m, rfl⟩ : ∃ m, n = m + 1 := ⟨n - 1, by omega⟩
    simp only [List.length_cons] at hn
    simp only [List.map_cons] at hX
    obtain ⟨heq, hder, -⟩ := hX.step _ _ rfl m (by omega)
    -- the call of `f`
    obtain ⟨s, g1, ys, Rs, Rp, hfv, hlen1, hframe1, hos, hPs, hds, hreg⟩ :=
      hf item (List.mem_cons_self _ _) g hlen (fun a ha => (hag item (List.mem_cons_self _ _) a ha).2)
    have hRalt := hA.lt_length
    have hRpalt := hPlt _ _ _ _ hPa
    have hRXlt := hX.lt_length
    have hitem : ∀ a ∈ item.2.1, a < h0.length := fun a ha =>
      (hag item (List.mem_cons_self _ _) a ha).1
    -- the accumulator in `g1`
    have hA1 : Owns g1 (.any_iterator ab) (.any_iterator ae) Ra ysd Da :=
      hA.frame fun a ha => hframe1 a (hRalt a ha) ((hinv a (Or.inl ha)).2 item (List.mem_cons_self _ _))
    have hPa1 : P g1 ysd Rpa pd :=
      hPframe _ _ _ _ _ hPa fun a ha =>
        hframe1 a (hRpalt a ha) ((hinv a (Or.inr ha)).2 item (List.mem_cons_self _ _))
    have hnew : ∀ a, a ∈ Rs ∨ a ∈ Rp → a ∉ Ra ∧ a ∉ Rpa := by
      intro a ha
      rcases hreg a ha with h1 | h1
      · exact ⟨fun hc => (hinv a (Or.inl hc)).2 item (List.mem_cons_self _ _) h1,
          fun hc => (hinv a (Or.inr hc)).2 item (List.mem_cons_self _ _) h1⟩
      · exact ⟨fun hc => absurd (hRalt a hc) (by omega), fun hc => absurd (hRpalt a hc) (by omega)⟩
    have hdRs : Disjoint Ra Rs := Set.disjoint_left.mpr fun a ha hc => (hnew a (Or.inl hc)).1 ha
    have hcat : Owns g1 (.concat_iterator (.any_iterator ab) (.any_iterator ae) s._begin s._end)
        (.concat_iterator (.any_iterator ae) (.any_iterator ae) s._end s._end) (Ra ∪ Rs)
        (ysd ++ ys) (Da + 1) := .concat_iterator hA1 (hos.mono Da hD) hdRs
    have hY := mk_linq_owns (h := g1)
      (c := ⟨.concat_iterator (.any_iterator ab) (.any_iterator ae) s._begin s._end,
        .concat_iterator (.any_iterator ae) (.any_iterator ae) s._end s._end⟩) hcat
    generalize hg2 : (mk_linq g1 ⟨.concat_iterator (.any_iterator ab) (.any_iterator ae)
      s._begin s._end, .concat_iterator (.any_iterator ae) (.any_iterator ae) s._end s._end⟩).2
      = g2 at hY
    have hg2l : g2.length = g1.length + 2 := by rw [← hg2]; simp [mk_linq]
    have hg2low : ∀ a, a < g1.length → g2[a]? = g1[a]? := by
      intro a ha; rw [← hg2]; exact getElem?_append_of_lt ha
    have hbody : (match f item.1 g with
        | .ok (b, h2) => .ok (mk_linq h2
            (linq_collection.concat_impl ⟨.any_iterator ab, .any_iterator ae⟩ b))
        | .error err => .error err)
        = (.ok (⟨.any_iterator g1.length, .any_iterator (g1.length + 1)⟩, g2) :
            Except Err (linq_collection α K × Heap α K)) := by
      rw [hfv, ← hg2]; rfl
    -- the cursor in `g2`
    have hXframe : ∀ a ∈ RX, g2[a]? = g[a]? := by
      intro a ha
      have h1 := hRXlt a ha
      rw [hg2low a (by omega), hframe1 a h1
        (Set.disjoint_left.mp (hRX item (List.mem_cons_self _ _)) ha)]
    have hX2 := hX.frame hXframe
    obtain ⟨-, -, it1, g3, hadv, hX3, hlen3, hout3⟩ := hX2.step _ _ rfl m (by omega)
    -- the new accumulator in `g3`
    have hYR : ∀ a, a ∈ insert g1.length (insert (g1.length + 1) (Ra ∪ Rs)) ∨ a ∈ Rpa ∪ Rp →
        a ∉ RX ∧ ∀ i ∈ rest, a ∉ i.2.1 := by
      have hbig : ∀ a, g.length ≤ a → a ∉ RX ∧ ∀ i ∈ rest, a ∉ i.2.1 := by
        intro a ha
        refine ⟨fun hc => absurd (hRXlt a hc) (by omega), fun i hi hc => ?_⟩
        have := (hag i (List.mem_cons_of_mem _ hi) a hc).1
        omega
      have hold : ∀ a, a ∈ Ra ∨ a ∈ Rpa → a ∉ RX ∧ ∀ i ∈ rest, a ∉ i.2.1 := fun a ha =>
        ⟨(hinv a ha).1, fun i hi => (hinv a ha).2 i (List.mem_cons_of_mem _ hi)⟩
      have hmid : ∀ a, a ∈ Rs ∨ a ∈ Rp → a ∉ RX ∧ ∀ i ∈ rest, a ∉ i.2.1 := by
        intro a ha
        rcases hreg a ha with h1 | h1
        · refine ⟨fun hc => Set.disjoint_left.mp (hRX item (List.mem_cons_self _ _)) hc h1,
            fun i hi hc => ?_⟩
          exact Set.disjoint_left.mp ((List.pairwise_cons.mp hpw).1 i hi) h1 hc
        · exact hbig a h1
      rintro a ((rfl | rfl | ha | ha) | ha | ha)
      · exact hbig _ hlen1
      · exact hbig _ (by omega)
      · exact hold a (Or.inl ha)
      · exact hmid a (Or.inl ha)
      · exact hold a (Or.inr ha)
      · exact hmid a (Or.inr ha)
    have hY3 := hY.frame (g := g3) fun a ha => hout3 a (hYR a (Or.inl ha)).1
    have hP2 : P g2 (ysd ++ ys) (Rpa ∪ Rp) (pd ++ item.2.2) := by
      have hd : Disjoint Rpa Rp := Set.disjoint_left.mpr fun a ha hc => (hnew a (Or.inr hc)).2 ha
      have := hPapp _ _ _ _ _ _ _ hPa1 hPs hd
      exact hPframe _ _ _ _ _ this fun a ha => hg2low a (hPlt _ _ _ _ this a ha)
    have hP3 : P g3 (ysd ++ ys) (Rpa ∪ Rp) (pd ++ item.2.2) :=
      hPframe _ _ _ _ _ hP2 fun a ha => hout3 a (hYR a (Or.inr ha)).1
    have hdis3 : Disjoint (insert g1.length (insert (g1.length + 1) (Ra ∪ Rs))) (Rpa ∪ Rp) := by
      rw [Set.disjoint_left]
      have hP1lt := hPlt _ _ _ _ (hPapp _ _ _ _ _ _ _ hPa1 hPs
        (Set.disjoint_left.mpr fun a ha hc => (hnew a (Or.inr hc)).2 ha))
      rintro a (rfl | rfl | ha | ha) hc
      · exact absurd (hP1lt _ hc) (lt_irrefl _)
      · exact absurd (hP1lt _ hc) (by omega)
      · rcases hc with hc | hc
        · exact Set.disjoint_left.mp hdis ha hc
        · exact (hnew a (Or.inr hc)).1 ha
      · rcases hc with hc | hc
        · exact (hnew a (Or.inl ha)).2 hc
        · exact Set.disjoint_left.mp hds ha hc
    have hag3 : ∀ i ∈ rest, ∀ a ∈ i.2.1, a < h0.length ∧ g3[a]? = h0[a]? := by
      intro i hi a ha
      obtain ⟨h1, h2⟩ := hag i (List.mem_cons_of_mem _ hi) a ha
      refine ⟨h1, ?_⟩
      have hnX : a ∉ RX := fun hc =>
        Set.disjoint_left.mp (hRX i (List.mem_cons_of_mem _ hi)) hc ha
      have hni : a ∉ item.2.1 := fun hc =>
        Set.disjoint_left.mp ((List.pairwise_cons.mp hpw).1 i hi) hc ha
      rw [hout3 a hnX, hg2low a (by omega), hframe1 a (by omega) hni, h2]
    obtain ⟨yb, ye, g4, ys4, RY, RP, hagg, hO4, hP4, hd4, hl4⟩ :=
      ih g3 it1 g1.length (g1.length + 1) _ _ (ysd ++ ys) (pd ++ item.2.2) (Da + 1 + 1) m hX3
        (by omega) hag3 hY3 hP3 hdis3 (fun a ha => hYR a ha) (by omega)
        (fun i hi => hf i (List.mem_cons_of_mem _ hi)) (List.pairwise_cons.mp hpw).2
        (fun i hi => hRX i (List.mem_cons_of_mem _ hi)) (by omega)
    refine ⟨yb, ye, g4, ys4, RY, RP, ?_, ?_, ?_, hd4, by omega⟩
    · rw [aggregate]
      simp only [Iter.ne, heq, Bool.not_false, hder, hbody, hadv]
      exact hagg
    · have : Da + 1 + 1 + 2 * rest.length = Da + 2 * (rest.length + 1) := by omega
      rw [List.length_cons, ← this]; exact hO4
    · simpa [List.flatMap_cons, List.append_assoc] using hP4

theorem from_empty_snd (h : Heap α K) :
    (from_empty h).2 = h ++ [.empty_iterator, .empty_iterator] := rfl

theorem from_empty_fst (h : Heap α K) :
    (from_empty h).1 = ⟨.any_iterator h.length, .any_iterator (h.length + 1)⟩ := rfl

/-- The method `select_many(f)` over an owned cursor whose items `f` turns into owned
handles over pairwise disjoint regions: the result owns the chain of these handles
and yields their elements in order. -/
theorem select_many_spec {π : Type}
    (f : Val α K → Heap α K → Except Err (linq_collection α K × Heap α K))
    (P : Heap α K → List (Val α K) → Set Nat → List π → Prop)
    (hPnil : ∀ g, P g [] ∅ [])
    (hPframe : ∀ g g1 ys R p, P g ys R p → (∀ a ∈ R, g1[a]? = g[a]?) → P g1 ys R p)
    (hPapp : ∀ g ys1 ys2 R1 R2 p1 p2, P g ys1 R1 p1 → P g ys2 R2 p2 → Disjoint R1 R2 →
      P g (ys1 ++ ys2) (R1 ∪ R2) (p1 ++ p2))
    (hPlt : ∀ g ys R p, P g ys R p → ∀ a ∈ R, a < g.length)
    (D dX : Nat) (h : Heap α K) (X : linq_collection α K) (RX : Set Nat)
    (items : List (Val α K × Set Nat × List π))
    (hX : Owns h X._begin X._end RX (items.map Prod.fst) dX)
    (hlt : ∀ item ∈ items, ∀ a ∈ item.2.1, a < h.length)
    (hf : ∀ item ∈ items, ∀ g, h.length ≤ g.length → (∀ a ∈ item.2.1, g[a]? = h[a]?) →
        ∃ s g1 ys Rs Rp, f item.1 g = .ok (s, g1) ∧ g.length ≤ g1.length ∧
          (∀ a, a < g.length → a ∉ item.2.1 → g1[a]? = g[a]?) ∧
          Owns g1 s._begin s._end Rs ys D ∧ P g1 ys Rp item.2.2 ∧ Disjoint Rs Rp ∧
          ∀ a, a ∈ Rs ∨ a ∈ Rp → a ∈ item.2.1 ∨ g.length ≤ a)
    (hpw : items.Pairwise (fun i j => Disjoint i.2.1 j.2.1))
    (hRX : ∀ item ∈ items, Disjoint RX item.2.1)
    (n : Nat) (hn : dX + items.length + 1 ≤ n) :
    ∃ yb ye g1 ys RY RP,
      X.select_many n h f = .ok (⟨.any_iterator yb, .any_iterator ye⟩, g1) ∧
      Owns g1 (.any_iterator yb) (.any_iterator ye) RY ys (D + 2 + 2 * items.length) ∧
      P g1 ys RP (items.flatMap fun i => i.2.2) ∧ Disjoint RY RP ∧ h.length ≤ g1.length := by
  have hRXlt := hX.lt_length
  have hA : Owns (from_empty h).2 (.any_iterator h.length) (.any_iterator (h.length + 1))
      {h.length, h.length + 1} [] (D + 2) := from_empty_owns h D
  have hl0 : (from_empty h).2.length = h.length + 2 := by simp [from_empty_snd]
  obtain ⟨yb, ye, g1, ys, RY, RP, hagg, hO, hPf, hd, hl⟩ :=
    select_many_loop f P hPframe hPapp hPlt D dX h X._end RX items (from_empty h).2 X._begin
      h.length (h.length + 1) {h.length, h.length + 1} ∅ [] [] (D + 2) n
      (by rw [from_empty_snd]; exact hX.append _) (by omega)
      (fun item hi a ha => ⟨hlt item hi a ha, by
        rw [from_empty_snd]; exact getElem?_append_of_lt (hlt item hi a ha)⟩)
      hA (hPnil _) (by simp)
      (by
        intro a ha
        have ha1 : h.length ≤ a := by
          rcases ha with (rfl | rfl) | ha
          · exact le_refl _
          · omega
          · cases ha
        exact ⟨fun hc => absurd (hRXlt a hc) (by omega),
          fun item hi hc => absurd (hlt item hi a hc) (by omega)⟩)
      (by omega) hf hpw hRX hn
  refine ⟨yb, ye, g1, ys, RY, RP, ?_, hO, by simpa using hPf, hd, by omega⟩
  unfold linq_collection.select_many
  rw [from_empty_fst]
  exact hagg

/-- The items of a list of owned handles. -/
theorem handles_items {h : Heap α K} {vs : List (Val α K)} {R : Set Nat}
    {xss : List (List (Val α K))} {d : Nat} (hh : Handles h vs R xss d) :
    ∃ items : List (Val α K × Set Nat × List (Val α K)),
      items.map Prod.fst = vs ∧ items.map (fun i => i.2.2) = xss ∧
      (∀ item ∈ items, (∀ a ∈ item.2.1, a ∈ R) ∧
        ∃ b e, item.1 = .linq b e ∧
          Owns h (.any_iterator b) (.any_iterator e) item.2.1 item.2.2 d) ∧
      items.Pairwise (fun i j => Disjoint i.2.1 j.2.1) := by
  induction hh with
  | nil d => exact ⟨[], rfl, rfl, by simp, .nil⟩
  | @cons b e R0 R1 xs vs0 xss0 d ho ht hd ih =>
    obtain ⟨items, h1, h2, h3, h4⟩ := ih
    refine ⟨(.linq b e, R0, xs) :: items, by simp [h1], by simp [h2], ?_, ?_⟩
    · intro item hi
      rcases List.mem_cons.mp hi with rfl | hi
      · exact ⟨fun a ha => Or.inl ha, b, e, rfl, ho⟩
      · exact ⟨fun a ha => Or.inr ((h3 item hi).1 a ha), (h3 item hi).2⟩
    · refine List.pairwise_cons.mpr ⟨fun i hi => ?_, h4⟩
      exact Set.disjoint_left.mpr fun a ha hc =>
        Set.disjoint_left.mp hd ha ((h3 i hi).1 a hc)

/-- The method `select_many` with the identity (`order_by`, `flatten`) over an owned
cursor that yields owned handles: the result yields the elements of the handles in
order. -/
theorem select_many_identity {h : Heap α K} {X : linq_collection α K} {RX RH : Set Nat}
    {vs : List (Val α K)} {xss : List (List (Val α K))} {dX d : Nat}
    (hX : Owns h X._begin X._end RX vs dX) (hh : Handles h vs RH xss d)
    (hd : Disjoint RX RH) (n : Nat) (hn : dX + vs.length + 1 ≤ n) :
    ∃ yb ye g1 RY,
      X.select_many n h linq_collection.identity_selector
        = .ok (⟨.any_iterator yb, .any_iterator ye⟩, g1) ∧
      Owns g1 (.any_iterator yb) (.any_iterator ye) RY xss.flatten (d + 2 + 2 * vs.length) := by
  obtain ⟨items, h1, h2', h3, h4⟩ := handles_items hh
  have h2 : (items.flatMap fun i => i.2.2) = xss.flatten := by
    rw [← h2', List.flatMap_def]
  have hRHlt := hh.lt_length_each
  subst h1
  obtain ⟨yb, ye, g1, ys, RY, RP, hsm, hO, hP, -, -⟩ :=
    select_many_spec (π := Val α K) linq_collection.identity_selector
      (fun _ ys R p => R = ∅ ∧ p = ys) (fun _ => ⟨rfl, rfl⟩)
      (fun _ _ _ _ _ hp _ => hp)
      (fun _ _ _ _ _ _ _ hp1 hp2 _ => ⟨by rw [hp1.1, hp2.1]; simp, by rw [hp1.2, hp2.2]⟩)
      (fun _ _ _ _ hp a ha => by rw [hp.1] at ha; cases ha)
      d dX h X RX items hX
      (fun item hi a ha => hRHlt a ((h3 item hi).1 a ha))
      (by
        intro item hi g hlen hag
        obtain ⟨_, b, e, hv, ho⟩ := h3 item hi
        refine ⟨⟨.any_iterator b, .any_iterator e⟩, g, item.2.2, item.2.1, ∅, ?_, le_refl _,
          fun _ _ _ => rfl, ho.frame hag, ⟨rfl, rfl⟩, by simp, ?_⟩
        · rw [hv]; rfl
        · rintro a (ha | ha)
          · exact Or.inl ha
          · cases ha)
      h4
      (fun item hi => Set.disjoint_left.mpr fun a ha hc =>
        Set.disjoint_left.mp hd ha ((h3 item hi).1 a hc))
      n (by simpa using hn)
  refine ⟨yb, ye, g1, RY, hsm, ?_⟩
  rw [← h2, hP.2]
  simpa using hO

/-- The method `first_order_by(keySelector)` over an owned cursor: the result is a new
handle that yields one handle per entry of the map, each owning the group of its
entry, and all the heap objects it reaches are new. -/
theorem first_order_by_owned [LinearOrder K] {g : Heap α K} {c : linq_collection α K}
    {R : Set Nat} {xs : List (Val α K)} {d : Nat} (ho : Owns g c._begin c._end R xs d)
    (k : Val α K → K) (n : Nat) (hn : d + xs.length + 1 ≤ n) :
    ∃ xb xe g1 ys Rs Rp,
      linq_collection.first_order_by n g c k = .ok (⟨.any_iterator xb, .any_iterator xe⟩, g1) ∧
      g.length ≤ g1.length ∧ (∀ a, a < g.length → a ∉ R → g1[a]? = g[a]?) ∧
      Owns g1 (.any_iterator xb) (.any_iterator xe) Rs ys 4 ∧
      Handles g1 ys Rp ((xs.foldl (group_by_step k) []).map Prod.snd) 2 ∧ Disjoint Rs Rp ∧
      (∀ a, a ∈ Rs ∨ a ∈ Rp → g.length ≤ a) ∧
      ys.length = (xs.foldl (group_by_step k) []).length := by
  obtain ⟨h1, hlen1, hout1, hg⟩ := group_by_owned ho k n hn
  generalize xs.foldl (group_by_step k) [] = M at hg ⊢
  obtain ⟨recs, h2, Rp, hres, hlen2, hlow, hh, hR, hf⟩ := group_by_res_spec M h1 []
  rw [hres] at hg
  simp only [List.nil_append] at hg
  have hG := from_values_owns h2 recs 0
  rw [from_values_snd] at hG
  have hsel : Owns (h2 ++ [.container recs 0, .container recs recs.length])
      (.select_iterator (.any_iterator h2.length) Val.second)
      (.select_iterator (.any_iterator (h2.length + 1)) Val.second)
      {h2.length, h2.length + 1} (recs.map Val.second) 3 := .select_iterator _ hG
  have hX := mk_linq_owns (h := h2 ++ [.container recs 0, .container recs recs.length])
    (c := ⟨.select_iterator (.any_iterator h2.length) Val.second,
      .select_iterator (.any_iterator (h2.length + 1)) Val.second⟩) hsel
  have hRplt := hh.lt_length_each
  refine ⟨_, _, _, recs.map Val.second, _, Rp, ?_, ?_, ?_, hX, ?_, ?_, ?_, ?_⟩
  · unfold linq_collection.first_order_by
    rw [hg]
    rfl
  · simp [mk_linq]; omega
  · intro a ha haR
    have h3 : a < h2.length := by omega
    show ((h2 ++ [.container recs 0, .container recs recs.length]) ++ _)[a]? = _
    rw [getElem?_append_of_lt (by simp; omega), getElem?_append_of_lt h3, hlow a (by omega),
      hout1 a haR]
  · exact (hh.append_each _).append_each _
  · rw [Set.disjoint_left]
    intro a ha hc
    have := hRplt a hc
    simp only [List.length_append, List.length_cons, List.length_nil] at ha
    rcases ha with rfl | rfl | rfl | rfl <;> omega
  · rintro a (ha | ha)
    · simp only [List.length_append, List.length_cons, List.length_nil] at ha
      rcases ha with rfl | rfl | rfl | rfl <;> omega
    · have := hR a ha; omega
  · simp [hf.length_eq]

/-- The pass over the result of `order_by(keySelector)` of a container yields the
groups of the map of `group_by`, one after the other. -/
theorem order_by_elements [LinearOrder K] (xs : List (Val α K)) (k : Val α K → K)
    (h : Heap α K) (n : Nat)
    (hn : 2 * (xs.foldl (group_by_step k) []).length + xs.length + 7 ≤ n) :
    elements n (linq_collection.order_by n h («from» xs) k)
      = .ok ((xs.foldl (group_by_step k) []).flatMap Prod.snd) := by
  obtain ⟨-, -, -, hperm⟩ := group_inv_foldl k xs
  obtain ⟨xb, xe, g1, ys, Rs, Rp, hfo, -, -, hX, hH, hd, -, hyl⟩ :=
    first_order_by_owned (from_container_owns h xs) k n (by omega)
  generalize xs.foldl (group_by_step k) [] = M at *
  obtain ⟨yb, ye, g2, RY, hsm, hY⟩ :=
    select_many_identity (X := ⟨.any_iterator xb, .any_iterator xe⟩) hX hH hd n (by omega)
  have hfl : (M.map Prod.snd).flatten = M.flatMap Prod.snd := by
    rw [List.flatMap_def]
  have hl : (M.flatMap Prod.snd).length = xs.length := hperm.length_eq
  rw [hfl] at hY
  obtain ⟨g3, ht, -, -⟩ := hY.to_list_loop n (by omega)
  unfold linq_collection.order_by
  rw [hfo]
  simp only [hsm, elements, linq_collection.to_list, ht]

theorem Handles.length_eq {h : Heap α K} {vs : List (Val α K)} {R : Set Nat}
    {xss : List (List (Val α K))} {d : Nat} (hh : Handles h vs R xss d) :
    vs.length = xss.length := by
  induction hh with
  | nil d => rfl
  | cons _ _ _ ih => simp [ih]

theorem length_le_flatMap_snd {β κ : Type} (M : List (κ × List β)) (hne : ∀ p ∈ M, p.2 ≠ []) :
    M.length ≤ (M.flatMap Prod.snd).length := by
  induction M with
  | nil => simp
  | cons p M ih =>
    have h1 : 0 < p.2.length := List.length_pos.mpr (hne p (List.mem_cons_self _ _))
    have h2 := ih fun q hq => hne q (List.mem_cons_of_mem _ hq)
    simp only [List.flatMap_cons, List.length_append, List.length_cons]
    omega

theorem groups_length_le [LinearOrder K] (k : Val α K → K) (xs : List (Val α K)) :
    (xs.foldl (group_by_step k) []).length ≤ xs.length := by
  obtain ⟨-, hent, -, hperm⟩ := group_inv_foldl k xs
  rw [← hperm.length_eq]
  exact length_le_flatMap_snd _ fun p hp => (hent p hp).2

/-! ## Stable sorting -/

section stable
variable {β κ : Type} [LinearOrder κ]

/-- Two lists sorted by key with the same elements, in the same order, under every key
are equal. -/
theorem stable_unique (k : β → κ) :
    ∀ (l1 l2 : List β), l1.Pairwise (fun a b => k a ≤ k b) → l2.Pairwise (fun a b => k a ≤ k b) →
      (∀ key, l1.filter (fun x => decide (k x = key)) = l2.filter (fun x => decide (k x = key))) →
      l1 = l2 := by
  intro l1
  induction l1 with
  | nil =>
    intro l2 _ _ hf
    cases l2 with
    | nil => rfl
    | cons b t =>
      have := hf (k b)
      simp at this
  | cons a t ih =>
    intro l2 h1 h2 hf
    cases l2 with
    | nil =>
      have := hf (k a)
      simp at this
    | cons b t2 =>
      have ha : a ∈ b :: t2 := by
        have : a ∈ (b :: t2).filter (fun x => decide (k x = k a)) := by
          rw [← hf (k a)]; simp
        exact (List.mem_filter.mp this).1
      have hb : b ∈ a :: t := by
        have : b ∈ (a :: t).filter (fun x => decide (k x = k b)) := by
          rw [hf (k b)]; simp
        exact (List.mem_filter.mp this).1
      have hab : k a ≤ k b := by
        rcases List.mem_cons.mp hb with rfl | hb
        · exact le_refl _
        · exact (List.pairwise_cons.mp h1).1 b hb
      have hba : k b ≤ k a := by
        rcases List.mem_cons.mp ha with rfl | ha
        · exact le_refl _
        · exact (List.pairwise_cons.mp h2).1 a ha
      have hk : k b = k a := le_antisymm hba hab
      have h0 := hf (k a)
      simp only [List.filter_cons, hk, decide_True, if_true] at h0
      obtain ⟨rfl, h0t⟩ := List.cons.inj h0
      congr 1
      refine ih t2 (List.pairwise_cons.mp h1).2 (List.pairwise_cons.mp h2).2 fun key => ?_
      by_cases hkey : k a = key
      · subst hkey; exact h0t
      · have := hf key
        simpa [List.filter_cons, hkey] using this

/-- The merge sort of the library keeps the elements of every key in their order. -/
theorem mergeSort_filter (k : β → κ) (l : List β) (key : κ) :
    (l.mergeSort (fun a b => decide (k a ≤ k b))).filter (fun x => decide (k x = key))
      = l.filter (fun x => decide (k x = key)) := by
  have htrans : ∀ a b c : β, decide (k a ≤ k b) = true → decide (k b ≤ k c) = true →
      decide (k a ≤ k c) = true := by
    intro a b c h1 h2
    simp only [decide_eq_true_eq] at *
    exact le_trans h1 h2
  have htotal : ∀ a b : β, (decide (k a ≤ k b) || decide (k b ≤ k a)) = true := by
    intro a b
    simp only [Bool.or_eq_true, decide_eq_true_eq]
    exact le_total _ _
  have hc : (l.filter (fun x => decide (k x = key))).Pairwise
      (fun a b => decide (k a ≤ k b) = true) := by
    rw [List.pairwise_iff_forall_sublist]
    intro a b hab
    have ha := hab.subset (List.mem_cons_self _ _)
    have hb := hab.subset (List.mem_cons_of_mem _ (List.mem_cons_self _ _))
    have h1 := of_decide_eq_true (List.mem_filter.mp ha).2
    have h2 := of_decide_eq_true (List.mem_filter.mp hb).2
    simp [h1, h2]
  have hsub := @List.sublist_mergeSort _ (fun a b => decide (k a ≤ k b)) _ htrans htotal _ hc
    (List.filter_sublist l)
  have hsub2 := hsub.filter (fun x => decide (k x = key))
  rw [List.filter_filter] at hsub2
  simp only [Bool.and_self] at hsub2
  have hlen := ((List.mergeSort_perm l (fun a b => decide (k a ≤ k b))).filter
    (fun x => decide (k x = key))).length_eq
  exact (hsub2.eq_of_length hlen.symm).symm

/-- A list sorted by key that keeps the elements of every key in the order they have
in `l` is the stable sort of `l`. -/
theorem eq_mergeSort_of_stable (k : β → κ) (l ys : List β)
    (hs : ys.Pairwise (fun a b => k a ≤ k b))
    (hf : ∀ key, ys.filter (fun x => decide (k x = key)) = l.filter (fun x => decide (k x = key))) :
    ys = l.mergeSort (fun a b => decide (k a ≤ k b)) := by
  refine stable_unique k _ _ hs ?_ fun key => by rw [hf, mergeSort_filter]
  have := @List.sorted_mergeSort _ (fun a b => decide (k a ≤ k b))
    (fun a b c h1 h2 => by
      simp only [decide_eq_true_eq] at *
      exact le_trans h1 h2)
    (fun a b => by
      simp only [Bool.or_eq_true, decide_eq_true_eq]
      exact le_total _ _) l
  exact this.imp fun h => of_decide_eq_true h

end stable

section grouped
variable {β κ : Type} [LinearOrder κ]

/-- The entries of a map with ascending keys, one after the other, are sorted by key. -/
theorem flatMap_sorted (k : β → κ) (M : List (κ × List β))
    (hs : (M.map Prod.fst).Pairwise (· < ·)) (hk : ∀ p ∈ M, ∀ x ∈ p.2, k x = p.1) :
    (M.flatMap Prod.snd).Pairwise (fun a b => k a ≤ k b) := by
  rw [List.pairwise_flatMap]
  constructor
  · intro p hp
    rw [List.pairwise_iff_forall_sublist]
    intro a b hab
    have ha := hab.subset (List.mem_cons_self _ _)
    have hb := hab.subset (List.mem_cons_of_mem _ (List.mem_cons_self _ _))
    rw [hk p hp a ha, hk p hp b hb]
  · rw [List.pairwise_map] at hs
    refine hs.imp_of_mem ?_
    intro p q hp hq hpq x hx y hy
    rw [hk p hp x hx, hk q hq y hy]
    exact le_of_lt hpq

/-- The entries of a map with ascending keys, one after the other, hold under a key
what the entry of that key holds. -/
theorem flatMap_filter_mem (k : β → κ) (M : List (κ × List β))
    (hs : (M.map Prod.fst).Pairwise (· < ·)) (hk : ∀ p ∈ M, ∀ x ∈ p.2, k x = p.1)
    (key : κ) (vs : List β) (hm : (key, vs) ∈ M) :
    (M.flatMap Prod.snd).filter (fun x => decide (k x = key)) = vs := by
  induction M with
  | nil => cases hm
  | cons p M ih =>
    simp only [List.map_cons, List.pairwise_cons] at hs
    simp only [List.flatMap_cons, List.filter_append]
    rcases List.mem_cons.mp hm with rfl | hm
    · have h1 : List.filter (fun x => decide (k x = key)) vs = vs := by
        rw [List.filter_eq_self]
        intro x hx
        simpa using hk _ (List.mem_cons_self _ _) x hx
      have h2 : List.filter (fun x => decide (k x = key)) (M.flatMap Prod.snd) = [] := by
        rw [List.filter_eq_nil_iff]
        intro x hx hc
        obtain ⟨q, hq, hxq⟩ := List.mem_flatMap.mp hx
        have := hk q (List.mem_cons_of_mem _ hq) x hxq
        have hlt := hs.1 q.1 (List.mem_map_of_mem Prod.fst hq)
        rw [← this, of_decide_eq_true hc] at hlt
        exact lt_irrefl _ hlt
      rw [h1, h2, List.append_nil]
    · have h1 : List.filter (fun x => decide (k x = key)) p.2 = [] := by
        rw [List.filter_eq_nil_iff]
        intro x hx hc
        have := hk p (List.mem_cons_self _ _) x hx
        have hlt := hs.1 key (List.mem_map_of_mem Prod.fst hm)
        rw [← this, of_decide_eq_true hc] at hlt
        exact lt_irrefl _ hlt
      rw [h1, List.nil_append]
      exact ih hs.2 (fun q hq => hk q (List.mem_cons_of_mem _ hq)) hm

theorem flatMap_filter_not_mem (k : β → κ) (M : List (κ × List β))
    (hk : ∀ p ∈ M, ∀ x ∈ p.2, k x = p.1) (key : κ) (hm : key ∉ M.map Prod.fst) :
    (M.flatMap Prod.snd).filter (fun x => decide (k x = key)) = [] := by
  rw [List.filter_eq_nil_iff]
  intro x hx hc
  obtain ⟨q, hq, hxq⟩ := List.mem_flatMap.mp hx
  have := hk q hq x hxq
  rw [of_decide_eq_true hc] at this
  exact hm (this ▸ List.mem_map_of_mem Prod.fst hq)

end grouped

/-- The groups of `group_by`, one after the other, are the stable sort of the input. -/
theorem groups_stable_sort [LinearOrder K] (k : Val α K → K) (xs : List (Val α K)) :
    ((xs.foldl (group_by_step k) []).flatMap Prod.snd).Perm xs ∧
    ((xs.foldl (group_by_step k) []).flatMap Prod.snd).Pairwise (fun a b => k a ≤ k b) ∧
    (∀ key, ((xs.foldl (group_by_step k) []).flatMap Prod.snd).filter
        (fun x => decide (k x = key)) = xs.filter (fun x => decide (k x = key))) ∧
    (xs.foldl (group_by_step k) []).flatMap Prod.snd
      = xs.mergeSort (fun a b => decide (k a ≤ k b)) := by
  obtain ⟨hs, hent, hkeys, hperm⟩ := group_inv_foldl k xs
  generalize xs.foldl (group_by_step k) [] = M at *
  have hk : ∀ p ∈ M, ∀ x ∈ p.2, k x = p.1 := by
    intro p hp x hx
    rw [(hent p hp).1] at hx
    exact of_decide_eq_true (List.mem_filter.mp hx).2
  have hsorted := flatMap_sorted k M hs hk
  have hfilter : ∀ key, (M.flatMap Prod.snd).filter (fun x => decide (k x = key))
      = xs.filter (fun x => decide (k x = key)) := by
    intro key
    by_cases hm : key ∈ M.map Prod.fst
    · obtain ⟨p, hp, rfl⟩ := List.mem_map.mp hm
      rw [flatMap_filter_mem k M hs hk p.1 p.2 hp, (hent p hp).1]
    · rw [flatMap_filter_not_mem k M hk key hm]
      symm
      rw [List.filter_eq_nil_iff]
      intro x hx hc
      exact hm (of_decide_eq_true hc ▸ hkeys x hx)
  exact ⟨hperm, hsorted, hfilter, eq_mergeSort_of_stable k xs _ hsorted hfilter⟩

/-- Grouping by the first key and then each group by the second key gives, group after
group, the stable sort by the pair of keys in lexicographic order. -/
theorem two_level_stable_sort [LinearOrder K] (k1 k2 : Val α K → K) (xs : List (Val α K)) :
    ((xs.foldl (group_by_step k1) []).flatMap
        (fun p => (p.2.foldl (group_by_step k2) []).flatMap Prod.snd)).Perm xs ∧
    ((xs.foldl (group_by_step k1) []).flatMap
        (fun p => (p.2.foldl (group_by_step k2) []).flatMap Prod.snd)).Pairwise
      (fun a b => k1 a < k1 b ∨ (k1 a = k1 b ∧ k2 a ≤ k2 b)) ∧
    (∀ a b, ((xs.foldl (group_by_step k1) []).flatMap
        (fun p => (p.2.foldl (group_by_step k2) []).flatMap Prod.snd)).filter
          (fun x => decide (k1 x = a ∧ k2 x = b))
        = xs.filter (fun x => decide (k1 x = a ∧ k2 x = b))) ∧
    (xs.foldl (group_by_step k1) []).flatMap
        (fun p => (p.2.foldl (group_by_step k2) []).flatMap Prod.snd)
      = xs.mergeSort (fun a b => decide (k1 a < k1 b ∨ (k1 a = k1 b ∧ k2 a ≤ k2 b))) := by
  obtain ⟨hs, hent, hkeys, hperm⟩ := group_inv_foldl k1 xs
  generalize xs.foldl (group_by_step k1) [] = M1 at *
  have hG := fun (p : K × List (Val α K)) => group_inv_foldl k2 p.2
  generalize hGdef : (fun (p : K × List (Val α K)) => p.2.foldl (group_by_step k2) []) = G at *
  have hGp : ∀ p, p.2.foldl (group_by_step k2) [] = G p := fun p => by rw [← hGdef]
  simp only [hGp] at hG ⊢
  -- the combined map
  let κ : Val α K → Lex (K × K) := fun x => toLex (k1 x, k2 x)
  let M2 : List (Lex (K × K) × List (Val α K)) :=
    M1.flatMap fun p => (G p).map fun q => (toLex (p.1, q.1), q.2)
  have hR : M1.flatMap (fun p => (G p).flatMap Prod.snd) = M2.flatMap Prod.snd := by
    simp only [M2, List.flatMap_assoc, List.flatMap_map]
  have hk1 : ∀ p ∈ M1, ∀ x ∈ p.2, k1 x = p.1 := by
    intro p hp x hx
    rw [(hent p hp).1] at hx
    exact of_decide_eq_true (List.mem_filter.mp hx).2
  have hmem2 : ∀ e ∈ M2, ∃ p ∈ M1, ∃ q ∈ G p, e = (toLex (p.1, q.1), q.2) := by
    intro e he
    obtain ⟨p, hp, hep⟩ := List.mem_flatMap.mp he
    obtain ⟨q, hq, rfl⟩ := List.mem_map.mp hep
    exact ⟨p, hp, q, hq, rfl⟩
  have hs2 : (M2.map Prod.fst).Pairwise (· < ·) := by
    simp only [M2, List.map_flatMap, List.map_map]
    rw [List.pairwise_flatMap]
    constructor
    · intro p _
      rw [List.pairwise_map]
      have := (hG p).1
      rw [List.pairwise_map] at this
      refine this.imp fun h => ?_
      exact (Prod.Lex.lt_iff _ _).mpr (Or.inr ⟨rfl, h⟩)
    · rw [List.pairwise_map] at hs
      refine hs.imp fun h => ?_
      intro x hx y hy
      obtain ⟨q, _, rfl⟩ := List.mem_map.mp hx
      obtain ⟨q', _, rfl⟩ := List.mem_map.mp hy
      exact (Prod.Lex.lt_iff _ _).mpr (Or.inl h)
  have hκ : ∀ e ∈ M2, ∀ x ∈ e.2, κ x = e.1 := by
    intro e he x hx
    obtain ⟨p, hp, q, hq, rfl⟩ := hmem2 e he
    have hx2 : x ∈ p.2.filter (fun y => decide (k2 y = q.1)) := by
      rw [← ((hG p).2.1 q hq).1]; exact hx
    obtain ⟨hxp, hxk⟩ := List.mem_filter.mp hx2
    show toLex (k1 x, k2 x) = toLex (p.1, q.1)
    rw [hk1 p hp x hxp, of_decide_eq_true hxk]
  have hfil : ∀ key, (M2.flatMap Prod.snd).filter (fun x => decide (κ x = key))
      = xs.filter (fun x => decide (κ x = key)) := by
    intro key
    by_cases hm : key ∈ M2.map Prod.fst
    · obtain ⟨e, he, rfl⟩ := List.mem_map.mp hm
      rw [flatMap_filter_mem κ M2 hs2 hκ e.1 e.2 he]
      obtain ⟨p, hp, q, hq, rfl⟩ := hmem2 e he
      simp only
      rw [((hG p).2.1 q hq).1, (hent p hp).1, List.filter_filter]
      congr 1
      funext x
      simp only [κ, Bool.decide_and, EmbeddingLike.apply_eq_iff_eq, Prod.mk.injEq]
      rw [Bool.and_comm]
    · rw [flatMap_filter_not_mem κ M2 hκ key hm]
      symm
      rw [List.filter_eq_nil_iff]
      intro x hx hc
      have hc := of_decide_eq_true hc
      obtain ⟨p, hp, hpk⟩ := List.mem_map.mp (hkeys x hx)
      have hxp : x ∈ p.2 := by
        rw [(hent p hp).1]
        exact List.mem_filter.mpr ⟨hx, by simp [hpk]⟩
      obtain ⟨q, hq, hqk⟩ := List.mem_map.mp ((hG p).2.2.1 x hxp)
      apply hm
      rw [← hc]
      refine List.mem_map.mpr ⟨(toLex (p.1, q.1), q.2), ?_, ?_⟩
      · exact List.mem_flatMap.mpr ⟨p, hp, List.mem_map.mpr ⟨q, hq, rfl⟩⟩
      · show toLex (p.1, q.1) = toLex (k1 x, k2 x)
        rw [hpk, hqk]
  have hsorted := flatMap_sorted κ M2 hs2 hκ
  have hms := eq_mergeSort_of_stable κ xs _ hsorted hfil
  rw [hR]
  refine ⟨?_, ?_, ?_, ?_⟩
  · rw [← hR]
    exact (List.Perm.flatMap_left M1 fun p _ => (hG p).2.2.2).trans hperm
  · exact hsorted.imp fun h => (Prod.Lex.le_iff _ _).mp h
  · intro a b
    have := hfil (toLex (a, b))
    simpa [κ] using this
  · rw [hms]
    congr 1
    funext a b
    simp only [κ, Prod.Lex.le_iff]

theorem length_flatMap_le {β γ δ : Type} (l : List β) (f : β → List γ) (g : β → List δ)
    (hfg : ∀ a ∈ l, (f a).length ≤ (g a).length) :
    (l.flatMap f).length ≤ (l.flatMap g).length := by
  induction l with
  | nil => simp
  | cons a l ih =>
    have h1 := hfg a (List.mem_cons_self _ _)
    have h2 := ih fun b hb => hfg b (List.mem_cons_of_mem _ hb)
    simp only [List.flatMap_cons, List.length_append]
    omega

theorem flatten_flatMap {β γ : Type} (l : List β) (f : β → List (List γ)) :
    (l.flatMap f).flatten = l.flatMap fun a => (f a).flatten := by
  induction l with
  | nil => rfl
  | cons a l ih => simp [List.flatMap_cons, ih]

/-- The pass over `flatten(first_order_by(k1).then_order_by(k2))` of a container yields
the groups of the groups, one after the other. -/
theorem first_then_order_by_elements [LinearOrder K] (xs : List (Val α K))
    (k1 k2 : Val α K → K) (h : Heap α K) (n : Nat) (hn : 3 * xs.length + 8 ≤ n) :
    elements n (first_then_order_by n h xs k1 k2)
      = .ok ((xs.foldl (group_by_step k1) []).flatMap
          (fun p => (p.2.foldl (group_by_step k2) []).flatMap Prod.snd)) := by
  obtain ⟨hperm2, -⟩ := two_level_stable_sort k1 k2 xs
  have hM1len := groups_length_le k1 xs
  obtain ⟨-, hent, -, hperm⟩ := group_inv_foldl k1 xs
  obtain ⟨xb, xe, g1, ys, Rs, Rp, hfo, -, -, hX, hH, hd, -, hyl⟩ :=
    first_order_by_owned (from_container_owns h xs) k1 n (by omega)
  generalize xs.foldl (group_by_step k1) [] = M1 at *
  obtain ⟨items0, hi1, hi2, hi3, hi4⟩ := handles_items hH
  have hRplt := hH.lt_length_each
  have hlen0 : ∀ i ∈ items0, i.2.2.length ≤ xs.length := by
    intro i hi
    have : i.2.2 ∈ M1.map Prod.snd := by
      rw [← hi2]; exact List.mem_map_of_mem (fun i => i.2.2) hi
    obtain ⟨p, hp, hpe⟩ := List.mem_map.mp this
    rw [← hpe, (hent p hp).1]
    exact List.length_filter_le _ _
  -- stage B: `then_order_by`
  obtain ⟨yb, ye, gB, ysB, RY, RP, hsm, hY, hHB, hdB, -⟩ :=
    select_many_spec (π := List (Val α K)) (linq_collection.then_order_by_selector n k2)
      (fun g ys R p => Handles g ys R p 2) (fun _ => .nil 2)
      (fun _ _ _ _ _ hp hf => hp.frame_each hf)
      (fun _ _ _ _ _ _ _ hp1 hp2 hd => hp1.concat hp2 hd)
      (fun _ _ _ _ hp => hp.lt_length_each)
      4 4 g1 ⟨.any_iterator xb, .any_iterator xe⟩ Rs
      (items0.map fun i => (i.1, i.2.1, (i.2.2.foldl (group_by_step k2) []).map Prod.snd))
      (by simpa [List.map_map, Function.comp_def, hi1] using hX)
      (by
        intro item hi a ha
        obtain ⟨i, hi0, rfl⟩ := List.mem_map.mp hi
        exact hRplt a ((hi3 i hi0).1 a ha))
      (by
        intro item hi g hlen hag
        obtain ⟨i, hi0, rfl⟩ := List.mem_map.mp hi
        obtain ⟨_, b, e, hv, ho⟩ := hi3 i hi0
        have ho1 : Owns g (linq_collection.mk (.any_iterator b) (.any_iterator e))._begin
            (linq_collection.mk (.any_iterator b) (.any_iterator e))._end i.2.1 i.2.2 2 :=
          ho.frame hag
        obtain ⟨xb1, xe1, g2, ys1, Rs1, Rp1, hfo1, hl1, hfr1, hX1, hH1, hd1, hge1, -⟩ :=
          first_order_by_owned ho1 k2 n (by have := hlen0 i hi0; omega)
        refine ⟨⟨.any_iterator xb1, .any_iterator xe1⟩, g2, ys1, Rs1, Rp1, ?_, hl1, hfr1, hX1,
          hH1, hd1, fun a ha => Or.inr (hge1 a ha)⟩
        simp only [hv]
        exact hfo1)
      (by
        rw [List.pairwise_map]
        exact hi4)
      (by
        intro item hi
        obtain ⟨i, hi0, rfl⟩ := List.mem_map.mp hi
        exact Set.disjoint_left.mpr fun a ha hc =>
          Set.disjoint_left.mp hd ha ((hi3 i hi0).1 a hc))
      n (by
        have : items0.length = ys.length := by rw [← hi1]; simp
        simp only [List.length_map]
        omega)
  -- the list of the contents of the groups of the groups
  have hpay : ((items0.map fun i => (i.1, i.2.1,
      (i.2.2.foldl (group_by_step k2) []).map Prod.snd)).flatMap fun i => i.2.2)
      = M1.flatMap fun p => (p.2.foldl (group_by_step k2) []).map Prod.snd := by
    rw [List.flatMap_map]
    simp only
    rw [← List.flatMap_map (fun i => i.2.2)
      (fun vs => (List.foldl (group_by_step k2) [] vs).map Prod.snd) items0, hi2,
      List.flatMap_map]
  rw [hpay] at hHB
  have hcnt : ysB.length ≤ xs.length := by
    rw [hHB.length_eq, ← hperm.length_eq]
    refine length_flatMap_le _ _ _ fun p _ => ?_
    simp only [List.length_map]
    exact groups_length_le k2 p.2
  have hil : (items0.map fun i => (i.1, i.2.1,
      (i.2.2.foldl (group_by_step k2) []).map Prod.snd)).length ≤ xs.length := by
    have : items0.length = ys.length := by rw [← hi1]; simp
    simp only [List.length_map]
    omega
  -- stage C: `flatten`
  obtain ⟨zb, ze, gC, RZ, hfl, hZ⟩ :=
    select_many_identity (X := ⟨.any_iterator yb, .any_iterator ye⟩) hY hHB hdB n (by omega)
  rw [flatten_flatMap] at hZ
  simp only [← List.flatMap_def] at hZ
  obtain ⟨g4, ht, -, -⟩ := hZ.to_list_loop n (by
    have := hperm2.length_eq
    omega)
  unfold first_then_order_by linq_collection.then_order_by flatten
  rw [hfo]
  simp only [hsm, hfl, elements, linq_collection.to_list, ht]

/-! ## Claims on ordering -/

/-- C4: the pass over `order_by(keySelector)` of a container yields, for every fuel of
at least `3 * |xs| + 7`, a permutation of the input whose keys are non-decreasing and
in which the elements of every key keep their original order; it is the stable merge
sort of the input by key. -/
theorem order_by_stable_sort [LinearOrder K] (xs : List (Val α K))
    (keySelector : Val α K → K) (h : Heap α K) (m : Nat) :
    ∃ ys, elements (m + (3 * xs.length + 7))
        (linq_collection.order_by (m + (3 * xs.length + 7)) h («from» xs) keySelector) = .ok ys ∧
      ys.Perm xs ∧ ys.Pairwise (fun a b => keySelector a ≤ keySelector b) ∧
      (∀ key, ys.filter (fun x => decide (keySelector x = key))
        = xs.filter (fun x => decide (keySelector x = key))) ∧
      ys = xs.mergeSort (fun a b => decide (keySelector a ≤ keySelector b)) := by
  have hl := groups_length_le keySelector xs
  exact ⟨_, order_by_elements xs keySelector h _ (by omega), groups_stable_sort keySelector xs⟩

/-- C5: the pass over `flatten(first_order_by(k1).then_order_by(k2))` of a container
yields, for every fuel of at least `3 * |xs| + 8`, a permutation of the input sorted
by the pair `(k1 x, k2 x)` in lexicographic order in which the elements of every pair
of keys keep their original order; it is the stable merge sort of the input by that
order. -/
theorem then_order_by_lexicographic [LinearOrder K] (xs : List (Val α K))
    (k1 k2 : Val α K → K) (h : Heap α K) (m : Nat) :
    ∃ ys, elements (m + (3 * xs.length + 8))
        (first_then_order_by (m + (3 * xs.length + 8)) h xs k1 k2) = .ok ys ∧
      ys.Perm xs ∧
      ys.Pairwise (fun a b => k1 a < k1 b ∨ (k1 a = k1 b ∧ k2 a ≤ k2 b)) ∧
      (∀ a b, ys.filter (fun x => decide (k1 x = a ∧ k2 x = b))
        = xs.filter (fun x => decide (k1 x = a ∧ k2 x = b))) ∧
      ys = xs.mergeSort (fun a b => decide (k1 a < k1 b ∨ (k1 a = k1 b ∧ k2 a ≤ k2 b))) :=
  ⟨_, first_then_order_by_elements xs k1 k2 h _ (by omega), two_level_stable_sort k1 k2 xs⟩

/-! ## The multimaps and the merge loop of the full join -/

section multimap
variable [LinearOrder K] {β : Type}

end multimap

/-- The loop `check_move_iterator` over a container stops at the first position from
`j` on whose element is accepted, or at the end. -/
theorem check_move_iterator_container (xs : List (Val α K)) (f : Val α K → Bool)
    (h : Heap α K) :
    ∀ (r j n : Nat), r = xs.length - j → j ≤ xs.length → r + 3 ≤ n →
      ∃ j1, check_move_iterator n h (.container xs j) (.container xs xs.length) f
          = .ok (.container xs j1, h) ∧ j ≤ j1 ∧ j1 ≤ xs.length ∧
        (∀ hlt : j1 < xs.length, f xs[j1] = true) ∧
        (xs.drop j).filter f = (xs.drop j1).filter f := by
  intro r
  induction r with
  | zero =>
    intro j n hr hj hn
    obtain ⟨m, rfl⟩ : ∃ m, n = m + 3 := ⟨n - 3, by omega⟩
    have : j = xs.length := by omega
    subst this
    exact ⟨xs.length, by simp [check_move_iterator, Iter.ne, Iter.eq], le_refl _, le_refl _,
      fun hlt => absurd hlt (lt_irrefl _), rfl⟩
  | succ r ih =>
    intro j n hr hj hn
    obtain ⟨m, rfl⟩ : ∃ m, n = m + 4 := ⟨n - 4, by omega⟩
    have hlt : j < xs.length := by omega
    have hne : j ≠ xs.length := by omega
    by_cases hf : f xs[j] = true
    · refine ⟨j, ?_, le_refl _, hj, fun _ => hf, rfl⟩
      rw [check_move_iterator]
      simp [Iter.ne, Iter.eq, hne, Iter.deref, hlt, hf]
    · obtain ⟨j1, h1, h2, h3, h4, h5⟩ := ih (j + 1) (m + 3) (by omega) (by omega) (by omega)
      refine ⟨j1, ?_, by omega, h3, h4, ?_⟩
      · rw [check_move_iterator]
        simp [Iter.ne, Iter.eq, hne, Iter.deref, hlt, hf, Iter.advance, h1]
      · rw [← h5, List.drop_eq_getElem_cons hlt, List.filter_cons_of_neg hf]

/-- A pass over a `where_iterator` of a container that stands at an accepted position
`j`, or at the end. -/
theorem where_to_list (xs : List (Val α K)) (f : Val α K → Bool) (h : Heap α K) :
    ∀ (r j n : Nat), xs.length - j ≤ r → j ≤ xs.length →
      (∀ hlt : j < xs.length, f xs[j] = true) → r + 4 ≤ n →
      to_list_loop n h (.where_iterator (.container xs j) (.container xs xs.length) f)
        (.where_iterator (.container xs xs.length) (.container xs xs.length) f)
      = .ok ((xs.drop j).filter f, h) := by
  intro r
  induction r with
  | zero =>
    intro j n hr hj _ hn
    obtain ⟨m, rfl⟩ : ∃ m, n = m + 3 := ⟨n - 3, by omega⟩
    have : j = xs.length := by omega
    subst this
    simp [to_list_loop, Iter.ne, Iter.eq]
  | succ r ih =>
    intro j n hr hj hacc hn
    by_cases hje : j = xs.length
    · subst hje
      obtain ⟨m, rfl⟩ : ∃ m, n = m + 3 := ⟨n - 3, by omega⟩
      simp [to_list_loop, Iter.ne, Iter.eq]
    obtain ⟨m, rfl⟩ : ∃ m, n = m + 5 := ⟨n - 5, by omega⟩
    have hlt : j < xs.length := by omega
    obtain ⟨j1, h1, h2, h3, h4, h5⟩ := check_move_iterator_container xs f h
      (xs.length - (j + 1)) (j + 1) (m + 3) rfl (by omega) (by omega)
    rw [List.drop_eq_getElem_cons hlt, List.filter_cons_of_pos (hacc hlt), h5]
    refine to_list_loop_cons (b :=.where_iterator (.container xs j1)
      (.container xs xs.length) f) (g := h) ?_ ?_ ?_ ?_
    · simp [Iter.ne, Iter.eq, hje]
    · simp [Iter.deref, hlt]
    · simp [Iter.advance, hlt, h1]
    · exact ih j1 (m + 4) (by omega) h3 h4 (by omega)

/-- A pass over a cursor that owns no heap object leaves the heap as it was. -/
theorem Owns.to_list_loop_pure {xs : List (Val α K)} {h : Heap α K} {it e : Iter α K}
    {d : Nat} (ho : Owns h it e ∅ xs d) (n : Nat) (hn : d + xs.length + 1 ≤ n) :
    mqLinq.to_list_loop n h it e = .ok (xs, h) := by
  obtain ⟨h1, ht, hl, hf⟩ := ho.to_list_loop n hn
  have : h1 = h := List.ext_getElem? fun a => hf a (fun ha => ha)
  rw [ht, this]

/-- A pass over the concatenation of two containers. -/
theorem concat_container_to_list (h : Heap α K) (as bs : List (Val α K)) (k : Nat) :
    linq_collection.to_list (k + as.length + bs.length + 3) h
      ((«from» as).concat_impl («from» bs)) = .ok (as ++ bs, h) := by
  have ho : Owns h ((«from» as).concat_impl («from» bs))._begin
      ((«from» as).concat_impl («from» bs))._end (∅ ∪ ∅) (as ++ bs) 2 :=
    Owns.concat_iterator (from_container_owns h as) (from_container_owns h bs) (by simp)
  rw [Set.union_empty] at ho
  exact ho.to_list_loop_pure _ (by simp; omega)

/-! ## Claims on the filter, the map and the concatenation -/

/-- C11: `where(func)` of a container yields the elements that `func` accepts, each
occurrence once and in the original order (`List.filter`), for every fuel of at least
`|xs| + 4`, leaving the heap as it was. -/
theorem where_filters_in_order (xs : List (Val α K)) (func : Val α K → Bool) (h : Heap α K)
    (m : Nat) :
    ∃ s, linq_collection.«where» (m + xs.length + 4) h («from» xs) func = .ok (s, h) ∧
      s.to_list (m + xs.length + 4) h = .ok (xs.filter func, h) := by
  obtain ⟨j1, hb, -, hj1, hacc, hd⟩ := check_move_iterator_container xs func h (xs.length - 0) 0
    (m + xs.length + 4) rfl (by omega) (by omega)
  have he : check_move_iterator (m + xs.length + 4) h (.container xs xs.length)
      (.container xs xs.length) func = .ok (.container xs xs.length, h) := by
    rw [check_move_iterator]
    simp [Iter.ne, Iter.eq]
  refine ⟨⟨.where_iterator (.container xs j1) (.container xs xs.length) func,
    .where_iterator (.container xs xs.length) (.container xs xs.length) func⟩, ?_, ?_⟩
  · simp [linq_collection.«where», mk_where_iterator, «from», hb, he]
  · unfold linq_collection.to_list
    simp only
    rw [where_to_list xs func h (xs.length - j1) j1 _ (le_refl _) hj1 hacc (by omega), ← hd]
    simp

/-- C12: `select(func)` of a container yields `func` of every element in order
(`List.map`) and counts as many elements as the container, for every fuel of at least
`|xs| + 3`, leaving the heap as it was. -/
theorem select_maps_in_order (xs : List (Val α K)) (func : Val α K → Val α K) (h : Heap α K)
    (m : Nat) :
    linq_collection.to_list (m + xs.length + 3) h ((«from» xs).select func)
        = .ok (xs.map func, h) ∧
      linq_collection.count (m + xs.length + 3) h ((«from» xs).select func)
        = .ok (xs.length, h) ∧
      linq_collection.count (m + xs.length + 3) h («from» xs) = .ok (xs.length, h) := by
  have ho : Owns h ((«from» xs).select func)._begin ((«from» xs).select func)._end ∅
      (xs.map func) 2 := Owns.select_iterator func (from_container_owns h xs)
  have ht : linq_collection.to_list (m + xs.length + 3) h ((«from» xs).select func)
      = .ok (xs.map func, h) := ho.to_list_loop_pure _ (by simp; omega)
  have hx : linq_collection.to_list (m + xs.length + 3) h («from» xs) = .ok (xs, h) := by
    have := from_to_list xs h (m + 1)
    rwa [show m + 1 + xs.length + 2 = m + xs.length + 3 by omega] at this
  refine ⟨ht, ?_, count_eq_length hx⟩
  have := count_eq_length ht
  simpa using this

/-- The method `concat` of two containers yields the elements of the first in order, then
those of the second, and its count is the sum of the two counts, for every fuel of at
least `|xs| + |ys| + 3`, leaving the heap as it was; with an empty container on either
side the result is the other one. -/
theorem concat_appends (xs ys : List (Val α K)) (h : Heap α K) (m : Nat) :
    linq_collection.to_list (m + xs.length + ys.length + 3) h
        ((«from» xs).concat_impl («from» ys)) = .ok (xs ++ ys, h) ∧
      linq_collection.count (m + xs.length + ys.length + 3) h
        ((«from» xs).concat_impl («from» ys)) = .ok (xs.length + ys.length, h) ∧
      linq_collection.count (m + xs.length + ys.length + 3) h («from» xs)
        = .ok (xs.length, h) ∧
      linq_collection.count (m + xs.length + ys.length + 3) h («from» ys)
        = .ok (ys.length, h) ∧
      linq_collection.to_list (m + xs.length + 3) h
        ((«from» xs).concat_impl («from» ([] : List (Val α K)))) = .ok (xs, h) ∧
      linq_collection.to_list (m + ys.length + 3) h
        ((«from» ([] : List (Val α K))).concat_impl («from» ys)) = .ok (ys, h) := by
  have key := concat_container_to_list h
  have ht := key xs ys m
  have hx : linq_collection.to_list (m + xs.length + ys.length + 3) h («from» xs)
      = .ok (xs, h) := by
    have := from_to_list xs h (m + ys.length + 1)
    rwa [show m + ys.length + 1 + xs.length + 2 = m + xs.length + ys.length + 3 by omega]
      at this
  have hy : linq_collection.to_list (m + xs.length + ys.length + 3) h («from» ys)
      = .ok (ys, h) := by
    have := from_to_list ys h (m + xs.length + 1)
    rwa [show m + xs.length + 1 + ys.length + 2 = m + xs.length + ys.length + 3 by omega]
      at this
  refine ⟨ht, ?_, count_eq_length hx, count_eq_length hy, ?_, ?_⟩
  · have := count_eq_length ht
    simpa using this
  · have := key xs [] m
    simpa using this
  · have := key [] ys m
    simpa using this

/-! ## The ordered set -/

section ordered_set
variable {β : Type} [LinearOrder β]

theorem mem_set_insert (x y : β) : ∀ s : List β, y ∈ (set_insert s x).1 ↔ y = x ∨ y ∈ s
  | [] => by simp [set_insert]
  | z :: s => by
    rw [set_insert]
    split
    · simp
    · split
      · simp only [List.mem_cons, mem_set_insert x y s]
        tauto
      · have : x = z := le_antisymm (not_lt.mp ‹_›) (not_lt.mp ‹_›)
        subst this
        simp

theorem set_insert_sorted (x : β) :
    ∀ s : List β, s.Pairwise (· < ·) → (set_insert s x).1.Pairwise (· < ·)
  | [], _ => by simp [set_insert]
  | z :: s, hs => by
    rw [set_insert]
    split
    · rename_i hxz
      refine List.Pairwise.cons ?_ hs
      intro a ha
      rcases List.mem_cons.mp ha with rfl | ha
      · exact hxz
      · exact lt_trans hxz (List.rel_of_pairwise_cons hs ha)
    · split
      · rename_i hzx
        refine List.Pairwise.cons ?_ (set_insert_sorted x s hs.of_cons)
        intro a ha
        rcases (mem_set_insert x a s).mp ha with rfl | ha
        · exact hzx
        · exact List.rel_of_pairwise_cons hs ha
      · exact hs

theorem set_insert_snd (x : β) :
    ∀ s : List β, s.Pairwise (· < ·) → ((set_insert s x).2 = true ↔ x ∉ s)
  | [], _ => by simp [set_insert]
  | z :: s, hs => by
    rw [set_insert]
    split
    · rename_i hxz
      simp only [true_iff, List.mem_cons, not_or]
      refine ⟨ne_of_lt hxz, fun hx => ?_⟩
      exact lt_asymm hxz (List.rel_of_pairwise_cons hs hx)
    · split
      · rename_i hzx
        rw [set_insert_snd x s hs.of_cons]
        simp only [List.mem_cons, not_or]
        exact ⟨fun hx => ⟨ne_of_gt hzx, hx⟩, fun hx => hx.2⟩
      · have : x = z := le_antisymm (not_lt.mp ‹_›) (not_lt.mp ‹_›)
        subst this
        simp

/-- The set built by inserting the elements of `ts` one after the other. -/
theorem set_of_foldl (ts : List β) :
    ∀ s : List β, s.Pairwise (· < ·) →
      (ts.foldl (fun s v => (set_insert s v).1) s).Pairwise (· < ·) ∧
      ∀ y, y ∈ ts.foldl (fun s v => (set_insert s v).1) s ↔ y ∈ s ∨ y ∈ ts := by
  induction ts with
  | nil => intro s hs; simp [hs]
  | cons t ts ih =>
    intro s hs
    obtain ⟨h1, h2⟩ := ih _ (set_insert_sorted t s hs)
    refine ⟨h1, fun y => ?_⟩
    rw [List.foldl_cons, h2, mem_set_insert, List.mem_cons]
    tauto

/-- The vector that the loop of `distinct` and `except_with_impl` fills: the values of
`xs` that are not in the set at the start, each once, by first occurrence. -/
theorem insert_step_foldl (xs : List β) :
    ∀ (s v : List β), s.Pairwise (· < ·) →
      ∃ w, (xs.foldl insert_step (s, v)).2 = v ++ w ∧ w.Nodup ∧
        (∀ y, y ∈ w ↔ y ∈ xs ∧ y ∉ s) ∧ w.Sublist xs ∧
        w.Pairwise (fun a b => xs.indexOf a < xs.indexOf b) := by
  induction xs with
  | nil => intro s v _; exact ⟨[], by simp⟩
  | cons x xs ih =>
    intro s v hs
    obtain ⟨w, h1, h2, h3, h4, h5⟩ := ih (set_insert s x).1
      (if (set_insert s x).2 then v ++ [x] else v) (set_insert_sorted x s hs)
    have hshift : w.Pairwise (fun a b => (x :: xs).indexOf a < (x :: xs).indexOf b) := by
      refine h5.imp_of_mem ?_
      intro a b ha hb hab
      have hax : x ≠ a := fun e => ((h3 a).mp ha).2 ((mem_set_insert x a s).mpr (Or.inl e.symm))
      have hbx : x ≠ b := fun e => ((h3 b).mp hb).2 ((mem_set_insert x b s).mpr (Or.inl e.symm))
      rw [List.indexOf_cons_ne _ hax, List.indexOf_cons_ne _ hbx]
      exact Nat.succ_lt_succ hab
    have hw : ∀ y, y ∈ w ↔ y ∈ xs ∧ y ≠ x ∧ y ∉ s := by
      intro y
      rw [h3, mem_set_insert]
      tauto
    rw [List.foldl_cons, show insert_step (s, v) x
      = ((set_insert s x).1, if (set_insert s x).2 then v ++ [x] else v) from rfl]
    by_cases hx : x ∈ s
    · have hf : (set_insert s x).2 = false := by
        rw [← Bool.not_eq_true, set_insert_snd x s hs]
        exact fun hn => hn hx
      rw [hf] at h1
      simp only [hf, Bool.false_eq_true, if_false] at h1 ⊢
      refine ⟨w, h1, h2, fun y => ?_, h4.cons x, hshift⟩
      rw [hw, List.mem_cons]
      constructor
      · rintro ⟨a, -, c⟩
        exact ⟨Or.inr a, c⟩
      · rintro ⟨a | a, c⟩
        · subst a; exact absurd hx c
        · exact ⟨a, fun e => c (e ▸ hx), c⟩
    · have ht : (set_insert s x).2 = true := (set_insert_snd x s hs).mpr hx
      simp only [ht, if_true] at h1 ⊢
      refine ⟨x :: w, by rw [h1]; simp, List.nodup_cons.mpr ⟨fun hm => ((hw x).mp hm).2.1 rfl, h2⟩,
        fun y => ?_, h4.cons₂ x, List.Pairwise.cons ?_ hshift⟩
      · rw [List.mem_cons, hw, List.mem_cons]
        constructor
        · rintro (a | ⟨a, -, c⟩)
          · subst a; exact ⟨Or.inl rfl, hx⟩
          · exact ⟨Or.inr a, c⟩
        · rintro ⟨a | a, c⟩
          · exact Or.inl a
          · by_cases e : y = x
            · exact Or.inl e
            · exact Or.inr ⟨a, e, c⟩
      · intro b hb
        have hbx : x ≠ b := fun e => ((hw b).mp hb).2.1 e.symm
        rw [List.indexOf_cons_self, List.indexOf_cons_ne _ hbx]
        exact Nat.succ_pos _

/-- On a list without duplicates and with no value in the set, the loop keeps
every element. -/
theorem insert_step_foldl_nodup (xs : List β) :
    ∀ (s v : List β), s.Pairwise (· < ·) → xs.Nodup → (∀ y ∈ xs, y ∉ s) →
      (xs.foldl insert_step (s, v)).2 = v ++ xs := by
  induction xs with
  | nil => intro s v _ _ _; simp
  | cons x xs ih =>
    intro s v hs hn hd
    have ht : (set_insert s x).2 = true :=
      (set_insert_snd x s hs).mpr (hd x (List.mem_cons_self _ _))
    rw [List.foldl_cons, show insert_step (s, v) x
      = ((set_insert s x).1, if (set_insert s x).2 then v ++ [x] else v) from rfl]
    simp only [ht, if_true]
    rw [ih _ _ (set_insert_sorted x s hs) (List.nodup_cons.mp hn).2]
    · simp
    · intro y hy hm
      rcases (mem_set_insert x y s).mp hm with e | e
      · subst e; exact (List.nodup_cons.mp hn).1 hy
      · exact hd y (List.mem_cons_of_mem _ hy) e

/-- The vector that the loop of `intersect_with_impl` fills: the values of `xs` that
are in the second set and not in the first at the start, each once, by first
occurrence. -/
theorem intersect_step_foldl (xs : List β) :
    ∀ (s1 s2 v : List β), s1.Pairwise (· < ·) → s2.Pairwise (· < ·) →
      ∃ w, (xs.foldl intersect_step (s1, s2, v)).2.2 = v ++ w ∧ w.Nodup ∧
        (∀ y, y ∈ w ↔ y ∈ xs ∧ y ∉ s1 ∧ y ∈ s2) ∧ w.Sublist xs ∧
        w.Pairwise (fun a b => xs.indexOf a < xs.indexOf b) := by
  induction xs with
  | nil => intro s1 s2 v _ _; exact ⟨[], by simp⟩
  | cons x xs ih =>
    intro s1 s2 v hs1 hs2
    have hshift : ∀ (w : List β), (∀ y ∈ w, y ≠ x) →
        w.Pairwise (fun a b => xs.indexOf a < xs.indexOf b) →
        w.Pairwise (fun a b => (x :: xs).indexOf a < (x :: xs).indexOf b) := by
      intro w hne h5
      refine h5.imp_of_mem ?_
      intro a b ha hb hab
      rw [List.indexOf_cons_ne _ (hne a ha).symm, List.indexOf_cons_ne _ (hne b hb).symm]
      exact Nat.succ_lt_succ hab
    rw [List.foldl_cons, show intersect_step (s1, s2, v) x
      = if (set_insert s1 x).2 then
          ((set_insert s1 x).1, (set_insert s2 x).1,
            if !(set_insert s2 x).2 then v ++ [x] else v)
        else ((set_insert s1 x).1, s2, v) from rfl]
    by_cases hx1 : x ∈ s1
    · have hf : (set_insert s1 x).2 = false := by
        rw [← Bool.not_eq_true, set_insert_snd x s1 hs1]
        exact fun hn => hn hx1
      simp only [hf, Bool.false_eq_true, if_false]
      obtain ⟨w, h1, h2, h3, h4, h5⟩ := ih (set_insert s1 x).1 s2 v
        (set_insert_sorted x s1 hs1) hs2
      have hw : ∀ y, y ∈ w ↔ y ∈ xs ∧ (y ≠ x ∧ y ∉ s1) ∧ y ∈ s2 := by
        intro y
        rw [h3, mem_set_insert]
        tauto
      refine ⟨w, h1, h2, fun y => ?_, h4.cons x,
        hshift w (fun y hy => ((hw y).mp hy).2.1.1) h5⟩
      rw [hw, List.mem_cons]
      constructor
      · rintro ⟨a, ⟨-, b⟩, c⟩
        exact ⟨Or.inr a, b, c⟩
      · rintro ⟨a | a, b, c⟩
        · subst a; exact absurd hx1 b
        · exact ⟨a, ⟨fun e => b (e ▸ hx1), b⟩, c⟩
    · have ht : (set_insert s1 x).2 = true := (set_insert_snd x s1 hs1).mpr hx1
      simp only [ht, if_true]
      obtain ⟨w, h1, h2, h3, h4, h5⟩ := ih (set_insert s1 x).1 (set_insert s2 x).1
        (if (!(set_insert s2 x).2) = true then v ++ [x] else v)
        (set_insert_sorted x s1 hs1) (set_insert_sorted x s2 hs2)
      have hw : ∀ y, y ∈ w ↔ y ∈ xs ∧ (y ≠ x ∧ y ∉ s1) ∧ y ∈ s2 := by
        intro y
        rw [h3, mem_set_insert, mem_set_insert]
        tauto
      by_cases hx2 : x ∈ s2
      · have hf2 : (set_insert s2 x).2 = false := by
          rw [← Bool.not_eq_true, set_insert_snd x s2 hs2]
          exact fun hn => hn hx2
        simp only [hf2, Bool.not_false, if_true] at h1 ⊢
        refine ⟨x :: w, by rw [h1]; simp,
          List.nodup_cons.mpr ⟨fun hm => ((hw x).mp hm).2.1.1 rfl, h2⟩,
          fun y => ?_, h4.cons₂ x,
          List.Pairwise.cons ?_ (hshift w (fun y hy => ((hw y).mp hy).2.1.1) h5)⟩
        · rw [List.mem_cons, hw, List.mem_cons]
          constructor
          · rintro (a | ⟨a, ⟨-, b⟩, c⟩)
            · subst a; exact ⟨Or.inl rfl, hx1, hx2⟩
            · exact ⟨Or.inr a, b, c⟩
          · rintro ⟨a | a, b, c⟩
            · exact Or.inl a
            · by_cases e : y = x
              · exact Or.inl e
              · exact Or.inr ⟨a, ⟨e, b⟩, c⟩
        · intro b hb
          have hbx : x ≠ b := fun e => ((hw b).mp hb).2.1.1 e.symm
          rw [List.indexOf_cons_self, List.indexOf_cons_ne _ hbx]
          exact Nat.succ_pos _
      · have ht2 : (set_insert s2 x).2 = true := (set_insert_snd x s2 hs2).mpr hx2
        simp only [ht2, Bool.not_true, Bool.false_eq_true, if_false] at h1 ⊢
        refine ⟨w, h1, h2, fun y => ?_, h4.cons x,
          hshift w (fun y hy => ((hw y).mp hy).2.1.1) h5⟩
        rw [hw, List.mem_cons]
        constructor
        · rintro ⟨a, ⟨-, b⟩, c⟩
          exact ⟨Or.inr a, b, c⟩
        · rintro ⟨a | a, b, c⟩
          · subst a; exact absurd c hx2
          · exact ⟨a, ⟨fun e => hx2 (e ▸ c), b⟩, c⟩

end ordered_set

/-! ## The set operations over containers -/

/-- The loop `std::for_each` over a container. -/
theorem for_each_container {σ : Type} (fn : σ → Val α K → σ) (xs : List (Val α K))
    (h : Heap α K) (s : σ) (n : Nat) (hn : xs.length + 2 ≤ n) :
    for_each n h («from» xs)._begin («from» xs)._end fn s = .ok (xs.foldl fn s, h) := by
  obtain ⟨m, rfl⟩ : ∃ m, n = m + xs.length + 2 := ⟨n - xs.length - 2, by omega⟩
  have := from_to_list xs h m
  unfold linq_collection.to_list at this
  rw [for_each_eq_foldl, this]

/-- A pass over the handle that `from_values` returns. -/
theorem elements_from_values (h : Heap α K) (v : List (Val α K)) (n : Nat)
    (hn : v.length + 3 ≤ n) :
    elements n (.ok (from_values h v)) = .ok v := by
  obtain ⟨h1, ht, -, -⟩ := (from_values_owns h v 0).to_list_loop n (by omega)
  unfold elements
  simp only [linq_collection.to_list, from_values_fst]
  rw [ht]

/-- The loop `std::for_each` over the handle that `from_values` returns. -/
theorem for_each_from_values {σ : Type} (fn : σ → Val α K → σ) (h : Heap α K)
    (v : List (Val α K)) (s : σ) (n : Nat) (hn : v.length + 3 ≤ n) :
    ∃ h1, for_each n (from_values h v).2 (from_values h v).1._begin (from_values h v).1._end
      fn s = .ok (v.foldl fn s, h1) := by
  obtain ⟨h1, ht, -, -⟩ := (from_values_owns h v 0).to_list_loop n (by omega)
  refine ⟨h1, ?_⟩
  rw [for_each_eq_foldl]
  simp only [from_values_fst]
  rw [ht]

/-- The set operations on the inputs `{1, 1, 2, 2, 3, 3}` and `{2, 2, 3, 3, 4, 4}` of the
test harness. -/
theorem set_examples :
    elements 20 (linq_collection.distinct 20 [] («from» (ints [1, 1, 2, 2, 3, 3])))
      = .ok (ints [1, 2, 3]) ∧
    elements 20 (linq_collection.except_with_impl 20 [] («from» (ints [1, 1, 2, 2, 3, 3]))
      («from» (ints [2, 2, 3, 3, 4, 4]))) = .ok (ints [1]) ∧
    elements 20 (linq_collection.intersect_with_impl 20 [] («from» (ints [1, 1, 2, 2, 3, 3]))
      («from» (ints [2, 2, 3, 3, 4, 4]))) = .ok (ints [2, 3]) ∧
    elements 20 (linq_collection.union_with_impl 20 [] («from» (ints [1, 1, 2, 2, 3, 3]))
      («from» (ints [2, 2, 3, 3, 4, 4]))) = .ok (ints [1, 2, 3, 4]) := by
  refine ⟨?_, ?_, ?_, ?_⟩ <;> rfl

/-! ## Claims on the set operations -/

/-- C14: the pass over `distinct()` of a container yields, for every fuel of at least
`|xs| + 3`, every value of the container exactly once, in the order of the first
occurrences: the result has no duplicates, has the same members as `xs`, is a
subsequence of `xs`, and lists its values by ascending index of first occurrence. -/
theorem distinct_first_occurrences [LinearOrder (Val α K)] (xs : List (Val α K))
    (h : Heap α K) (m : Nat) :
    ∃ ys, elements (m + xs.length + 3)
        (linq_collection.distinct (m + xs.length + 3) h («from» xs)) = .ok ys ∧
      ys.Nodup ∧ (∀ v, v ∈ ys ↔ v ∈ xs) ∧ ys.Sublist xs ∧
      ys.Pairwise (fun a b => xs.indexOf a < xs.indexOf b) := by
  obtain ⟨w, h1, h2, h3, h4, h5⟩ := insert_step_foldl xs [] [] List.Pairwise.nil
  refine ⟨w, ?_, h2, fun v => by simp [h3], h4, h5⟩
  unfold linq_collection.distinct
  rw [for_each_container _ xs h _ _ (by omega)]
  simp only [h1, List.nil_append]
  exact elements_from_values h w _ (by have := h4.length_le; omega)

/-- For every fuel of at least `|xs| + 3`, the pass over `distinct().distinct()` of
a container yields the same sequence as the pass over `distinct()`. -/
theorem distinct_idempotent [LinearOrder (Val α K)] (xs : List (Val α K))
    (h : Heap α K) (m : Nat) :
    ∃ ys, elements (m + xs.length + 3)
        (linq_collection.distinct (m + xs.length + 3) h («from» xs)) = .ok ys ∧
      elements (m + xs.length + 3)
        (distinct_distinct (m + xs.length + 3) h («from» xs)) = .ok ys := by
  obtain ⟨w, h1, h2, h3, h4, h5⟩ := insert_step_foldl xs [] [] List.Pairwise.nil
  have hl := h4.length_le
  have hd : linq_collection.distinct (m + xs.length + 3) h («from» xs)
      = .ok (from_values h w) := by
    unfold linq_collection.distinct
    rw [for_each_container _ xs h _ _ (by omega)]
    simp only [h1, List.nil_append]
  refine ⟨w, ?_, ?_⟩
  · rw [hd]
    exact elements_from_values h w _ (by omega)
  · unfold distinct_distinct
    rw [hd]
    simp only
    obtain ⟨g, hg⟩ := for_each_from_values insert_step h w ([], [])
      (m + xs.length + 3) (by omega)
    unfold linq_collection.distinct
    rw [hg]
    simp only
    rw [insert_step_foldl_nodup w [] [] List.Pairwise.nil h2 (by simp)]
    exact elements_from_values g w _ (by omega)

/-- The pass over `intersect_with` of two containers yields, for every fuel of at
least `|xs| + |ts| + 3`, the values of `xs` that also occur in `ts`, each once, in the
order of the first occurrences in `xs`. -/
theorem intersect_with_first_occurrences [LinearOrder (Val α K)] (xs ts : List (Val α K))
    (h : Heap α K) (m : Nat) :
    ∃ ys, elements (m + xs.length + ts.length + 3)
        (linq_collection.intersect_with_impl (m + xs.length + ts.length + 3) h
          («from» xs) («from» ts)) = .ok ys ∧
      ys.Nodup ∧ (∀ v, v ∈ ys ↔ v ∈ xs ∧ v ∈ ts) ∧ ys.Sublist xs ∧
      ys.Pairwise (fun a b => xs.indexOf a < xs.indexOf b) := by
  obtain ⟨hs1, hs2⟩ := set_of_foldl ts [] List.Pairwise.nil
  obtain ⟨w, h1, h2, h3, h4, h5⟩ := intersect_step_foldl xs [] _ [] List.Pairwise.nil hs1
  refine ⟨w, ?_, h2, fun v => by simp [h3, hs2], h4, h5⟩
  unfold linq_collection.intersect_with_impl set_of_range
  rw [for_each_container _ ts h _ _ (by omega)]
  simp only
  rw [for_each_container _ xs h _ _ (by omega)]
  simp only [h1, List.nil_append]
  exact elements_from_values h w _ (by have := h4.length_le; omega)

/-- For every fuel of at least `|xs| + |ts| + 3`, the pass over `union_with` of two
containers yields the same sequence as the pass over `concat(...).distinct()`: every
value of `xs` or `ts` exactly once, in the order of the first occurrences in `xs`
followed by `ts`. -/
theorem union_with_concat_distinct [LinearOrder (Val α K)] (xs ts : List (Val α K))
    (h : Heap α K) (m : Nat) :
    ∃ ys, elements (m + xs.length + ts.length + 3)
        (linq_collection.union_with_impl (m + xs.length + ts.length + 3) h
          («from» xs) («from» ts)) = .ok ys ∧
      elements (m + xs.length + ts.length + 3)
        (linq_collection.distinct (m + xs.length + ts.length + 3) h
          ((«from» xs).concat_impl («from» ts))) = .ok ys ∧
      ys.Nodup ∧ (∀ v, v ∈ ys ↔ v ∈ xs ∨ v ∈ ts) ∧ ys.Sublist (xs ++ ts) ∧
      ys.Pairwise (fun a b => (xs ++ ts).indexOf a < (xs ++ ts).indexOf b) := by
  obtain ⟨w, h1, h2, h3, h4, h5⟩ := insert_step_foldl (xs ++ ts) [] [] List.Pairwise.nil
  have hl := h4.length_le
  rw [List.length_append] at hl
  have key : elements (m + xs.length + ts.length + 3)
      (linq_collection.distinct (m + xs.length + ts.length + 3) h
        ((«from» xs).concat_impl («from» ts))) = .ok w := by
    have ht := concat_container_to_list h xs ts m
    unfold linq_collection.to_list at ht
    unfold linq_collection.distinct
    rw [for_each_eq_foldl, ht]
    simp only [h1, List.nil_append]
    exact elements_from_values h w _ (by omega)
  exact ⟨w, key, key, h2, fun v => by simp [h3], h4, h5⟩

/-! ## Cursor classes -/

theorem Iter.same_type_refl : ∀ a : Iter α K, a.same_type a = true := by
  intro a
  induction a <;> simp_all [Iter.same_type]

theorem Iter.same_type_symm : ∀ a b : Iter α K, a.same_type b = b.same_type a := by
  intro a
  induction a <;> intro b <;> cases b <;> first
    | rfl
    | (simp only [Iter.same_type]; simp_all)

theorem Iter.same_type_trans : ∀ a b c : Iter α K, a.same_type b = true →
    a.same_type c = b.same_type c := by
  intro a
  induction a <;> intro b c hab <;> cases b <;> first
    | (exact absurd hab Bool.false_ne_true)
    | (cases c <;> first
        | rfl
        | (simp only [Iter.same_type] at hab ⊢; apply_assumption; assumption)
        | (simp only [Iter.same_type, Bool.and_eq_true] at hab ⊢
           obtain ⟨h1, h2⟩ := hab
           congr 1 <;> (apply_assumption; assumption)))

/-! ## Cursors in a longer heap -/

/-- The result of `operator==` stays the same when objects are added to the heap. -/
theorem Iter.eq_append (t : Heap α K) : ∀ (n : Nat) (h : Heap α K) (a b : Iter α K) (r : Bool),
    Iter.eq n h a b = .ok r → Iter.eq n (h ++ t) a b = .ok r := by
  intro n
  induction n with
  | zero => intro h a b r hr; cases hr
  | succ n ih =>
    intro h a b r hr
    cases a <;> cases b <;> first
      | exact hr
      | exact ih _ _ _ _ hr
      | skip
    · rename_i a1 e1 a2 e2 b1 f1 b2 f2
      simp only [Iter.eq] at hr ⊢
      cases h1 : Iter.eq n h a1 b1 with
      | error err => rw [h1] at hr; cases hr
      | ok r1 =>
        rw [h1] at hr
        rw [ih _ _ _ _ h1]
        cases r1
        · exact hr
        · exact ih _ _ _ _ hr
    · rename_i a1 e1 a2 e2 b1 f1 b2 f2
      simp only [Iter.eq] at hr ⊢
      cases h1 : Iter.eq n h a1 b1 with
      | error err => rw [h1] at hr; cases hr
      | ok r1 =>
        rw [h1] at hr
        rw [ih _ _ _ _ h1]
        cases r1
        · exact hr
        · exact ih _ _ _ _ hr
    · rename_i p q
      simp only [Iter.eq] at hr ⊢
      cases hp : h[p]? with
      | none => rw [hp] at hr; cases hr
      | some a1 =>
        cases hq : h[q]? with
        | none => rw [hp, hq] at hr; cases hr
        | some b1 =>
          rw [hp, hq] at hr
          have hpl := (List.getElem?_eq_some_iff.mp hp).1
          have hql := (List.getElem?_eq_some_iff.mp hq).1
          rw [getElem?_append_of_lt hpl, getElem?_append_of_lt hql, hp, hq]
          simp only at hr ⊢
          split at hr
          · rename_i hs
            rw [if_pos hs]
            exact ih _ _ _ _ hr
          · rename_i hs
            rw [if_neg hs]
            exact hr

theorem Iter.ne_append (t : Heap α K) (n : Nat) (h : Heap α K) (a b : Iter α K) (r : Bool)
    (hr : Iter.ne n h a b = .ok r) : Iter.ne n (h ++ t) a b = .ok r := by
  unfold Iter.ne at hr ⊢
  cases h1 : Iter.eq n h a b with
  | error err => rw [h1] at hr; cases hr
  | ok r1 =>
    rw [h1] at hr
    rw [Iter.eq_append t n h a b r1 h1]
    exact hr

/-- The result of `operator*` stays the same when objects are added to the heap. -/
theorem Iter.deref_append (t : Heap α K) : ∀ (n : Nat) (h : Heap α K) (a : Iter α K)
    (v : Val α K), Iter.deref n h a = .ok v → Iter.deref n (h ++ t) a = .ok v := by
  intro n
  induction n with
  | zero => intro h a v hr; cases hr
  | succ n ih =>
    intro h a v hr
    cases a <;> first
      | exact hr
      | exact ih _ _ _ hr
      | skip
    · rename_i a f
      simp only [Iter.deref] at hr ⊢
      cases h1 : Iter.deref n h a with
      | error err => rw [h1] at hr; cases hr
      | ok v1 =>
        rw [h1] at hr
        rw [ih _ _ _ h1]
        exact hr
    · rename_i i1 e1 i2 e2
      simp only [Iter.deref] at hr ⊢
      cases h1 : Iter.ne n h i1 e1 with
      | error err => rw [h1] at hr; cases hr
      | ok r1 =>
        rw [h1] at hr
        rw [Iter.ne_append t n h i1 e1 r1 h1]
        cases r1
        · exact ih _ _ _ hr
        · exact ih _ _ _ hr
    · rename_i i1 e1 i2 e2
      simp only [Iter.deref] at hr ⊢
      cases h1 : Iter.deref n h i1 with
      | error err => rw [h1] at hr; cases hr
      | ok v1 =>
        rw [h1] at hr
        rw [ih _ _ _ h1]
        cases h2 : Iter.deref n h i2 with
        | error err => rw [h2] at hr; cases hr
        | ok v2 =>
          rw [h2] at hr
          rw [ih _ _ _ h2]
          exact hr
    · rename_i p
      simp only [Iter.deref] at hr ⊢
      cases hp : h[p]? with
      | none => rw [hp] at hr; cases hr
      | some a1 =>
        rw [hp] at hr
        have hpl := (List.getElem?_eq_some_iff.mp hp).1
        rw [getElem?_append_of_lt hpl, hp]
        exact ih _ _ _ hr

/-- The calls `operator++` and `check_move_iterator` keep the length of the heap and
the class of the cursor, and run in the same way when objects are added to the heap. -/
theorem Iter.advance_append (t : Heap α K) : ∀ n : Nat,
    (∀ (h : Heap α K) (it it1 : Iter α K) (h1 : Heap α K),
      Iter.advance n h it = .ok (it1, h1) →
        h1.length = h.length ∧ Iter.advance n (h ++ t) it = .ok (it1, h1 ++ t) ∧
        (it.well_typed = true → it1.well_typed = true ∧ it1.same_type it = true)) ∧
    (∀ (h : Heap α K) (it e : Iter α K) (f : Val α K → Bool) (it1 : Iter α K) (h1 : Heap α K),
      check_move_iterator n h it e f = .ok (it1, h1) →
        h1.length = h.length ∧ check_move_iterator n (h ++ t) it e f = .ok (it1, h1 ++ t) ∧
        (it.well_typed = true → it1.well_typed = true ∧ it1.same_type it = true)) := by
  intro n
  induction n with
  | zero =>
    exact ⟨fun h it it1 h1 hr => (by cases hr), fun h it e f it1 h1 hr => (by cases hr)⟩
  | succ n ih =>
    obtain ⟨iha, ihc⟩ := ih
    -- one upstream cursor, advanced and stored back
    have single : ∀ (h : Heap α K) (a it1 : Iter α K) (h1 : Heap α K)
        (mk : Iter α K → Iter α K),
        (match Iter.advance n h a with
          | .ok (a1, g) => Except.ok (mk a1, g)
          | .error err => .error err) = .ok (it1, h1) →
        ∃ a1, it1 = mk a1 ∧ Iter.advance n h a = .ok (a1, h1) ∧ h1.length = h.length ∧
          (match Iter.advance n (h ++ t) a with
            | .ok (a1, g) => Except.ok (mk a1, g)
            | .error err => .error err) = .ok (it1, h1 ++ t) ∧
          (a.well_typed = true → a1.well_typed = true ∧ a1.same_type a = true) := by
      intro h a it1 h1 mk hr
      cases hq : Iter.advance n h a with
      | error err => rw [hq] at hr; cases hr
      | ok p1 =>
        obtain ⟨a1, g⟩ := p1
        rw [hq] at hr
        cases hr
        obtain ⟨hl, he, hw⟩ := iha _ _ _ _ hq
        exact ⟨a1, rfl, rfl, hl, by rw [he], hw⟩
    refine ⟨?_, ?_⟩
    · intro h it it1 h1 hr
      cases it with
      | container xs p =>
        simp only [Iter.advance] at hr ⊢
        split at hr
        · rename_i hp
          cases hr
          exact ⟨rfl, by rw [if_pos hp], fun _ => ⟨rfl, rfl⟩⟩
        · cases hr
      | empty_iterator =>
        simp only [Iter.advance] at hr ⊢
        cases hr
        exact ⟨rfl, rfl, fun _ => ⟨rfl, rfl⟩⟩
      | select_iterator a f =>
        simp only [Iter.advance] at hr ⊢
        obtain ⟨a1, rfl, -, hl, he, hw⟩ := single h a it1 h1 (fun x => .select_iterator x f) hr
        exact ⟨hl, he, hw⟩
      | skip_iterator a e =>
        simp only [Iter.advance] at hr ⊢
        obtain ⟨a1, rfl, -, hl, he, hw⟩ := single h a it1 h1 (fun x => .skip_iterator x e) hr
        refine ⟨hl, he, fun hwt => ?_⟩
        simp only [Iter.well_typed, Bool.and_eq_true, Iter.same_type] at hwt ⊢
        obtain ⟨h1w, h1s⟩ := hw hwt.1.1
        exact ⟨⟨⟨h1w, hwt.1.2⟩, by rw [Iter.same_type_trans _ _ _ h1s]; exact hwt.2⟩, h1s⟩
      | skip_while_iterator a e f =>
        simp only [Iter.advance] at hr ⊢
        obtain ⟨a1, rfl, -, hl, he, hw⟩ :=
          single h a it1 h1 (fun x => .skip_while_iterator x e f) hr
        refine ⟨hl, he, fun hwt => ?_⟩
        simp only [Iter.well_typed, Bool.and_eq_true, Iter.same_type] at hwt ⊢
        obtain ⟨h1w, h1s⟩ := hw hwt.1.1
        exact ⟨⟨⟨h1w, hwt.1.2⟩, by rw [Iter.same_type_trans _ _ _ h1s]; exact hwt.2⟩, h1s⟩
      | take_iterator a e cur cnt =>
        simp only [Iter.advance] at hr ⊢
        split at hr
        · rename_i hc
          cases hr
          refine ⟨rfl, by rw [if_pos hc], fun hwt => ?_⟩
          simp only [Iter.well_typed, Bool.and_eq_true, Iter.same_type] at hwt ⊢
          exact ⟨⟨⟨hwt.1.2, hwt.1.2⟩, Iter.same_type_refl e⟩,
            by rw [Iter.same_type_symm]; exact hwt.2⟩
        · rename_i hc
          rw [if_neg hc]
          obtain ⟨a1, rfl, -, hl, he, hw⟩ :=
            single h a it1 h1 (fun x => .take_iterator x e (cur + 1) cnt) hr
          refine ⟨hl, he, fun hwt => ?_⟩
          simp only [Iter.well_typed, Bool.and_eq_true, Iter.same_type] at hwt ⊢
          obtain ⟨h1w, h1s⟩ := hw hwt.1.1
          exact ⟨⟨⟨h1w, hwt.1.2⟩, by rw [Iter.same_type_trans _ _ _ h1s]; exact hwt.2⟩, h1s⟩
      | where_iterator a e f =>
        simp only [Iter.advance] at hr ⊢
        cases hq : Iter.advance n h a with
        | error err => rw [hq] at hr; cases hr
        | ok p1 =>
          obtain ⟨a1, g⟩ := p1
          rw [hq] at hr
          simp only at hr
          obtain ⟨hl, he, hw⟩ := iha _ _ _ _ hq
          cases hc : check_move_iterator n g a1 e f with
          | error err => rw [hc] at hr; cases hr
          | ok p2 =>
            obtain ⟨a2, g2⟩ := p2
            rw [hc] at hr
            cases hr
            obtain ⟨hl2, he2, hw2⟩ := ihc _ _ _ _ _ _ hc
            refine ⟨hl2.trans hl, by rw [he]; simp only; rw [he2], fun hwt => ?_⟩
            simp only [Iter.well_typed, Bool.and_eq_true, Iter.same_type] at hwt ⊢
            obtain ⟨h1w, h1s⟩ := hw hwt.1.1
            obtain ⟨h2w, h2s⟩ := hw2 h1w
            have h3s : a2.same_type a = true := by
              rw [Iter.same_type_trans _ _ _ h2s]; exact h1s
            exact ⟨⟨⟨h2w, hwt.1.2⟩, by rw [Iter.same_type_trans _ _ _ h3s]; exact hwt.2⟩, h3s⟩
      | take_while_iterator a e f =>
        simp only [Iter.advance] at hr ⊢
        cases hq : Iter.advance n h a with
        | error err => rw [hq] at hr; cases hr
        | ok p1 =>
          obtain ⟨a1, g⟩ := p1
          rw [hq] at hr
          simp only at hr
          obtain ⟨hl, he, hw⟩ := iha _ _ _ _ hq
          cases hd : Iter.deref n g a1 with
          | error err => rw [hd] at hr; cases hr
          | ok v =>
            rw [hd] at hr
            simp only at hr
            rw [he]
            simp only
            rw [Iter.deref_append t n g a1 v hd]
            simp only
            split at hr
            · rename_i hf
              cases hr
              refine ⟨hl, by rw [if_pos hf], fun hwt => ?_⟩
              simp only [Iter.well_typed, Bool.and_eq_true, Iter.same_type] at hwt ⊢
              exact ⟨⟨⟨hwt.1.2, hwt.1.2⟩, Iter.same_type_refl e⟩,
                by rw [Iter.same_type_symm]; exact hwt.2⟩
            · rename_i hf
              cases hr
              refine ⟨hl, by rw [if_neg hf], fun hwt => ?_⟩
              simp only [Iter.well_typed, Bool.and_eq_true, Iter.same_type] at hwt ⊢
              obtain ⟨h1w, h1s⟩ := hw hwt.1.1
              exact ⟨⟨⟨h1w, hwt.1.2⟩, by rw [Iter.same_type_trans _ _ _ h1s]; exact hwt.2⟩,
                h1s⟩
      | concat_iterator i1 e1 i2 e2 =>
        simp only [Iter.advance] at hr ⊢
        cases hne : Iter.ne n h i1 e1 with
        | error err => rw [hne] at hr; cases hr
        | ok r1 =>
          rw [hne] at hr
          rw [Iter.ne_append t n h i1 e1 r1 hne]
          cases r1
          · simp only at hr ⊢
            obtain ⟨a1, rfl, -, hl, he, hw⟩ :=
              single h i2 it1 h1 (fun x => .concat_iterator i1 e1 x e2) hr
            refine ⟨hl, he, fun hwt => ?_⟩
            simp only [Iter.well_typed, Bool.and_eq_true, Iter.same_type] at hwt ⊢
            obtain ⟨⟨⟨⟨⟨w1, w2⟩, w3⟩, w4⟩, w5⟩, w6⟩ := hwt
            obtain ⟨h1w, h1s⟩ := hw w3
            exact ⟨⟨⟨⟨⟨⟨w1, w2⟩, h1w⟩, w4⟩, w5⟩,
              by rw [Iter.same_type_trans _ _ _ h1s]; exact w6⟩, Iter.same_type_refl i1, h1s⟩
          · simp only at hr ⊢
            obtain ⟨a1, rfl, -, hl, he, hw⟩ :=
              single h i1 it1 h1 (fun x => .concat_iterator x e1 i2 e2) hr
            refine ⟨hl, he, fun hwt => ?_⟩
            simp only [Iter.well_typed, Bool.and_eq_true, Iter.same_type] at hwt ⊢
            obtain ⟨⟨⟨⟨⟨w1, w2⟩, w3⟩, w4⟩, w5⟩, w6⟩ := hwt
            obtain ⟨h1w, h1s⟩ := hw w1
            exact ⟨⟨⟨⟨⟨⟨h1w, w2⟩, w3⟩, w4⟩,
              by rw [Iter.same_type_trans _ _ _ h1s]; exact w5⟩, w6⟩, h1s, Iter.same_type_refl i2⟩
      | zip_iterator i1 e1 i2 e2 =>
        simp only [Iter.advance] at hr ⊢
        have stay : it1 = .zip_iterator i1 e1 i2 e2 → h1 = h →
            h1.length = h.length ∧
            (Except.ok (Iter.zip_iterator i1 e1 i2 e2, h ++ t) : Except Err (Iter α K × Heap α K))
              = Except.ok (it1, h1 ++ t) ∧
            ((Iter.zip_iterator i1 e1 i2 e2).well_typed = true →
              it1.well_typed = true ∧
                it1.same_type (Iter.zip_iterator i1 e1 i2 e2) = true) := by
          rintro rfl rfl
          exact ⟨rfl, rfl, fun hwt => ⟨hwt, Iter.same_type_refl _⟩⟩
        cases hne : Iter.ne n h i1 e1 with
        | error err => rw [hne] at hr; cases hr
        | ok r1 =>
          rw [hne] at hr
          rw [Iter.ne_append t n h i1 e1 r1 hne]
          cases r1
          · simp only at hr ⊢
            cases hr
            exact stay rfl rfl
          · simp only at hr ⊢
            cases hne2 : Iter.ne n h i2 e2 with
            | error err => rw [hne2] at hr; cases hr
            | ok r2 =>
              rw [hne2] at hr
              rw [Iter.ne_append t n h i2 e2 r2 hne2]
              cases r2
              · simp only at hr ⊢
                cases hr
                exact stay rfl rfl
              · simp only at hr ⊢
                cases hq : Iter.advance n h i1 with
                | error err => rw [hq] at hr; cases hr
                | ok p1 =>
                  obtain ⟨a1, g⟩ := p1
                  rw [hq] at hr
                  simp only at hr
                  obtain ⟨hl, he, hw⟩ := iha _ _ _ _ hq
                  cases hq2 : Iter.advance n g i2 with
                  | error err => rw [hq2] at hr; cases hr
                  | ok p2 =>
                    obtain ⟨a2, g2⟩ := p2
                    rw [hq2] at hr
                    cases hr
                    obtain ⟨hl2, he2, hw2⟩ := iha _ _ _ _ hq2
                    refine ⟨hl2.trans hl, by rw [he]; simp only; rw [he2], fun hwt => ?_⟩
                    simp only [Iter.well_typed, Bool.and_eq_true, Iter.same_type] at hwt ⊢
                    obtain ⟨⟨⟨⟨⟨w1, w2⟩, w3⟩, w4⟩, w5⟩, w6⟩ := hwt
                    obtain ⟨h1w, h1s⟩ := hw w1
                    obtain ⟨h2w, h2s⟩ := hw2 w3
                    exact ⟨⟨⟨⟨⟨⟨h1w, w2⟩, h2w⟩, w4⟩,
                      by rw [Iter.same_type_trans _ _ _ h1s]; exact w5⟩,
                      by rw [Iter.same_type_trans _ _ _ h2s]; exact w6⟩, h1s, h2s⟩
      | any_iterator p =>
        simp only [Iter.advance] at hr ⊢
        cases hp : h[p]? with
        | none => rw [hp] at hr; cases hr
        | some c =>
          rw [hp] at hr
          simp only at hr
          have hpl := (List.getElem?_eq_some_iff.mp hp).1
          rw [getElem?_append_of_lt hpl, hp]
          simp only
          cases hq : Iter.advance n h c with
          | error err => rw [hq] at hr; cases hr
          | ok p1 =>
            obtain ⟨c1, g⟩ := p1
            rw [hq] at hr
            cases hr
            obtain ⟨hl, he, -⟩ := iha _ _ _ _ hq
            refine ⟨by rw [List.length_set]; exact hl, ?_, fun _ => ⟨rfl, rfl⟩⟩
            rw [he]
            simp only
            rw [List.set_append_left _ _ (by omega)]
    · intro h it e f it1 h1 hr
      simp only [check_move_iterator] at hr ⊢
      cases hne : Iter.ne n h it e with
      | error err => rw [hne] at hr; cases hr
      | ok r1 =>
        rw [hne] at hr
        rw [Iter.ne_append t n h it e r1 hne]
        cases r1
        · simp only at hr ⊢
          cases hr
          exact ⟨rfl, rfl, fun hwt => ⟨hwt, Iter.same_type_refl _⟩⟩
        · simp only at hr ⊢
          cases hd : Iter.deref n h it with
          | error err => rw [hd] at hr; cases hr
          | ok v =>
            rw [hd] at hr
            rw [Iter.deref_append t n h it v hd]
            simp only at hr ⊢
            split at hr
            · rename_i hf
              rw [if_pos hf]
              cases hq : Iter.advance n h it with
              | error err => rw [hq] at hr; cases hr
              | ok p1 =>
                obtain ⟨a1, g⟩ := p1
                rw [hq] at hr
                simp only at hr
                obtain ⟨hl, he, hw⟩ := iha _ _ _ _ hq
                obtain ⟨hl2, he2, hw2⟩ := ihc _ _ _ _ _ _ hr
                refine ⟨hl2.trans hl, by rw [he]; simp only; rw [he2], fun hwt => ?_⟩
                obtain ⟨h1w, h1s⟩ := hw hwt
                obtain ⟨h2w, h2s⟩ := hw2 h1w
                exact ⟨h2w, by rw [Iter.same_type_trans _ _ _ h2s]; exact h1s⟩
            · rename_i hf
              rw [if_neg hf]
              cases hr
              exact ⟨rfl, rfl, fun hwt => ⟨hwt, Iter.same_type_refl _⟩⟩

/-! ## Type erasure -/

/-- The comparison of the two `any_iterator`s of a handle is the comparison of the
cursors they wrap. -/
theorem any_iterator_ne (n : Nat) (h : Heap α K) (b e : Iter α K)
    (hs : b.same_type e = true) :
    Iter.ne (n + 1) (h ++ [b, e]) (.any_iterator h.length) (.any_iterator (h.length + 1))
      = Iter.ne n (h ++ [b, e]) b e := by
  have hb : (h ++ [b, e])[h.length]? = some b := by
    rw [List.getElem?_append_right (le_refl _)]; simp
  have he : (h ++ [b, e])[h.length + 1]? = some e := by
    rw [List.getElem?_append_right (by omega)]; simp
  unfold Iter.ne
  simp only [Iter.eq, hb, he, hs, if_true]

/-- A pass over a type-erased handle yields what a pass over the wrapped cursor
yields. -/
theorem to_list_loop_erased : ∀ (n : Nat) (h : Heap α K) (b e : Iter α K)
    (xs : List (Val α K)) (h1 : Heap α K),
    b.well_typed = true → b.same_type e = true →
    to_list_loop n h b e = .ok (xs, h1) →
    ∃ b1, to_list_loop (n + 1) (h ++ [b, e]) (.any_iterator h.length)
        (.any_iterator (h.length + 1)) = .ok (xs, h1 ++ [b1, e]) := by
  intro n
  induction n with
  | zero => intro h b e xs h1 _ _ hr; cases hr
  | succ n ih =>
    intro h b e xs h1 hw hs hr
    rw [to_list_loop] at hr
    cases hne : Iter.ne n h b e with
    | error err => rw [hne] at hr; cases hr
    | ok r1 =>
      rw [hne] at hr
      have hne1 := Iter.ne_append [b, e] n h b e r1 hne
      rw [← any_iterator_ne n h b e hs] at hne1
      cases r1
      · simp only at hr
        cases hr
        exact ⟨b, to_list_loop_nil hne1⟩
      · simp only at hr
        cases hd : Iter.deref n h b with
        | error err => rw [hd] at hr; cases hr
        | ok v =>
          rw [hd] at hr
          simp only at hr
          cases hq : Iter.advance n h b with
          | error err => rw [hq] at hr; cases hr
          | ok p1 =>
            obtain ⟨b2, g⟩ := p1
            rw [hq] at hr
            simp only at hr
            cases ht : to_list_loop n g b2 e with
            | error err => rw [ht] at hr; cases hr
            | ok p2 =>
              obtain ⟨vs, g2⟩ := p2
              rw [ht] at hr
              cases hr
              obtain ⟨hl, he, hwt⟩ := (Iter.advance_append [b, e] n).1 _ _ _ _ hq
              obtain ⟨hw2, hs2⟩ := hwt hw
              have hs3 : b2.same_type e = true := by
                rw [Iter.same_type_trans _ _ _ hs2]; exact hs
              obtain ⟨b1, hb1⟩ := ih g b2 e vs _ hw2 hs3 ht
              rw [hl] at hb1
              have hb : (h ++ [b, e])[h.length]? = some b := by
                rw [List.getElem?_append_right (le_refl _)]; simp
              refine ⟨b1, to_list_loop_cons (b :=.any_iterator h.length)
                (g := g ++ [b2, e]) hne1 ?_ ?_ hb1⟩
              · simp only [Iter.deref, hb]
                exact Iter.deref_append [b, e] n h b v hd
              · simp only [Iter.advance, hb, he]
                rw [List.set_append, if_neg (by omega), hl]
                simp

/-! ## Claim on type erasure -/

/-- C20: when a pass over a pipeline `c` (with cursors of the classes that the C++
types prescribe) yields `xs`, a pass over the type-erased handle `linq<T>(c)` yields
the same `xs`, with one more unit of fuel for the indirection. -/
theorem type_erasure_preserves_sequence (c : linq_collection α K) (h : Heap α K) (n : Nat)
    (xs : List (Val α K)) (h1 : Heap α K) (hw : c.well_typed = true)
    (ht : c.to_list n h = .ok (xs, h1)) :
    ∃ h2, (mk_linq h c).1.to_list (n + 1) (mk_linq h c).2 = .ok (xs, h2) := by
  unfold linq_collection.well_typed at hw
  simp only [Bool.and_eq_true] at hw
  obtain ⟨b1, hb1⟩ := to_list_loop_erased n h c._begin c._end xs h1 hw.1.1 hw.2 ht
  exact ⟨_, hb1⟩

theorem type_erasure_preserves_sequence_witness :
    ((«from» (ints [1, 2, 3, 4, 5])).select times_two).well_typed = true ∧
      ((«from» (ints [1, 2, 3, 4, 5])).select times_two).to_list 10 []
        = .ok (ints [2, 4, 6, 8, 10], []) ∧
      ∃ h2, (mk_linq [] ((«from» (ints [1, 2, 3, 4, 5])).select times_two)).1.to_list 11
        (mk_linq [] ((«from» (ints [1, 2, 3, 4, 5])).select times_two)).2
          = .ok (ints [2, 4, 6, 8, 10], h2) :=
  ⟨rfl, rfl, type_erasure_preserves_sequence _ [] 10 _ [] rfl rfl⟩

/-! ## The method `select_many` with handles of their own -/

/-- When every call of the function returns a handle of its own, the pass over
`select_many` of a container yields the elements of `F x` for every `x`, in order. -/
theorem select_many_from_values (xs : List (Val α K)) (F : Val α K → List (Val α K))
    (h : Heap α K) (n : Nat) (hn : 2 * xs.length + (xs.flatMap F).length + 6 ≤ n) :
    elements n (linq_collection.select_many n h («from» xs) (from_values_selector F))
      = .ok (xs.flatMap F) := by
  obtain ⟨yb, ye, g1, ys, RY, RP, hsm, hO, hP, -, -⟩ :=
    select_many_spec (π := Val α K) (from_values_selector F)
      (fun _ ys R p => R = ∅ ∧ p = ys) (fun _ => ⟨rfl, rfl⟩)
      (fun _ _ _ _ _ hp _ => hp)
      (fun _ _ _ _ _ _ _ hp1 hp2 _ => ⟨by rw [hp1.1, hp2.1]; simp, by rw [hp1.2, hp2.2]⟩)
      (fun _ _ _ _ hp a ha => by rw [hp.1] at ha; cases ha)
      2 1 h («from» xs) ∅ (xs.map fun x => (x, ∅, F x))
      (by
        have := from_container_owns h xs
        rwa [show (xs.map fun x => ((x, ∅, F x) : Val α K × Set Nat × List (Val α K))).map
          Prod.fst = xs by simp [List.map_map, Function.comp_def]])
      (by
        intro item hi a ha
        obtain ⟨x, -, rfl⟩ := List.mem_map.mp hi
        cases ha)
      (by
        intro item hi g hlen hag
        obtain ⟨x, -, rfl⟩ := List.mem_map.mp hi
        refine ⟨(from_values g (F x)).1, (from_values g (F x)).2, F x,
          {g.length, g.length + 1}, ∅, rfl, ?_, ?_, ?_, ⟨rfl, rfl⟩, by simp, ?_⟩
        · rw [from_values_snd]; simp
        · intro a ha _
          rw [from_values_snd]
          exact getElem?_append_of_lt ha
        · exact from_values_owns g (F x) 0
        · rintro a ((rfl | rfl) | ha)
          · exact Or.inr (le_refl _)
          · exact Or.inr (by omega)
          · cases ha)
      (by
        rw [List.pairwise_map]
        exact List.pairwise_of_forall fun _ _ => by simp)
      (by intro item _; simp)
      n (by simp; omega)
  have hys : ys = xs.flatMap F := by
    rw [← hP.2]
    simp [List.flatMap_def, List.map_map, Function.comp_def]
  subst hys
  obtain ⟨h2, ht, -, -⟩ := hO.to_list_loop n (by rw [List.length_map]; omega)
  unfold elements
  rw [hsm]
  simp only [linq_collection.to_list]
  rw [ht]

/-! ## Claim on `select_many` and `flatten` -/

/-- C19 (the code at the failing inputs): with `linq<int> a = from_values({1, 2})`, the
pass over `flatten` of the two handles `{a, a}` yields `1, 2` and not `1, 2, 1, 2`, and
so does the pass over `from({7, 8}).select_many` of a function that returns `a`: the
copies of `a` share one cursor object, which the first inner pass leaves at its end.
With a function that returns a new handle on `{x, x}` at every call the result is
`7, 7, 8, 8`. -/
theorem select_many_shared_handle_once :
    elements 30 (flatten_shared 30) = .ok (ints [1, 2]) ∧
      elements 30 (select_many_shared 30) = .ok (ints [1, 2]) ∧
      elements 30 (linq_collection.select_many 30 [] («from» (ints [7, 8]))
        (from_values_selector fun x => [x, x])) = .ok (ints [7, 7, 8, 8]) := by
  refine ⟨?_, ?_, ?_⟩ <;> rfl

/-! ## Element access and folds over containers -/

/-- The loop `std::for_each` over a container from position `j`. -/
theorem for_each_container_from {σ : Type} (fn : σ → Val α K → σ) (xs : List (Val α K))
    (h : Heap α K) (s : σ) (j n : Nat) (hj : j ≤ xs.length) (hn : xs.length - j + 2 ≤ n) :
    for_each n h (.container xs j) (.container xs xs.length) fn s
      = .ok ((xs.drop j).foldl fn s, h) := by
  rw [for_each_eq_foldl, container_to_list xs h (xs.length - j) j n rfl hj hn]

/-- The method `aggregate(init, f)` with a function without effects runs as
`std::for_each` does. -/
theorem aggregate_pure {σ : Type} (f : σ → Val α K → σ) :
    ∀ (n : Nat) (h : Heap α K) (it e : Iter α K) (res : σ),
      aggregate n h it e (fun res v g => .ok (f res v, g)) res = for_each n h it e f res := by
  intro n
  induction n with
  | zero => intro h it e res; rfl
  | succ n ih =>
    intro h it e res
    rw [aggregate, for_each]
    cases hne : Iter.ne n h it e with
    | error err => rfl
    | ok r =>
      cases r
      · rfl
      · simp only
        cases hd : Iter.deref n h it with
        | error err => rfl
        | ok v =>
          simp only
          cases ha : Iter.advance n h it with
          | error err => rfl
          | ok p => exact ih _ _ _ _

/-- The loop of `element_at` over a container stops `i` positions further, or at the
end. -/
theorem element_at_loop_container (xs : List (Val α K)) (h : Heap α K) :
    ∀ (r j i n : Nat), r = xs.length - j → j ≤ xs.length → r + 2 ≤ n →
      element_at_loop n h (.container xs j) (.container xs xs.length) i
        = .ok (.container xs (min (j + i) xs.length), h) := by
  intro r
  induction r with
  | zero =>
    intro j i n hr hj hn
    obtain ⟨m, rfl⟩ : ∃ m, n = m + 2 := ⟨n - 2, by omega⟩
    have : j = xs.length := by omega
    subst this
    rw [element_at_loop]
    simp [Iter.ne, Iter.eq]
  | succ r ih =>
    intro j i n hr hj hn
    obtain ⟨m, rfl⟩ : ∃ m, n = m + 3 := ⟨n - 3, by omega⟩
    have hlt : j < xs.length := by omega
    have hne : j ≠ xs.length := by omega
    rw [element_at_loop]
    by_cases hi : i = 0
    · subst hi
      simp [Iter.ne, Iter.eq, hne, Nat.min_eq_left hj]
    · have := ih (j + 1) (i - 1) (m + 2) (by omega) (by omega) (by omega)
      simp only [Iter.ne, Iter.eq, hne, decide_False, Bool.not_false, ne_eq, hi,
        not_false_eq_true, if_true, Iter.advance, hlt, this]
      congr 3
      omega

/-- The method `element_at` over a container. -/
theorem element_at_container (xs : List (Val α K)) (h : Heap α K) (i n : Nat)
    (hn : xs.length + 3 ≤ n) :
    linq_collection.element_at n h («from» xs) i
      = if hi : i < xs.length then .ok (xs[i], h) else .error .out_of_range := by
  obtain ⟨m, rfl⟩ : ∃ m, n = m + 1 := ⟨n - 1, by omega⟩
  unfold linq_collection.element_at
  simp only [«from»]
  rw [element_at_loop_container xs h (xs.length - 0) 0 i (m + 1) rfl (by omega) (by omega)]
  simp only [Nat.zero_add]
  by_cases hi : i < xs.length
  · have hne : i ≠ xs.length := by omega
    simp [Nat.min_eq_left (le_of_lt hi), Iter.ne, Iter.eq, hne, Iter.deref, hi]
  · simp [Nat.min_eq_right (not_lt.mp hi), Iter.ne, Iter.eq, hi]

/-- The loop of `last` over a container returns the position before the end. -/
theorem last_loop_container (xs : List (Val α K)) (h : Heap α K) :
    ∀ (r j p n : Nat), r = xs.length - j → j ≤ xs.length → r + 2 ≤ n →
      last_loop n h (.container xs p) (.container xs j) (.container xs xs.length)
        = .ok (.container xs (if j = xs.length then p else xs.length - 1), h) := by
  intro r
  induction r with
  | zero =>
    intro j p n hr hj hn
    obtain ⟨m, rfl⟩ : ∃ m, n = m + 2 := ⟨n - 2, by omega⟩
    have : j = xs.length := by omega
    subst this
    rw [last_loop]
    simp [Iter.ne, Iter.eq]
  | succ r ih =>
    intro j p n hr hj hn
    obtain ⟨m, rfl⟩ : ∃ m, n = m + 3 := ⟨n - 3, by omega⟩
    have hlt : j < xs.length := by omega
    have hne : j ≠ xs.length := by omega
    rw [last_loop]
    have := ih (j + 1) j (m + 2) (by omega) (by omega) (by omega)
    simp only [Iter.ne, Iter.eq, hne, decide_False, Bool.not_false, Iter.advance, hlt,
      if_true, this, if_false]
    congr 3
    split <;> omega

/-- The methods `first`, `first_or_default`, `last` and `last_or_default` over a
container. -/
theorem first_last_container (xs : List (Val α K)) (h : Heap α K) (v : Val α K) (n : Nat)
    (hn : xs.length + 3 ≤ n) :
    linq_collection.first n h («from» xs)
        = (match xs.head? with | some x => .ok x | none => .error .collection_empty) ∧
      linq_collection.first_or_default n h («from» xs) v = .ok (xs.head?.getD v) ∧
      linq_collection.last n h («from» xs)
        = (match xs.getLast? with | some x => .ok (x, h) | none => .error .collection_empty) ∧
      linq_collection.last_or_default n h («from» xs) v = .ok (xs.getLast?.getD v, h) := by
  obtain ⟨m, rfl⟩ : ∃ m, n = m + 2 := ⟨n - 2, by omega⟩
  have hl := last_loop_container xs h (xs.length - 0) 0 0 (m + 2) rfl (by omega) (by omega)
  cases xs with
  | nil =>
    simp only [List.length_nil] at hl
    refine ⟨?_, ?_, ?_, ?_⟩
    · simp [linq_collection.first, linq_collection.empty, «from», Iter.eq]
    · simp [linq_collection.first_or_default, linq_collection.empty, «from», Iter.eq]
    · simp [linq_collection.last, linq_collection.empty, «from», Iter.eq]
    · unfold linq_collection.last_or_default
      simp only [«from», List.length_nil, hl]
      simp [Iter.eq]
  | cons x xs =>
    have h0 : (0 : Nat) ≠ (x :: xs).length := by simp
    have hlast : (x :: xs)[(x :: xs).length - 1]? = some ((x :: xs).getLast (by simp)) := by
      rw [List.getLast_eq_getElem]
      exact List.getElem?_eq_getElem _
    have hlast2 : (x :: xs).getLast? = some ((x :: xs).getLast (by simp)) :=
      List.getLast?_eq_getLast _ _
    have hne : (x :: xs).length - 1 ≠ (x :: xs).length := by simp
    rw [if_neg h0] at hl
    refine ⟨?_, ?_, ?_, ?_⟩
    · simp [linq_collection.first, linq_collection.empty, «from», Iter.eq, Iter.deref]
    · simp [linq_collection.first_or_default, linq_collection.empty, «from», Iter.eq,
        Iter.deref]
    · unfold linq_collection.last linq_collection.empty
      simp only [«from»]
      rw [hl, hlast2]
      simp only [Iter.eq, h0, decide_False, Iter.deref, hlast]
    · unfold linq_collection.last_or_default
      simp only [«from»]
      rw [hl, hlast2]
      simp only [Iter.eq, hne, decide_False, Iter.deref, hlast, Option.getD_some]

/-- The methods `single` and `single_or_default` over a container. -/
theorem single_container (xs : List (Val α K)) (h : Heap α K) (v : Val α K) (n : Nat)
    (hn : 3 ≤ n) :
    linq_collection.single n h («from» xs)
        = (match xs with
          | [] => .error .collection_empty
          | [_] => .ok («from» xs, h)
          | _ :: _ :: _ => .error .element_not_unique) ∧
      linq_collection.single_or_default n h («from» xs) v
        = (match xs with
          | [] => .ok (from_values h [v])
          | [_] => .ok (mk_linq h («from» xs))
          | _ :: _ :: _ => .error .element_not_unique) := by
  obtain ⟨m, rfl⟩ : ∃ m, n = m + 2 := ⟨n - 2, by omega⟩
  match xs with
  | [] =>
    constructor <;>
      simp [linq_collection.single, linq_collection.single_or_default, «from», Iter.eq]
  | [a] =>
    constructor <;>
      simp [linq_collection.single, linq_collection.single_or_default, «from», Iter.eq,
        Iter.ne, Iter.advance]
  | a :: b :: l =>
    constructor <;>
      simp [linq_collection.single, linq_collection.single_or_default, «from», Iter.eq,
        Iter.ne, Iter.advance]

/-- The methods `aggregate(init, f)` and `aggregate(f)` over a container. -/
theorem aggregate_container {σ : Type} (xs : List (Val α K)) (h : Heap α K) (init : σ)
    (f : σ → Val α K → σ) (g : Val α K → Val α K → Val α K) (n : Nat)
    (hn : xs.length + 3 ≤ n) :
    linq_collection.aggregate_seeded n h («from» xs) init f = .ok (xs.foldl f init, h) ∧
      linq_collection.aggregate_unseeded n h («from» xs) g
        = (match xs with
          | [] => .error .collection_empty
          | x :: rest => .ok (rest.foldl g x, h)) := by
  constructor
  · unfold linq_collection.aggregate_seeded
    rw [aggregate_pure]
    exact for_each_container f xs h init n (by omega)
  · obtain ⟨m, rfl⟩ : ∃ m, n = m + 2 := ⟨n - 2, by omega⟩
    cases xs with
    | nil => simp [linq_collection.aggregate_unseeded, linq_collection.empty, «from», Iter.eq]
    | cons x rest =>
      have h0 : (0 : Nat) ≠ (x :: rest).length := by simp
      have hf := for_each_container_from g (x :: rest) h x 1 (m + 2) (by simp) (by simp at hn ⊢; omega)
      unfold linq_collection.aggregate_unseeded linq_collection.empty
      simp only [«from», Iter.eq, h0, decide_False, Iter.deref, Iter.advance]
      simp only [List.length_cons, Nat.zero_lt_succ, if_true, List.getElem?_cons_zero]
      simpa using hf

/-! ## Claims on element access, comparison and folds -/

/-- From one heap, `count()` returns the length of what `to_list()` returns, and fails when
`to_list()` fails; over a container it returns the length of the container for every
fuel of at least `|xs| + 2`, which is 0 for the empty container. -/
theorem count_is_length_of_to_list (c : linq_collection α K) (n : Nat) (h : Heap α K)
    (xs : List (Val α K)) (m : Nat) :
    c.count n h
        = (match c.to_list n h with
          | .ok (vs, h1) => .ok (vs.length, h1)
          | .error err => .error err) ∧
      linq_collection.count (m + xs.length + 2) h («from» xs) = .ok (xs.length, h) ∧
      linq_collection.count (m + 2) h («from» ([] : List (Val α K))) = .ok (0, h) := by
  have key : ∀ (d : linq_collection α K) (k : Nat),
      d.count k h = (match d.to_list k h with
        | .ok (vs, h1) => .ok (vs.length, h1)
        | .error err => .error err) := by
    intro d k
    cases ht : d.to_list k h with
    | ok r => exact count_eq_length ht
    | error err =>
      unfold linq_collection.to_list at ht
      unfold linq_collection.count
      rw [for_each_eq_foldl, ht]
  refine ⟨key c n, ?_, ?_⟩
  · rw [key, from_to_list xs h m]
  · have := from_to_list ([] : List (Val α K)) h m
    rw [key]
    simp only [List.length_nil, Nat.add_zero] at this
    rw [this]
    rfl

/-- C24 (the code at the failing input): for `linq<int> x = from(b)` with
`b = {1, 2, 3, 4, 5}`, the call `x.sequence_equal(x)` never returns `true`, whatever the
fuel: the two cursors of the loop are copies of `x`'s cursor and share its heap object,
every round moves it by two positions, and the third round moves it past the end of `b`
(the outcome with fuel 12). -/
theorem sequence_equal_same_handle_undefined :
    (∀ n : Nat,
      linq_collection.sequence_equal_impl n handle_12345.2 handle_12345.1 handle_12345.1
        = .error .out_of_fuel ∨
      linq_collection.sequence_equal_impl n handle_12345.2 handle_12345.1 handle_12345.1
        = .error .undefined_behaviour) ∧
      linq_collection.sequence_equal_impl 12 handle_12345.2 handle_12345.1 handle_12345.1
        = .error .undefined_behaviour := by
  refine ⟨fun n => ?_, rfl⟩
  by_cases hn : n < 12
  · interval_cases n <;> first | (left; rfl) | (right; rfl)
  · obtain ⟨m, rfl⟩ : ∃ m, n = m + 12 := ⟨n - 12, by omega⟩
    right
    rfl

/-- C25: for every fuel of at least `|xs| + 3`, `element_at(i)` over a container returns
the element at index `i` when `i < |xs|` and raises `std::out_of_range` otherwise; the
argument `-1` arrives as `2 ^ 64 - 1` and raises it for `{1, 2, 3, 4, 5}`. -/
theorem element_at_in_bounds_or_out_of_range (xs : List (Val α K)) (h : Heap α K)
    (i m : Nat) :
    linq_collection.element_at (m + xs.length + 3) h («from» xs) i
        = (if hi : i < xs.length then .ok (xs[i], h) else .error .out_of_range) ∧
      size_t_of_int (-1) = 2 ^ 64 - 1 ∧
      linq_collection.element_at 8 [] («from» (ints [1, 2, 3, 4, 5])) (size_t_of_int (-1))
        = .error .out_of_range :=
  ⟨element_at_container xs h i _ (by omega), by decide, rfl⟩

/-- C26 (the code at the failing input): for `linq<int> s = from(g)` with `g = {0}`, a
pass over `s` yields `0`, but a pass over `s.single()` yields nothing, for every fuel of
at least 6: the local cursor `it` of `single` is a copy of `s`'s cursor and shares its
heap object, so `++it` moves the cursor of the handle that is returned. -/
theorem single_consumes_handle (m : Nat) :
    elements (m + 6) (.ok handle_0) = .ok (ints [0]) ∧
      elements (m + 6) (linq_collection.single (m + 6) handle_0.2 handle_0.1) = .ok [] :=
  ⟨rfl, rfl⟩

/-- C27 (the code at the failing input): for `linq<int> s = from(g)` with `g = {0}`, a
pass over `s` yields `0`, but a pass over `s.single_or_default(9)` yields nothing, for
every fuel of at least 6, for the reason given at `single`. -/
theorem single_or_default_consumes_handle (m : Nat) :
    elements (m + 6) (.ok handle_0) = .ok (ints [0]) ∧
      elements (m + 6)
        (linq_collection.single_or_default (m + 6) handle_0.2 handle_0.1 (.elem 9))
        = .ok [] :=
  ⟨rfl, rfl⟩

/-- C28 (the code at the failing input): for `linq<int> x = from(b)` with
`b = {1, 2, 3, 4, 5}`, `x.first()` returns 1, but `x.last()` never returns, whatever the
fuel, and `x.last_or_default(7)` returns 7 although `x` is not empty: `resit` and `it`
are copies of one cursor and share its heap object, so after the loop `resit` stands at
the end, where `last` dereferences it (the outcome with fuel 12). -/
theorem last_of_handle_undefined :
    (∀ n : Nat,
      linq_collection.last n handle_12345.2 handle_12345.1 = .error .out_of_fuel ∨
      linq_collection.last n handle_12345.2 handle_12345.1 = .error .undefined_behaviour) ∧
      linq_collection.last 12 handle_12345.2 handle_12345.1 = .error .undefined_behaviour ∧
      (∀ m : Nat, ∃ g, linq_collection.last_or_default (m + 12) handle_12345.2 handle_12345.1
        (.elem 7) = .ok (.elem 7, g)) ∧
      ∀ m : Nat, linq_collection.first (m + 12) handle_12345.2 handle_12345.1
        = .ok (.elem 1) := by
  refine ⟨fun n => ?_, rfl, fun m => ⟨_, rfl⟩, fun m => rfl⟩
  by_cases hn : n < 12
  · interval_cases n <;> first | (left; rfl) | (right; rfl)
  · obtain ⟨m, rfl⟩ : ∃ m, n = m + 12 := ⟨n - 12, by omega⟩
    right
    rfl

/-- C29: over a container and for every fuel of at least `|xs| + 3`, `aggregate(init, f)`
returns the left fold of `f` from `init` (`init` for the empty container), and
`aggregate(g)` returns the left fold of `g` from the first element over the rest and
raises `collection_empty` for the empty container. -/
theorem aggregate_is_left_fold {σ : Type} (x : Val α K) (rest xs : List (Val α K))
    (h : Heap α K) (init : σ) (f : σ → Val α K → σ) (g : Val α K → Val α K → Val α K)
    (m : Nat) :
    linq_collection.aggregate_seeded (m + xs.length + 3) h («from» xs) init f
        = .ok (xs.foldl f init, h) ∧
      linq_collection.aggregate_seeded (m + 3) h («from» ([] : List (Val α K))) init f
        = .ok (init, h) ∧
      linq_collection.aggregate_unseeded (m + (x :: rest).length + 3) h («from» (x :: rest)) g
        = .ok (rest.foldl g x, h) ∧
      linq_collection.aggregate_unseeded (m + 3) h («from» ([] : List (Val α K))) g
        = .error .collection_empty :=
  ⟨(aggregate_container xs h init f g _ (by omega)).1,
    (aggregate_container [] h init f g _ (by simp)).1,
    (aggregate_container (x :: rest) h init f g _ (by omega)).2,
    (aggregate_container [] h init f g _ (by simp)).2⟩

/-- C30 (the code at the failing input): `product()` of `{1, 2, 3, 4, 5}` returns 15, the
sum, and not 120, which `aggregate` with the multiplication returns; over every
non-empty container `product()` returns the left fold of `x + y`. -/
theorem product_adds [Add α] (x : Val α K) (rest : List (Val α K)) (h : Heap α K) (m : Nat) :
    linq_collection.product 8 [] («from» (ints [1, 2, 3, 4, 5])) = .ok (.elem 15, []) ∧
      linq_collection.aggregate_unseeded 8 [] («from» (ints [1, 2, 3, 4, 5])) Val.times
        = .ok (.elem 120, []) ∧
      linq_collection.product (m + (x :: rest).length + 3) h («from» (x :: rest))
        = .ok (rest.foldl Val.plus x, h) :=
  ⟨rfl, rfl, (aggregate_container (x :: rest) h x (fun a _ => a) Val.plus _ (by omega)).2⟩

/-! ## Aggregating methods over containers -/

/-- The left fold of `x + y` over numbers is their sum. -/
theorem foldl_plus_elems [AddMonoid α] (l : List α) :
    ∀ a : α, (l.map Val.elem).foldl Val.plus (Val.elem a : Val α K) = .elem (a + l.sum) := by
  induction l with
  | nil => intro a; simp
  | cons b l ih =>
    intro a
    rw [List.map_cons, List.foldl_cons, show Val.plus (Val.elem a : Val α K) (.elem b)
      = .elem (a + b) from rfl, ih, List.sum_cons, add_assoc]

/-- The left fold of `x < y ? x : y` returns a least element. -/
theorem foldl_less [LinearOrder (Val α K)] (rest : List (Val α K)) :
    ∀ x : Val α K, rest.foldl Val.less x ∈ x :: rest ∧
      ∀ y ∈ x :: rest, rest.foldl Val.less x ≤ y := by
  induction rest with
  | nil => intro x; simp
  | cons z rest ih =>
    intro x
    obtain ⟨hm, hle⟩ := ih (Val.less x z)
    rw [List.foldl_cons]
    have hxz : Val.less x z ≤ x ∧ Val.less x z ≤ z ∧ (Val.less x z = x ∨ Val.less x z = z) := by
      unfold Val.less
      split
      · rename_i hlt; exact ⟨le_refl _, le_of_lt hlt, Or.inl rfl⟩
      · rename_i hlt; exact ⟨not_lt.mp hlt, le_refl _, Or.inr rfl⟩
    constructor
    · rcases List.mem_cons.mp hm with e | e
      · rw [e]
        rcases hxz.2.2 with e1 | e1 <;> rw [e1] <;> simp
      · exact List.mem_cons_of_mem _ (List.mem_cons_of_mem _ e)
    · intro y hy
      have h0 := hle _ (List.mem_cons_self _ _)
      rcases List.mem_cons.mp hy with e | e
      · rw [e]; exact le_trans h0 hxz.1
      · rcases List.mem_cons.mp e with e1 | e1
        · rw [e1]; exact le_trans h0 hxz.2.1
        · exact hle _ (List.mem_cons_of_mem _ e1)

/-- The left fold of `x > y ? x : y` returns a greatest element. -/
theorem foldl_greater [LinearOrder (Val α K)] (rest : List (Val α K)) :
    ∀ x : Val α K, rest.foldl Val.greater x ∈ x :: rest ∧
      ∀ y ∈ x :: rest, y ≤ rest.foldl Val.greater x := by
  induction rest with
  | nil => intro x; simp
  | cons z rest ih =>
    intro x
    obtain ⟨hm, hle⟩ := ih (Val.greater x z)
    rw [List.foldl_cons]
    have hxz : x ≤ Val.greater x z ∧ z ≤ Val.greater x z ∧
        (Val.greater x z = x ∨ Val.greater x z = z) := by
      unfold Val.greater
      split
      · rename_i hlt; exact ⟨le_refl _, le_of_lt hlt, Or.inl rfl⟩
      · rename_i hlt; exact ⟨not_lt.mp hlt, le_refl _, Or.inr rfl⟩
    constructor
    · rcases List.mem_cons.mp hm with e | e
      · rw [e]
        rcases hxz.2.2 with e1 | e1 <;> rw [e1] <;> simp
      · exact List.mem_cons_of_mem _ (List.mem_cons_of_mem _ e)
    · intro y hy
      have h0 := hle _ (List.mem_cons_self _ _)
      rcases List.mem_cons.mp hy with e | e
      · rw [e]; exact le_trans hxz.1 h0
      · rcases List.mem_cons.mp e with e1 | e1
        · rw [e1]; exact le_trans hxz.2.1 h0
        · exact hle _ (List.mem_cons_of_mem _ e1)

/-- The loop of `average` adds the converted elements and counts them. -/
theorem foldl_average_step {ρ : Type} [Add ρ] (conv : Val α K → ρ) (xs : List (Val α K)) :
    ∀ s : ρ × Nat, xs.foldl (average_step conv) s
      = ((xs.map conv).foldl (· + ·) s.1, s.2 + xs.length) := by
  induction xs with
  | nil => intro s; rfl
  | cons x xs ih =>
    intro s
    rw [List.foldl_cons, ih]
    simp only [average_step, List.map_cons, List.foldl_cons, List.length_cons]
    congr 1
    omega

/-- The method `average<TResult>()` over a container. -/
theorem average_container {ρ : Type} [Zero ρ] [Add ρ] [Div ρ] [NatCast ρ]
    (conv : Val α K → ρ) (xs : List (Val α K)) (h : Heap α K) (n : Nat)
    (hn : xs.length + 3 ≤ n) :
    linq_collection.average n h («from» xs) conv
      = (match xs with
        | [] => .error .collection_empty
        | x :: rest => .ok (((x :: rest).map conv).foldl (· + ·) 0
            / (((x :: rest).length : Nat) : ρ), h)) := by
  obtain ⟨m, rfl⟩ : ∃ m, n = m + 2 := ⟨n - 2, by omega⟩
  cases xs with
  | nil => simp [linq_collection.average, linq_collection.empty, «from», Iter.eq]
  | cons x rest =>
    have he : linq_collection.empty (m + 2) h («from» (x :: rest)) = .ok false := by
      simp [linq_collection.empty, «from», Iter.eq]
    unfold linq_collection.average
    rw [he]
    simp only
    rw [for_each_container (average_step conv) (x :: rest) h _ (m + 2) (by omega),
      foldl_average_step]
    simp

/-- The left fold of `a && b` over the results of a predicate. -/
theorem foldl_and_step (f : Val α K → Bool) (xs : List (Val α K)) :
    ∀ a : Bool, (xs.map (predicate_selector f)).foldl and_step a = (a && xs.all f) := by
  induction xs with
  | nil => intro a; simp
  | cons x xs ih =>
    intro a
    rw [List.map_cons, List.foldl_cons, ih]
    simp [and_step, predicate_selector, Val.to_bool, Bool.and_assoc]

/-- The method `all(f)` over a container. -/
theorem all_container (xs : List (Val α K)) (f : Val α K → Bool) (h : Heap α K) (n : Nat)
    (hn : xs.length + 3 ≤ n) :
    linq_collection.all n h («from» xs) f = .ok (xs.all f, h) := by
  have ho : Owns h ((«from» xs).select (predicate_selector f))._begin
      ((«from» xs).select (predicate_selector f))._end ∅
      (xs.map (predicate_selector f)) 2 :=
    Owns.select_iterator _ (from_container_owns h xs)
  have ht := ho.to_list_loop_pure n (by simp; omega)
  unfold linq_collection.all linq_collection.aggregate_seeded
  rw [aggregate_pure, for_each_eq_foldl, ht]
  simp [foldl_and_step]

/-- The method `any(f)` over a container. -/
theorem any_container (xs : List (Val α K)) (f : Val α K → Bool) (h : Heap α K) (n : Nat)
    (hn : xs.length + 4 ≤ n) :
    linq_collection.any n h («from» xs) f = .ok (xs.any f, h) := by
  obtain ⟨j1, hb, -, hj1, hacc, hd⟩ := check_move_iterator_container xs f h (xs.length - 0) 0
    n rfl (by omega) (by omega)
  obtain ⟨m, rfl⟩ : ∃ m, n = m + 3 := ⟨n - 3, by omega⟩
  have he : check_move_iterator (m + 3) h (.container xs xs.length)
      (.container xs xs.length) f = .ok (.container xs xs.length, h) := by
    rw [check_move_iterator]
    simp [Iter.ne, Iter.eq]
  have hw : linq_collection.«where» (m + 3) h («from» xs) f
      = .ok (⟨.where_iterator (.container xs j1) (.container xs xs.length) f,
          .where_iterator (.container xs xs.length) (.container xs xs.length) f⟩, h) := by
    simp [linq_collection.«where», mk_where_iterator, «from», hb, he]
  unfold linq_collection.any
  rw [hw]
  simp only [linq_collection.empty, Iter.eq]
  have hany : xs.any f = !decide (j1 = xs.length) := by
    by_cases hje : j1 = xs.length
    · have hf : xs.filter f = [] := by
        have := hd
        rw [hje, List.drop_length, List.drop_zero] at this
        simpa using this
      rw [hje]
      simp only [decide_True, Bool.not_true]
      rw [Bool.eq_false_iff]
      intro hc
      obtain ⟨x, hx, hfx⟩ := List.any_eq_true.mp hc
      have : x ∈ xs.filter f := List.mem_filter.mpr ⟨hx, hfx⟩
      rw [hf] at this
      exact absurd this (List.not_mem_nil _)
    · have hlt : j1 < xs.length := by omega
      simp only [hje, decide_False, Bool.not_false]
      exact List.any_eq_true.mpr ⟨xs[j1], List.getElem_mem _, hacc hlt⟩
  rw [hany]

/-! ## Claims on the aggregating methods and the quantifiers -/

/-- C31 (counterexample): for the empty `vector<int> ys`, `from(ys).sum()` raises
`collection_empty`: `sum()` is `aggregate` without a seed. -/
theorem sum_of_empty_raises :
    linq_collection.sum 8 ([] : Heap Nat Nat) («from» (ints []))
      = .error .collection_empty := by
  rfl

/-- C31 (amended): `sum()` of a non-empty container of numbers returns their sum, for
every fuel of at least `|xs| + 3`, leaving the heap as it was (15 for
`{1, 2, 3, 4, 5}`); of the empty container it raises `collection_empty`. -/
theorem sum_nonempty_or_raises [AddMonoid α] (a : α) (l : List α) (h : Heap α K) (m : Nat) :
    linq_collection.sum (m + (a :: l).length + 3) h («from» ((a :: l).map Val.elem))
        = .ok (.elem (a :: l).sum, h) ∧
      linq_collection.sum (m + 3) h («from» ([] : List (Val α K)))
        = .error .collection_empty ∧
      linq_collection.sum 8 [] («from» (ints [1, 2, 3, 4, 5])) = .ok (.elem 15, []) := by
  refine ⟨?_, ?_, rfl⟩
  · have := (aggregate_container ((a :: l).map Val.elem) h (Val.elem a : Val α K)
      (fun x _ => x) Val.plus (m + (a :: l).length + 3) (by simp)).2
    unfold linq_collection.sum
    rw [this]
    simp only [List.map_cons]
    rw [foldl_plus_elems, List.sum_cons]
  · exact (aggregate_container [] h (Val.elem 0 : Val α K) (fun x _ => x) Val.plus (m + 3)
      (by simp)).2

/-- C32: over a non-empty container, `min()` returns an element that is `<=` every
element and `max()` an element that is `>=` every element, for every fuel of at least
`|xs| + 3`, leaving the heap as it was (1 and 5 for `{1, 2, 3, 4, 5}`); over the empty
container both raise `collection_empty`. -/
theorem min_max_extremal [LinearOrder (Val α K)] (x : Val α K) (rest : List (Val α K))
    (h : Heap α K) (m : Nat) :
    (∃ v, linq_collection.min (m + (x :: rest).length + 3) h («from» (x :: rest))
        = .ok (v, h) ∧ v ∈ x :: rest ∧ ∀ y ∈ x :: rest, v ≤ y) ∧
      (∃ v, linq_collection.max (m + (x :: rest).length + 3) h («from» (x :: rest))
        = .ok (v, h) ∧ v ∈ x :: rest ∧ ∀ y ∈ x :: rest, y ≤ v) ∧
      linq_collection.min (m + 3) h («from» ([] : List (Val α K)))
        = .error .collection_empty ∧
      linq_collection.max (m + 3) h («from» ([] : List (Val α K)))
        = .error .collection_empty ∧
      linq_collection.min 8 [] («from» (ints [1, 2, 3, 4, 5])) = .ok (.elem 1, []) ∧
      linq_collection.max 8 [] («from» (ints [1, 2, 3, 4, 5])) = .ok (.elem 5, []) := by
  refine ⟨⟨rest.foldl Val.less x, ?_, foldl_less rest x⟩,
    ⟨rest.foldl Val.greater x, ?_, foldl_greater rest x⟩, ?_, ?_, by rfl, by rfl⟩
  · exact (aggregate_container (x :: rest) h x (fun a _ => a) Val.less _ (by omega)).2
  · exact (aggregate_container (x :: rest) h x (fun a _ => a) Val.greater _ (by omega)).2
  · exact (aggregate_container [] h x (fun a _ => a) Val.less _ (by simp)).2
  · exact (aggregate_container [] h x (fun a _ => a) Val.greater _ (by simp)).2

/-- C33: over a non-empty container, `average<TResult>()` returns the sum of the
converted elements, accumulated in `TResult` from `TResult{}`, divided by the number
of elements, for every fuel of at least `|xs| + 3`, leaving the heap as it was; over
`{1, 2, 3, 4, 5}` with `double` it returns 3; over the empty container it raises
`collection_empty`. -/
theorem average_sum_over_count {ρ : Type} [Zero ρ] [Add ρ] [Div ρ] [NatCast ρ]
    (conv : Val α K → ρ) (x : Val α K) (rest : List (Val α K)) (h : Heap α K) (m : Nat) :
    linq_collection.average (m + (x :: rest).length + 3) h («from» (x :: rest)) conv
        = .ok (((x :: rest).map conv).foldl (· + ·) 0 / (((x :: rest).length : Nat) : ρ), h) ∧
      linq_collection.average (m + 3) h («from» ([] : List (Val α K))) conv
        = .error .collection_empty ∧
      linq_collection.average 8 [] («from» (ints [1, 2, 3, 4, 5])) Val.to_double
        = .ok (3, []) := by
  refine ⟨average_container conv (x :: rest) h _ (by omega),
    average_container conv [] h _ (by simp), ?_⟩
  rw [average_container Val.to_double (ints [1, 2, 3, 4, 5]) [] 8 (by decide)]
  simp only [ints, List.map_cons, List.map_nil, Val.to_double, List.foldl_cons, List.foldl_nil,
    List.length_cons, List.length_nil]
  norm_num

/-- C34: over a container, `all(f)` tells whether every element satisfies `f` and
`any(f)` whether some element does, for every fuel of at least `|xs| + 4`, leaving the
heap as it was; over the empty container `all(f)` is true and `any(f)` is false. -/
theorem all_any_quantifiers (xs : List (Val α K)) (f : Val α K → Bool) (h : Heap α K)
    (m : Nat) :
    (∃ b, linq_collection.all (m + xs.length + 4) h («from» xs) f = .ok (b, h) ∧
        (b = true ↔ ∀ x ∈ xs, f x = true)) ∧
      (∃ b, linq_collection.any (m + xs.length + 4) h («from» xs) f = .ok (b, h) ∧
        (b = true ↔ ∃ x ∈ xs, f x = true)) ∧
      linq_collection.all (m + 4) h («from» ([] : List (Val α K))) f = .ok (true, h) ∧
      linq_collection.any (m + 4) h («from» ([] : List (Val α K))) f = .ok (false, h) ∧
      linq_collection.all 9 [] («from» (ints [1, 2, 3, 4, 5])) greater_than_one
        = .ok (false, []) ∧
      linq_collection.any 9 [] («from» (ints [1, 2, 3, 4, 5])) greater_than_one
        = .ok (true, []) :=
  ⟨⟨xs.all f, all_container xs f h _ (by omega), List.all_eq_true⟩,
    ⟨xs.any f, any_container xs f h _ (by omega), List.any_eq_true⟩,
    all_container [] f h _ (by simp), any_container [] f h _ (by simp), rfl, rfl⟩

/-! ## The cursor of the filter, of `take_while`, and the cursor of a handle -/

/-- When the loop `check_move_iterator` returns, the cursor is at `_end` or on an
element that the predicate accepts. -/
theorem check_move_iterator_post (f : Val α K → Bool) (e : Iter α K) :
    ∀ (n : Nat) (h : Heap α K) (it it1 : Iter α K) (h1 : Heap α K),
      check_move_iterator n h it e f = .ok (it1, h1) →
      ∃ k, k < n ∧ (Iter.eq k h1 it1 e = .ok true ∨
        (Iter.eq k h1 it1 e = .ok false ∧ ∃ v, Iter.deref k h1 it1 = .ok v ∧ f v = true)) := by
  intro n
  induction n with
  | zero => intro h it it1 h1 hc; cases hc
  | succ n ih =>
    intro h it it1 h1 hc
    rw [check_move_iterator] at hc
    cases hq : Iter.eq n h it e with
    | error err => simp [Iter.ne, hq] at hc
    | ok b =>
      cases b with
      | true =>
        simp only [Iter.ne, hq, Bool.not_true] at hc
        cases hc
        exact ⟨n, Nat.lt_succ_self _, Or.inl hq⟩
      | false =>
        simp only [Iter.ne, hq, Bool.not_false] at hc
        cases hd : Iter.deref n h it with
        | error err => simp [hd] at hc
        | ok v =>
          simp only [hd] at hc
          cases hf : f v with
          | true =>
            simp only [hf, Bool.not_true, Bool.false_eq_true, if_false] at hc
            cases hc
            exact ⟨n, Nat.lt_succ_self _, Or.inr ⟨hq, v, hd, hf⟩⟩
          | false =>
            simp only [hf, Bool.not_false, if_true] at hc
            cases ha : Iter.advance n h it with
            | error err => simp [ha] at hc
            | ok p =>
              obtain ⟨it2, h2⟩ := p
              simp only [ha] at hc
              obtain ⟨k, hk, hr⟩ := ih h2 it2 it1 h1 hc
              exact ⟨k, Nat.lt_succ_of_lt hk, hr⟩

/-- A pass over the handle made from a container whose cursor object stands at
position `j`: it yields the elements from `j` on and leaves the cursor object at the
end of the container. -/
theorem handle_to_list (xs : List (Val α K)) (h : Heap α K) :
    ∀ (r j n : Nat), r = xs.length - j → j ≤ xs.length → r + 3 ≤ n →
      to_list_loop n (h ++ [.container xs j, .container xs xs.length])
        (.any_iterator h.length) (.any_iterator (h.length + 1))
      = .ok (xs.drop j, h ++ [.container xs xs.length, .container xs xs.length]) := by
  have hb : ∀ j : Nat, (h ++ [Iter.container xs j, Iter.container xs xs.length])[h.length]?
      = some (.container xs j) := by
    intro j; rw [List.getElem?_append_right (le_refl _)]; simp
  have hne : ∀ (j n : Nat), Iter.ne (n + 2)
      (h ++ [Iter.container xs j, Iter.container xs xs.length])
      (.any_iterator h.length) (.any_iterator (h.length + 1))
      = .ok (!decide (j = xs.length)) := by
    intro j n
    rw [any_iterator_ne (n + 1) h (.container xs j) (.container xs xs.length) rfl]
    rfl
  intro r
  induction r with
  | zero =>
    intro j n hr hj hn
    obtain ⟨m, rfl⟩ : ∃ m, n = m + 3 := ⟨n - 3, by omega⟩
    have : j = xs.length := by omega
    subst this
    rw [List.drop_length]
    exact to_list_loop_nil (by rw [hne]; simp)
  | succ r ih =>
    intro j n hr hj hn
    obtain ⟨m, rfl⟩ : ∃ m, n = m + 4 := ⟨n - 4, by omega⟩
    have hlt : j < xs.length := by omega
    have hnj : j ≠ xs.length := by omega
    rw [List.drop_eq_getElem_cons hlt]
    refine to_list_loop_cons (b := .any_iterator h.length)
      (g := h ++ [.container xs (j + 1), .container xs xs.length]) ?_ ?_ ?_ ?_
    · rw [hne]; simp [hnj]
    · simp only [Iter.deref, hb]
      simp [hlt]
    · simp only [Iter.advance, hb, hlt, if_true]
      rw [List.set_append, if_neg (by omega)]
      simp
    · exact ih (j + 1) (m + 3) (by omega) (by omega) (by omega)

/-! ## Claims on the cursors -/

/-- C36: the cursor `w` that the constructor of `where_iterator` returns, and the cursor
`w` that `operator++` of a `where_iterator` returns, is equal to the sentinel
`where_iterator(end, end, func)` or, if not, stands on an element that `func` accepts
(in the heap after the call, with some fuel below the fuel of the call). -/
theorem where_cursor_invariant (n : Nat) (h h1 : Heap α K) (b e a w : Iter α K)
    (f : Val α K → Bool)
    (hc : mk_where_iterator n h b e f = .ok (w, h1) ∨
      Iter.advance n h (.where_iterator a e f) = .ok (w, h1)) :
    ∃ k, k ≤ n ∧ (Iter.eq k h1 w (.where_iterator e e f) = .ok true ∨
      (Iter.eq k h1 w (.where_iterator e e f) = .ok false ∧
        ∃ v, Iter.deref k h1 w = .ok v ∧ f v = true)) := by
  have key : ∀ (n : Nat) (h : Heap α K) (it it1 : Iter α K),
      check_move_iterator n h it e f = .ok (it1, h1) →
      ∃ k, k ≤ n ∧ (Iter.eq k h1 (.where_iterator it1 e f) (.where_iterator e e f) = .ok true ∨
        (Iter.eq k h1 (.where_iterator it1 e f) (.where_iterator e e f) = .ok false ∧
          ∃ v, Iter.deref k h1 (.where_iterator it1 e f) = .ok v ∧ f v = true)) := by
    intro n h it it1 hm
    obtain ⟨k, hk, hr⟩ := check_move_iterator_post f e n h it it1 h1 hm
    exact ⟨k + 1, hk, by simpa [Iter.eq, Iter.deref] using hr⟩
  rcases hc with hc | hc
  · unfold mk_where_iterator at hc
    cases hm : check_move_iterator n h b e f with
    | error err => simp [hm] at hc
    | ok p =>
      obtain ⟨it1, h2⟩ := p
      simp only [hm, Except.ok.injEq, Prod.mk.injEq] at hc
      obtain ⟨rfl, rfl⟩ := hc
      exact key n h b it1 hm
  · cases n with
    | zero => cases hc
    | succ n =>
      rw [Iter.advance] at hc
      cases ha : Iter.advance n h a with
      | error err => simp [ha] at hc
      | ok p =>
        obtain ⟨a1, h2⟩ := p
        simp only [ha] at hc
        cases hm : check_move_iterator n h2 a1 e f with
        | error err => simp [hm] at hc
        | ok q =>
          obtain ⟨it1, h3⟩ := q
          simp only [hm, Except.ok.injEq, Prod.mk.injEq] at hc
          obtain ⟨rfl, rfl⟩ := hc
          obtain ⟨k, hk, hr⟩ := key n h2 a1 it1 hm
          exact ⟨k, Nat.le_succ_of_le hk, hr⟩

/-- C36 at `{1, 2, 3}` with the predicate `a > 1`: the constructor skips the rejected
first element and returns the cursor on 2. -/
theorem where_cursor_invariant_witness :
    mk_where_iterator 5 ([] : Heap Nat Nat) (.container example_123 0)
        (.container example_123 3) greater_than_one
      = .ok (.where_iterator (.container example_123 1) (.container example_123 3)
          greater_than_one, []) ∧
    ∃ k, k ≤ 5 ∧
      (Iter.eq k ([] : Heap Nat Nat)
          (.where_iterator (.container example_123 1) (.container example_123 3)
            greater_than_one)
          (.where_iterator (.container example_123 3) (.container example_123 3)
            greater_than_one) = .ok true ∨
        (Iter.eq k ([] : Heap Nat Nat)
            (.where_iterator (.container example_123 1) (.container example_123 3)
              greater_than_one)
            (.where_iterator (.container example_123 3) (.container example_123 3)
              greater_than_one) = .ok false ∧
          ∃ v, Iter.deref k ([] : Heap Nat Nat)
              (.where_iterator (.container example_123 1) (.container example_123 3)
                greater_than_one) = .ok v ∧ greater_than_one v = true)) :=
  ⟨rfl, where_cursor_invariant 5 [] [] (.container example_123 0) (.container example_123 3)
    (.container example_123 0) _ greater_than_one (Or.inl rfl)⟩

/-- C37 (the code at the failing input): `operator++` of a `take_while` cursor that
stands on the last element of a container moves the upstream cursor to the sentinel
and dereferences it, which is undefined behaviour, whatever the predicate and with
every fuel of at least 2; so over `{1, 2, 3, 4, 5}` with the predicate `a > 0`, which
the last element satisfies, a pass over `take_while` never yields a result, whatever
the fuel (undefined behaviour with fuel 8). -/
theorem take_while_advance_reads_sentinel (xs : List (Val α K)) (x : Val α K)
    (f : Val α K → Bool) (h : Heap α K) (m : Nat) :
    Iter.advance (m + 2) h
        (.take_while_iterator (.container (xs ++ [x]) xs.length)
          (.container (xs ++ [x]) (xs ++ [x]).length) f)
      = .error .undefined_behaviour ∧
    (∀ n : Nat,
      take_while_list n [] (ints [1, 2, 3, 4, 5]) greater_than_zero = .error .out_of_fuel ∨
      take_while_list n [] (ints [1, 2, 3, 4, 5]) greater_than_zero
        = .error .undefined_behaviour) ∧
    take_while_list 8 [] (ints [1, 2, 3, 4, 5]) greater_than_zero
      = .error .undefined_behaviour := by
  refine ⟨?_, fun n => take_while_list_all_error _ _ [] ?_ (by decide) n, by rfl⟩
  · have hnone : (xs ++ [x])[xs.length + 1]? = none :=
      List.getElem?_eq_none (by simp)
    simp [Iter.advance, Iter.deref, hnone]
  · intro y hy
    simp only [ints, List.map_cons, List.map_nil, List.mem_cons, List.mem_singleton,
      List.not_mem_nil, or_false] at hy
    rcases hy with rfl | rfl | rfl | rfl | rfl <;> rfl

/-- C38 (the code at the failing input): a copy of an `any_iterator` holds the same
`shared_ptr`, so in the model it is the same cursor value: advancing it moves the one
cursor object, and the original, which stood on 1, stands on 2 afterwards. A pass over
a handle consumes it: over the handle made from a container `xs`, the first `count()`
returns `|xs|` and the second, in the heap that the first leaves, returns 0, for every
fuel of at least `|xs| + 3`. -/
theorem handle_count_twice (xs : List (Val α K)) (h : Heap α K) (m : Nat) :
    (∃ g, linq_collection.count (m + xs.length + 3) (from_values h xs).2 (from_values h xs).1
        = .ok (xs.length, g) ∧
      linq_collection.count (m + xs.length + 3) g (from_values h xs).1 = .ok (0, g)) ∧
    Iter.deref 3 handle_12345.2 handle_12345.1._begin = .ok (.elem 1) ∧
    (∃ g, Iter.advance 3 handle_12345.2 handle_12345.1._begin
        = .ok (handle_12345.1._begin, g) ∧
      Iter.deref 3 g handle_12345.1._begin = .ok (.elem 2)) ∧
    (∃ g, linq_collection.count 8 handle_12345.2 handle_12345.1 = .ok (5, g) ∧
      linq_collection.count 8 g handle_12345.1 = .ok (0, g)) := by
  refine ⟨⟨h ++ [.container xs xs.length, .container xs xs.length], ?_, ?_⟩, rfl,
    ⟨_, rfl, rfl⟩, ⟨_, rfl, rfl⟩⟩
  · have := handle_to_list xs h (xs.length - 0) 0 (m + xs.length + 3) rfl (by omega) (by omega)
    exact @count_eq_length α K (m + xs.length + 3) (from_values h xs).2
      (h ++ [.container xs xs.length, .container xs xs.length]) (from_values h xs).1 xs
      (by simpa [linq_collection.to_list, from_values, mk_linq, «from»] using this)
  · have := handle_to_list xs h (xs.length - xs.length) xs.length (m + xs.length + 3) rfl
      (le_refl _) (by omega)
    exact @count_eq_length α K (m + xs.length + 3)
      (h ++ [.container xs xs.length, .container xs xs.length])
      (h ++ [.container xs xs.length, .container xs xs.length]) (from_values h xs).1 []
      (by simpa [linq_collection.to_list, from_values, mk_linq, «from»] using this)

/-! ## The key-value containers over a container -/

/-- A pass over the zip of `select(g)` of a container with the container itself. -/
theorem zip_select_to_list (xs : List (Val α K)) (g : Val α K → Val α K) (h : Heap α K) :
    ∀ (r j n : Nat), r = xs.length - j → j ≤ xs.length → r + 4 ≤ n →
      to_list_loop n h
        (.zip_iterator (.select_iterator (.container xs j) g)
          (.select_iterator (.container xs xs.length) g)
          (.container xs j) (.container xs xs.length))
        (.zip_iterator (.select_iterator (.container xs xs.length) g)
          (.select_iterator (.container xs xs.length) g)
          (.container xs xs.length) (.container xs xs.length))
      = .ok ((xs.drop j).map (fun x => Val.pair (g x) x), h) := by
  intro r
  induction r with
  | zero =>
    intro j n hr hj hn
    obtain ⟨m, rfl⟩ : ∃ m, n = m + 4 := ⟨n - 4, by omega⟩
    have : j = xs.length := by omega
    subst this
    rw [List.drop_length]
    exact to_list_loop_nil (by simp [Iter.ne, Iter.eq])
  | succ r ih =>
    intro j n hr hj hn
    obtain ⟨m, rfl⟩ : ∃ m, n = m + 5 := ⟨n - 5, by omega⟩
    have hlt : j < xs.length := by omega
    have hne : j ≠ xs.length := by omega
    rw [List.drop_eq_getElem_cons hlt, List.map_cons]
    refine to_list_loop_cons
      (b := .zip_iterator (.select_iterator (.container xs (j + 1)) g)
        (.select_iterator (.container xs xs.length) g)
        (.container xs (j + 1)) (.container xs xs.length)) (g := h) ?_ ?_ ?_ ?_
    · simp [Iter.ne, Iter.eq, hne]
    · simp [Iter.deref, hlt]
    · simp [Iter.advance, Iter.ne, Iter.eq, hne, hlt]
    · exact ih (j + 1) (m + 4) (by omega) (by omega) (by omega)

/-- The method `to_key_value_container` over a container inserts the pairs
`(key, element)` in the order of the elements. -/
theorem to_key_value_container_container (xs : List (Val α K)) (k : Val α K → K)
    (insert : List (K × Val α K) → Val α K → List (K × Val α K)) (h : Heap α K) (n : Nat)
    (hn : xs.length + 4 ≤ n) :
    linq_collection.to_key_value_container n h («from» xs) k insert
      = .ok ((xs.map (fun x => Val.pair (.key (k x)) x)).foldl insert [], h) := by
  have := zip_select_to_list xs (key_selector k) h (xs.length - 0) 0 n rfl (by omega) (by omega)
  unfold linq_collection.to_key_value_container
  rw [for_each_eq_foldl]
  simp only [linq_collection.zip_with_impl, linq_collection.select, «from»]
  rw [this]
  rfl

section unique_map
variable [LinearOrder K]

/-- The invariant of the insertions of `to_map` after the elements `pre`: the keys of
the map are strictly ascending, and the map holds, for every key, the first element
of `pre` with that key. -/
theorem map_insert_unique_foldl (k : Val α K → K) (xs : List (Val α K)) :
    (((xs.map (fun x => Val.pair (.key (k x)) x)).foldl map_insert_unique []).map
        Prod.fst).Pairwise (· < ·) ∧
      ∀ (key : K) (v : Val α K),
        (key, v) ∈ (xs.map (fun x => Val.pair (.key (k x)) x)).foldl map_insert_unique [] ↔
          xs.find? (fun x => decide (k x = key)) = some v := by
  induction xs using List.reverseRecOn with
  | nil => simp
  | append_singleton pre x ih =>
    obtain ⟨hs, hm⟩ := ih
    rw [List.map_append, List.foldl_append]
    simp only [List.map_cons, List.map_nil, List.foldl_cons, List.foldl_nil]
    generalize (pre.map (fun x => Val.pair (.key (k x)) x)).foldl map_insert_unique [] = m
      at hs hm ⊢
    have hfind : ∀ key : K, (pre ++ [x]).find? (fun y => decide (k y = key))
        = (pre.find? (fun y => decide (k y = key))).or
            (if k x = key then some x else none) := by
      intro key
      rw [List.find?_append]
      congr 1
      by_cases hk : k x = key <;> simp [List.find?_cons, hk]
    show ((map_insert_unique m (.pair (.key (k x)) x)).map Prod.fst).Pairwise (· < ·) ∧ _
    cases hf : map_find m (k x) with
    | none =>
      have hnot : k x ∉ m.map Prod.fst := (map_find_eq_none hs).mp hf
      have hnone : pre.find? (fun y => decide (k y = k x)) = none := by
        cases hp : pre.find? (fun y => decide (k y = k x)) with
        | none => rfl
        | some v =>
          exact absurd (List.mem_map_of_mem Prod.fst ((hm (k x) v).mpr hp)) hnot
      have hu : map_insert_unique m (.pair (.key (k x)) x) = map_insert m (k x) x := by
        simp only [map_insert_unique, hf]
      rw [hu]
      refine ⟨map_insert_sorted x hs hnot, fun key v => ?_⟩
      rw [mem_map_insert, hfind, hm]
      by_cases hk : k x = key
      · subst hk
        simp only [hnone, if_true, Option.or, Prod.mk.injEq, true_and]
        constructor
        · rintro (e | e)
          · rw [e]
          · cases e
        · intro e; exact Or.inl (Option.some.inj e).symm
      · simp only [hk, if_false, Prod.mk.injEq]
        constructor
        · rintro (e | e)
          · exact absurd e.1.symm hk
          · simpa using e
        · intro e
          right
          simpa using e
    | some v0 =>
      have hu : map_insert_unique m (.pair (.key (k x)) x) = m := by
        simp only [map_insert_unique, hf]
      rw [hu]
      refine ⟨hs, fun key v => ?_⟩
      rw [hfind, hm]
      by_cases hk : k x = key
      · subst hk
        have h0 := (hm (k x) v0).mp ((map_find_eq_some hs).mp hf)
        rw [h0]
        simp
      · simp [hk]

/-- The method `to_map(keySelector)` over a container: the entries have strictly
ascending keys, and the map holds exactly the pairs of a key and the first element
with that key. -/
theorem to_map_container (xs : List (Val α K)) (k : Val α K → K) (h : Heap α K) (n : Nat)
    (hn : xs.length + 4 ≤ n) :
    ∃ m, linq_collection.to_map n h («from» xs) k = .ok (m, h) ∧
      (m.map Prod.fst).Pairwise (· < ·) ∧
      (∀ (key : K) (v : Val α K),
        (key, v) ∈ m ↔ xs.find? (fun x => decide (k x = key)) = some v) ∧
      (∀ key : K, key ∈ m.map Prod.fst ↔ ∃ x ∈ xs, k x = key) ∧
      ((xs.map k).Nodup →
        m.map Prod.snd = xs.mergeSort (fun a b => decide (k a ≤ k b)) ∧
        m.map Prod.fst = (xs.mergeSort (fun a b => decide (k a ≤ k b))).map k) := by
  obtain ⟨hs, hm⟩ := map_insert_unique_foldl k xs
  refine ⟨_, to_key_value_container_container xs k map_insert_unique h n hn, hs, hm, ?_, ?_⟩
  all_goals
    generalize (xs.map (fun x => Val.pair (.key (k x)) x)).foldl map_insert_unique [] = m
      at hs hm ⊢
  · intro key
    constructor
    · intro hk
      obtain ⟨p, hp, rfl⟩ := List.mem_map.mp hk
      have := (hm p.1 p.2).mp hp
      exact ⟨p.2, List.mem_of_find?_eq_some this, by simpa using List.find?_some this⟩
    · rintro ⟨x, hx, rfl⟩
      cases hf : xs.find? (fun y => decide (k y = k x)) with
      | none =>
        have := List.find?_eq_none.mp hf x hx
        simp at this
      | some v => exact List.mem_map_of_mem Prod.fst ((hm (k x) v).mpr hf)
  · intro hnd
    have hkv : ∀ p ∈ m, k p.2 = p.1 := by
      intro p hp
      have := (hm p.1 p.2).mp hp
      simpa using List.find?_some this
    have hmem : ∀ v, v ∈ m.map Prod.snd ↔ v ∈ xs := by
      intro v
      constructor
      · intro hv
        obtain ⟨p, hp, rfl⟩ := List.mem_map.mp hv
        exact List.mem_of_find?_eq_some ((hm p.1 p.2).mp hp)
      · intro hv
        cases hf : xs.find? (fun y => decide (k y = k v)) with
        | none =>
          have := List.find?_eq_none.mp hf v hv
          simp at this
        | some w =>
          have hw := List.mem_of_find?_eq_some hf
          have hkw : k w = k v := by simpa using List.find?_some hf
          have : w = v := List.inj_on_of_nodup_map hnd hw hv hkw
          subst this
          exact List.mem_map_of_mem Prod.snd ((hm (k w) w).mpr hf)
    have hsnd : (m.map Prod.snd).Pairwise (fun a b => k a < k b) := by
      rw [List.pairwise_map]
      have := List.pairwise_map.mp hs
      refine this.imp_of_mem ?_
      intro a b ha hb hab
      rw [hkv a ha, hkv b hb]
      exact hab
    have hvals : m.map Prod.snd = xs.mergeSort (fun a b => decide (k a ≤ k b)) :=
      eq_mergeSort_of_stable k xs _ (hsnd.imp le_of_lt) fun key => by
        have hnd1 : (m.map Prod.snd).Nodup := hsnd.imp fun hab e => by
          rw [e] at hab; exact lt_irrefl _ hab
        have hnd2 : xs.Nodup := List.Nodup.of_map k hnd
        have hp : (m.map Prod.snd).Perm xs := (List.perm_ext_iff_of_nodup hnd1 hnd2).mpr hmem
        have hp2 := hp.filter (fun x => decide (k x = key))
        have hle : ∀ l : List (Val α K), (l.map k).Nodup →
            (l.filter (fun x => decide (k x = key))).length ≤ 1 := by
          intro l
          induction l with
          | nil => intro _; simp
          | cons a l ih =>
            intro hn
            rw [List.map_cons, List.nodup_cons] at hn
            by_cases hk : k a = key
            · have : l.filter (fun x => decide (k x = key)) = [] := by
                rw [List.filter_eq_nil_iff]
                intro y hy hc
                exact hn.1 (List.mem_map.mpr ⟨y, hy, by rw [of_decide_eq_true hc, hk]⟩)
              simp [List.filter_cons, hk, this]
            · simpa [List.filter_cons, hk] using ih hn.2
        have h2 := hle xs hnd
        have hl := hp2.length_eq
        match hx : xs.filter (fun x => decide (k x = key)), h2 with
        | [], _ =>
          rw [hx] at hp2
          exact List.Perm.eq_nil hp2
        | [a], _ =>
          rw [hx] at hp2
          exact List.perm_singleton.mp hp2
        | a :: b :: t, h2 =>
          simp at h2
    refine ⟨hvals, ?_⟩
    rw [← hvals, List.map_map]
    refine List.map_congr_left fun p hp => ?_
    exact (hkv p hp).symm

end unique_map

/-- The call `count()` on the handle that `from_values` returns. -/
theorem count_of_from_values (h : Heap α K) (v : List (Val α K)) (n : Nat)
    (hn : v.length + 3 ≤ n) :
    count_of n (.ok (from_values h v)) = .ok v.length := by
  obtain ⟨h1, ht, -, -⟩ := (from_values_owns h v 0).to_list_loop n (by omega)
  have hc := @count_eq_length α K n (from_values h v).2 h1 (from_values h v).1 v
    (by simpa [linq_collection.to_list, from_values_fst] using ht)
  unfold count_of
  simp only [hc]

/-! ## Claims on the key-value containers and on the set operations -/

/-- C35 (the code at the failing input): for the handle `linq<int> x = from(b)` with
`b = {1, 2, 3, 4, 5}`, `x.to_map(f)` with the identity key never returns a map,
whatever the fuel. In `select(keySelector).zip_with(*this)` both upstream cursors of
the zip are copies of the `any_iterator` of the handle and share one cursor object,
which `operator++` of the zip advances twice: with five elements the sixth advance
moves it past the end of the container (undefined behaviour, with every fuel of at
least 7), and for the handle over `{1, 2, 3, 4}` the map holds the entries of 1 and 3
only. Over the container `b` itself the map holds the five entries. -/
theorem to_map_of_handle_skips (m : Nat) :
    linq_collection.to_map (m + 7) handle_12345.2 handle_12345.1 identity_key
        = .error .undefined_behaviour ∧
    (∀ n : Nat,
      linq_collection.to_map n handle_12345.2 handle_12345.1 identity_key
          = .error .out_of_fuel ∨
      linq_collection.to_map n handle_12345.2 handle_12345.1 identity_key
          = .error .undefined_behaviour) ∧
    linq_collection.to_map (m + 7) handle_1234.2 handle_1234.1 identity_key
        = .ok ([(1, .elem 1), (3, .elem 3)],
            [.container (ints [1, 2, 3, 4]) 4, .container (ints [1, 2, 3, 4]) 4]) ∧
    linq_collection.to_map (m + 9) [] («from» (ints [1, 2, 3, 4, 5])) identity_key
        = .ok ([(1, .elem 1), (2, .elem 2), (3, .elem 3), (4, .elem 4), (5, .elem 5)], []) := by
  refine ⟨by rfl, fun n => ?_, by rfl, by rfl⟩
  by_cases hn : n < 7
  · left
    interval_cases n <;> rfl
  · right
    obtain ⟨j, rfl⟩ : ∃ j, n = j + 7 := ⟨n - 7, by omega⟩
    rfl

/-- Over two containers, for every fuel of at least `|xs| + |ts| + 3`, every value
that the pass over `distinct()` yields is yielded by exactly one of the passes over
`intersect_with` and `except_with`, which yield no other value and no value twice, and
the counts of the two add up to the count of `distinct()`. -/
theorem intersect_except_partition_distinct [LinearOrder (Val α K)] (xs ts : List (Val α K))
    (h : Heap α K) (m : Nat) :
    ∃ is es ds,
      elements (m + xs.length + ts.length + 3)
        (linq_collection.intersect_with_impl (m + xs.length + ts.length + 3) h
          («from» xs) («from» ts)) = .ok is ∧
      elements (m + xs.length + ts.length + 3)
        (linq_collection.except_with_impl (m + xs.length + ts.length + 3) h
          («from» xs) («from» ts)) = .ok es ∧
      elements (m + xs.length + ts.length + 3)
        (linq_collection.distinct (m + xs.length + ts.length + 3) h («from» xs)) = .ok ds ∧
      is.Nodup ∧ es.Nodup ∧ ds.Nodup ∧
      (∀ v, v ∈ ds ↔ (v ∈ is ∨ v ∈ es)) ∧ (∀ v, ¬(v ∈ is ∧ v ∈ es)) ∧
      count_of (m + xs.length + ts.length + 3)
        (linq_collection.intersect_with_impl (m + xs.length + ts.length + 3) h
          («from» xs) («from» ts)) = .ok is.length ∧
      count_of (m + xs.length + ts.length + 3)
        (linq_collection.except_with_impl (m + xs.length + ts.length + 3) h
          («from» xs) («from» ts)) = .ok es.length ∧
      count_of (m + xs.length + ts.length + 3)
        (linq_collection.distinct (m + xs.length + ts.length + 3) h («from» xs))
        = .ok ds.length ∧
      is.length + es.length = ds.length := by
  obtain ⟨hs1, hs2⟩ := set_of_foldl ts [] List.Pairwise.nil
  obtain ⟨wi, hi1, hi2, hi3, hi4, -⟩ := intersect_step_foldl xs [] _ [] List.Pairwise.nil hs1
  obtain ⟨we, he1, he2, he3, he4, -⟩ := insert_step_foldl xs _ [] hs1
  obtain ⟨wd, hd1, hd2, hd3, hd4, -⟩ := insert_step_foldl xs [] [] List.Pairwise.nil
  have hli := hi4.length_le
  have hle := he4.length_le
  have hld := hd4.length_le
  have hI : linq_collection.intersect_with_impl (m + xs.length + ts.length + 3) h
      («from» xs) («from» ts) = .ok (from_values h wi) := by
    unfold linq_collection.intersect_with_impl set_of_range
    rw [for_each_container _ ts h _ _ (by omega)]
    simp only
    rw [for_each_container _ xs h _ _ (by omega)]
    simp only [hi1, List.nil_append]
  have hE : linq_collection.except_with_impl (m + xs.length + ts.length + 3) h
      («from» xs) («from» ts) = .ok (from_values h we) := by
    unfold linq_collection.except_with_impl set_of_range
    rw [for_each_container _ ts h _ _ (by omega)]
    simp only
    rw [for_each_container _ xs h _ _ (by omega)]
    simp only [he1, List.nil_append]
  have hD : linq_collection.distinct (m + xs.length + ts.length + 3) h («from» xs)
      = .ok (from_values h wd) := by
    unfold linq_collection.distinct
    rw [for_each_container _ xs h _ _ (by omega)]
    simp only [hd1, List.nil_append]
  have hmi : ∀ v, v ∈ wi ↔ v ∈ xs ∧ v ∈ ts := fun v => by simp [hi3, hs2]
  have hme : ∀ v, v ∈ we ↔ v ∈ xs ∧ v ∉ ts := fun v => by simp [he3, hs2]
  have hmd : ∀ v, v ∈ wd ↔ v ∈ xs := fun v => by simp [hd3]
  have hdisj : ∀ v, ¬(v ∈ wi ∧ v ∈ we) := by
    intro v hv
    exact ((hme v).mp hv.2).2 ((hmi v).mp hv.1).2
  have hunion : ∀ v, v ∈ wd ↔ (v ∈ wi ∨ v ∈ we) := by
    intro v
    rw [hmd, hmi, hme]
    tauto
  have hperm : (wi ++ we).Perm wd := by
    refine (List.perm_ext_iff_of_nodup ?_ hd2).mpr fun v => ?_
    · exact List.Nodup.append hi2 he2 fun v h1 h2 => hdisj v ⟨h1, h2⟩
    · rw [List.mem_append, hunion]
  refine ⟨wi, we, wd, ?_, ?_, ?_, hi2, he2, hd2, hunion, hdisj, ?_, ?_, ?_, ?_⟩
  · rw [hI]; exact elements_from_values h wi _ (by omega)
  · rw [hE]; exact elements_from_values h we _ (by omega)
  · rw [hD]; exact elements_from_values h wd _ (by omega)
  · rw [hI]; exact count_of_from_values h wi _ (by omega)
  · rw [hE]; exact count_of_from_values h we _ (by omega)
  · rw [hD]; exact count_of_from_values h wd _ (by omega)
  · have := hperm.length_eq
    rwa [List.length_append] at this

/-! ## The groups of the full join -/

section equal_range
variable [LinearOrder K] {β : Type}

end equal_range

/-- C8 (the code at the failing input): the sequence
`from(xs).concat(from_empty<int>())` for `xs = {1, 2, 3}` holds 1, 2, 3, all of which
satisfy `a != 4`, but a pass over its `take_while` raises `collection_empty` instead of
yielding 1, 2, 3, with every fuel of at least 7, and never yields a result. The
method `operator++` evaluates `_func(*++_iter)` without a test against `_end`, and
behind the last element the concatenation dereferences the cursor of `from_empty`,
whose `operator*` throws; this holds for the advance from the last element of every
container, whatever the predicate. -/
theorem take_while_all_satisfy_raises (xs : List (Val α K)) (x : Val α K)
    (f : Val α K → Bool) (h : Heap α K) (m : Nat) :
    linq_collection.to_list (m + 7) (from_empty ([] : Heap Nat Nat)).2
        ((«from» example_123).concat_impl (from_empty []).1)
      = .ok (example_123, (from_empty []).2) ∧
    example_123.takeWhile not_four = example_123 ∧
    concat_empty_take_while_list (m + 7) [] example_123 not_four
      = .error .collection_empty ∧
    (∀ n : Nat,
      concat_empty_take_while_list n [] example_123 not_four = .error .out_of_fuel ∨
      concat_empty_take_while_list n [] example_123 not_four = .error .collection_empty) ∧
    Iter.advance (m + 4) (from_empty h).2
        (.take_while_iterator
          (.concat_iterator (.container (xs ++ [x]) xs.length)
            (.container (xs ++ [x]) (xs ++ [x]).length) (from_empty h).1._begin
            (from_empty h).1._end)
          (.concat_iterator (.container (xs ++ [x]) (xs ++ [x]).length)
            (.container (xs ++ [x]) (xs ++ [x]).length) (from_empty h).1._end
            (from_empty h).1._end) f)
      = .error .collection_empty := by
  refine ⟨by rfl, by rfl, by rfl, fun n => ?_, ?_⟩
  · by_cases hn : n < 7
    · left
      interval_cases n <;> rfl
    · right
      obtain ⟨j, rfl⟩ : ∃ j, n = j + 7 := ⟨n - 7, by omega⟩
      rfl
  · have hb : (h ++ [Iter.empty_iterator, Iter.empty_iterator])[h.length]?
        = some (Iter.empty_iterator : Iter α K) := by
      rw [List.getElem?_append_right (le_refl _)]; simp
    simp [Iter.advance, Iter.deref, Iter.ne, Iter.eq, from_empty, mk_linq, hb]

/-- C10 (the code at the failing input): for the handle `linq<int> x = from(b)` with
`b = {1, 2, 3, 4, 5}`, the calls `x.take(2).count()`, `x.skip(2).count()` and
`x.count()`, one after the other, return 2, 2 and 0, with every fuel of at least 6, so
the counts of the two parts do not add up to the count of the whole: the three
pipelines hold copies of the cursor of `x`, which share one cursor object, and each
pass starts where the one before left it. For the container `b` itself the calls
return 2, 3 and 5. -/
theorem take_skip_counts_of_handle (m : Nat) :
    take_skip_counts (m + 6) handle_12345.2 handle_12345.1 2 = .ok (2, 2, 0) ∧
    take_skip_counts (m + 9) [] («from» (ints [1, 2, 3, 4, 5])) 2 = .ok (2, 3, 5) := by
  constructor <;> rfl

/-- C13 (the code at the failing input): for the handle `linq<int> x = from(b)` with
`b = {1, 2, 3, 4, 5}`, a pass over `x.concat(x)` yields 1, 2, 3, 4, 5 once, not twice,
because both cursors of the concatenation are copies of the cursor of `x` and share
one cursor object (every fuel of at least 9); and for a second handle `y` over `{6, 7}` the calls
`x.concat(y).count()`, `x.count()` and `y.count()`, one after the other, return 7, 0
and 0, with every fuel of at least 11. For the containers themselves the calls return
7, 5 and 2. -/
theorem concat_of_handles (m : Nat) :
    elements (m + 9) (.ok (handle_12345.1.concat_impl handle_12345.1, handle_12345.2))
      = .ok (ints [1, 2, 3, 4, 5]) ∧
    concat_counts (m + 11) handle_67.2 handle_12345.1 handle_67.1 = .ok (7, 0, 0) ∧
    concat_counts (m + 10) [] («from» (ints [1, 2, 3, 4, 5])) («from» (ints [6, 7]))
      = .ok (7, 5, 2) := by
  refine ⟨?_, ?_, ?_⟩ <;> rfl

/-- C15 (the code at the failing input): for the handle `linq<int> s = from(a)` with
`a = {1, 1, 2, 2, 3, 3}`, the call `s.distinct().distinct().sequence_equal(s.distinct())`
returns `false`, with every fuel of at least 9: the first `s.distinct()` leaves the
cursor object of `s` at its end, so the second one yields no element. For the
container `a` itself the call returns `true`. -/
theorem distinct_twice_of_handle (m : Nat) :
    distinct_idempotent_check (m + 9) handle_112233.2 handle_112233.1 = .ok false ∧
    distinct_idempotent_check (m + 9) [] («from» (ints [1, 1, 2, 2, 3, 3])) = .ok true := by
  constructor <;> rfl

/-- C17 (the code at the failing input): for the handle `linq<int> s = from(a)` with
`a = {1, 1, 2, 2, 3, 3}`, a pass over `s.intersect_with(s)` yields no element, with
every fuel of at least 9, where the values of `s` that occur in `s` are 1, 2, 3: the
range constructor of the set of the argument leaves the shared cursor object at its
end, and the loop over the receiver finds no element. For the container `a` itself the
pass yields 1, 2, 3. -/
theorem intersect_with_same_handle (m : Nat) :
    elements (m + 9)
        (linq_collection.intersect_with_impl (m + 9) handle_112233.2 handle_112233.1
          handle_112233.1) = .ok [] ∧
    elements (m + 9)
        (linq_collection.intersect_with_impl (m + 9) [] («from» (ints [1, 1, 2, 2, 3, 3]))
          («from» (ints [1, 1, 2, 2, 3, 3]))) = .ok (ints [1, 2, 3]) := by
  constructor <;> rfl

/-- C18 (the code at the failing input): for the handles `linq<int> s = from(a)` and
`linq<int> t = from(b)` with `a = {1, 1, 2, 2, 3, 3}` and `b = {2, 2, 3, 3, 4, 4}`, the
call `s.union_with(t).sequence_equal(s.concat(t).distinct())` returns `false`, with
every fuel of at least 16: `union_with` leaves the cursor objects of `s` and `t` at
their ends, so `s.concat(t).distinct()` yields no element. For the containers
themselves the call returns `true`. -/
theorem union_with_of_handles (m : Nat) :
    union_concat_distinct_check (m + 16) handle_223344.2 handle_112233.1 handle_223344.1
      = .ok false ∧
    union_concat_distinct_check (m + 16) [] («from» (ints [1, 1, 2, 2, 3, 3]))
      («from» (ints [2, 2, 3, 3, 4, 4])) = .ok true := by
  constructor <;> rfl

/-- C23 (the code at the failing input): for the handle made from a container `xs`,
`count()` returns `|xs|` and `to_list()`, called after it, returns the empty list, for
every fuel of at least `|xs| + 3`: the loop cursor of `count()` is a copy of `_begin`
and shares its cursor object, which the loop leaves at the end. For
`linq<int> x = from(b)` with `b = {1, 2, 3, 4, 5}` the count is 5 and the list has no
element. -/
theorem count_then_to_list_of_handle (xs : List (Val α K)) (h : Heap α K) (m : Nat) :
    count_and_to_list (m + xs.length + 3) (from_values h xs).2 (from_values h xs).1
      = .ok (xs.length, []) ∧
    count_and_to_list 8 handle_12345.2 handle_12345.1 = .ok (5, []) := by
  refine ⟨?_, by rfl⟩
  have h1 := handle_to_list xs h (xs.length - 0) 0 (m + xs.length + 3) rfl (by omega)
    (by omega)
  have h2 := handle_to_list xs h (xs.length - xs.length) xs.length (m + xs.length + 3) rfl
    (le_refl _) (by omega)
  have hc := @count_eq_length α K (m + xs.length + 3) (from_values h xs).2
    (h ++ [.container xs xs.length, .container xs xs.length]) (from_values h xs).1 xs
    (by simpa [linq_collection.to_list, from_values, mk_linq, «from»] using h1)
  have ht : linq_collection.to_list (m + xs.length + 3)
      (h ++ [.container xs xs.length, .container xs xs.length]) (from_values h xs).1
      = .ok ([], h ++ [.container xs xs.length, .container xs xs.length]) := by
    simpa [linq_collection.to_list, from_values, mk_linq, «from»] using h2
  unfold count_and_to_list
  rw [hc]
  simp only [ht]

/-- C39 (the code at the failing input): for the handles `linq<int> s = from(a)` and
`linq<int> t = from(b)` with `a = {1, 1, 2, 2, 3, 3}` and `b = {2, 2, 3, 3, 4, 4}`, the
calls `s.intersect_with(t).count()`, `s.except_with(t).count()` and
`s.distinct().count()`, one after the other, return 2, 0 and 0, with every fuel of at
least 9, so the counts of the two parts do not add up to the count of `distinct()`:
the first call leaves the cursor objects of `s` and `t` at their ends. For the
containers themselves the calls return 2, 1 and 3. -/
theorem partition_counts_of_handles (m : Nat) :
    partition_counts (m + 9) handle_223344.2 handle_112233.1 handle_223344.1
      = .ok (2, 0, 0) ∧
    partition_counts (m + 10) [] («from» (ints [1, 1, 2, 2, 3, 3]))
      («from» (ints [2, 2, 3, 3, 4, 4])) = .ok (2, 1, 3) := by
  constructor <;> rfl

end mqLinq
